import Mathlib

/-!
# Verification of the run-length sequence engine

A shallow embedding of the `sequence` Go package: the byte-level varint
codec, the `Sequence` state and its mutations, the query engine and the
store, together with proofs about the properties claimed in the
specification.

Bytes are modelled as `Nat` (kept below 256 by the definitions), byte
buffers as `List Nat`, Go's `uint32` arithmetic as `Nat` arithmetic with
explicit `% 4294967296`, and Go's `int64` arithmetic as `Int` with Go's
truncated division (`Int.tdiv`). A function that can panic in Go (index
out of range) returns an `Option`, `none` marking the panic.
-/

namespace RunLength

/-- Helper: Go's `int64` division truncates toward zero. -/
def godiv (a b : Int) : Int := Int.tdiv a b

/-- Helper: Go's `int64` remainder (sign of the dividend). -/
def gomod (a b : Int) : Int := Int.tmod a b

/-- The byte-emitting loop of `encode` (sequence.go): while `x >= 0x80`
emit `byte(x) | 0x80` and shift `x` right by 7; finally emit `byte(x)`. -/
def encodeLoop (x : Nat) : List Nat :=
  if _h : x < 128 then [x]
  else (x % 256 ||| 128) :: encodeLoop (x / 128)
termination_by x
decreasing_by exact Nat.div_lt_self (by omega) (by omega)

/-- `encode` (sequence.go): packs `(count, value)` as a varint, the value
living in the two least-significant bits of the first byte
(`x := count << 2`, then `s[0] |= value`). -/
def encode (count value : Nat) : List Nat :=
  match encodeLoop (count * 4) with
  | [] => []
  | b :: rest => (b ||| value) :: rest

/-- The accumulation loop shared by `next` and `decode` (sequence.go):
starting from accumulator `x` at bit position `shift`, with `cur` the
byte at the current index, absorb 7-bit groups while the current byte has
its continuation bit set. Returns the final accumulator and the number of
continuation bytes consumed. The `uint32` accumulator wraps modulo
`2^32`. -/
def parseLoop (x shift cur : Nat) : List Nat → Nat × Nat
  | [] => (x, 0)
  | b :: rest =>
    if cur < 128 then (x, 0)
    else
      let r := parseLoop (x ||| b % 128 * 2 ^ shift % 4294967296) (shift + 7) b rest
      (r.1, r.2 + 1)

/-- `Sequence.next` (sequence.go): decode the run record starting at
offset `p` of `data`, returning `(count, value, bytesRead)`. Accessing
an offset past the end of the buffer panics in Go, modelled by `none`. -/
def next (data : List Nat) (p : Nat) : Option (Nat × Nat × Nat) :=
  match data.drop p with
  | [] => none
  | b0 :: rest =>
    let r := parseLoop (b0 % 128 / 4) 5 b0 rest
    some (r.1, b0 % 4, r.2 + 1)

/-- The strict accumulation loop of `decode` (sequence.go): identical to
`parseLoop` except that meeting a byte without continuation bit before
the end of the buffer is a structural error (`none`) instead of a
stopping point. -/
def decodeLoop (x shift cur : Nat) : List Nat → Option (Nat × Nat)
  | [] => some (x, 0)
  | b :: rest =>
    if cur < 128 then none
    else
      match decodeLoop (x ||| b % 128 * 2 ^ shift % 4294967296) (shift + 7) b rest with
      | none => none
      | some r => some (r.1, r.2 + 1)

/-- `decode` (sequence.go): decode a whole buffer produced by `encode`,
returning `(count, value, bytesRead)`, or `(0, 0, 0)` when the last byte
still has the continuation bit set or a middle byte does not. Go indexes
out of range on an empty buffer; the model returns `(0, 0, 0)` there
(unreached: `encode` never returns an empty buffer). -/
def decode (buf : List Nat) : Nat × Nat × Nat :=
  match buf with
  | [] => (0, 0, 0)
  | b0 :: rest =>
    if 128 ≤ (b0 :: rest).getLastD 0 then (0, 0, 0)
    else
      match decodeLoop (b0 % 128 / 4) 5 b0 rest with
      | none => (0, 0, 0)
      | some r => (r.1, b0 % 4, r.2 + 1)

/-! ## Small-step equations for the loops -/

theorem parseLoop_nil (x shift cur : Nat) : parseLoop x shift cur [] = (x, 0) := rfl

theorem parseLoop_cons_lt {cur : Nat} (h : cur < 128) (x shift b : Nat)
    (rest : List Nat) : parseLoop x shift cur (b :: rest) = (x, 0) := by
  simp [parseLoop, h]

theorem parseLoop_cons_ge {cur : Nat} (h : 128 ≤ cur) (x shift b : Nat)
    (rest : List Nat) :
    parseLoop x shift cur (b :: rest) =
      ((parseLoop (x ||| b % 128 * 2 ^ shift % 4294967296) (shift + 7) b rest).1,
        (parseLoop (x ||| b % 128 * 2 ^ shift % 4294967296) (shift + 7) b rest).2 + 1) := by
  simp [parseLoop, Nat.not_lt.mpr h]

theorem decodeLoop_nil (x shift cur : Nat) : decodeLoop x shift cur [] = some (x, 0) := rfl

theorem decodeLoop_cons_ge {cur : Nat} (h : 128 ≤ cur) (x shift b : Nat)
    (rest : List Nat) :
    decodeLoop x shift cur (b :: rest) =
      match decodeLoop (x ||| b % 128 * 2 ^ shift % 4294967296) (shift + 7) b rest with
      | none => none
      | some r => some (r.1, r.2 + 1) := by
  simp [decodeLoop, Nat.not_lt.mpr h]

/-! ## Structure of the encoder output -/

theorem encodeLoop_ne_nil (x : Nat) : encodeLoop x ≠ [] := by
  rw [encodeLoop]
  split <;> simp

theorem encodeLoop_of_lt {x : Nat} (h : x < 128) : encodeLoop x = [x] := by
  rw [encodeLoop]
  simp [h]

theorem encodeLoop_of_ge {x : Nat} (h : 128 ≤ x) :
    encodeLoop x = (x % 256 ||| 128) :: encodeLoop (x / 128) := by
  rw [encodeLoop]
  simp [Nat.not_lt.mpr h]

/-- Writing the OR of a small number into the cleared low bits is
addition. -/
theorem lor_mul_pow {a b s : Nat} (h : a < 2 ^ s) :
    a ||| b * 2 ^ s = a + b * 2 ^ s := by
  rw [Nat.or_comm, Nat.mul_comm b (2 ^ s), ← Nat.mul_add_lt_is_or h b]
  omega

/-- Setting the continuation bit of a byte: `z % 256 ||| 128` is
`z % 128 + 128`. -/
theorem lor_128 (z : Nat) : z % 256 ||| 128 = z % 128 + 128 := by
  rcases Nat.lt_or_ge (z % 256) 128 with hlt | hge
  · have h0 : z % 256 = z % 128 := by omega
    rw [h0]
    have := lor_mul_pow (a := z % 128) (b := 1) (s := 7) (by omega)
    simpa using this
  · have hz : z % 256 = z % 128 + 128 := by omega
    rw [hz]
    have h1 : z % 128 + 128 = z % 128 + 1 * 2 ^ 7 := by ring
    rw [h1, ← lor_mul_pow (by omega : z % 128 < 2 ^ 7)]
    have h2 : (z % 128 ||| 1 * 2 ^ 7) ||| 128 = z % 128 ||| (1 * 2 ^ 7 ||| 128) :=
      Nat.or_assoc _ _ _
    simpa using h2

theorem encodeLoop_head_ge (x : Nat) : 128 ≤ (x % 256 ||| 128) := by
  rw [lor_128]
  omega

/-- The last byte of the loop output has its continuation bit clear. -/
theorem encodeLoop_last_lt (x : Nat) : ∀ d, (encodeLoop x).getLastD d < 128 := by
  induction x using Nat.strong_induction_on with
  | _ x ih =>
    intro d
    rcases Nat.lt_or_ge x 128 with h | h
    · rw [encodeLoop_of_lt h]
      simpa using h
    · rw [encodeLoop_of_ge h]
      have hne := encodeLoop_ne_nil (x / 128)
      have := ih (x / 128) (Nat.div_lt_self (by omega) (by omega))
      cases hlp : encodeLoop (x / 128) with
      | nil => exact absurd hlp hne
      | cons a l =>
        have h2 := this a
        rw [hlp] at h2
        simpa using h2

/-- Every byte of the loop output except the last has the continuation
bit set. -/
theorem encodeLoop_dropLast_ge (x : Nat) :
    ∀ b ∈ (encodeLoop x).dropLast, 128 ≤ b := by
  induction x using Nat.strong_induction_on with
  | _ x ih =>
    rcases Nat.lt_or_ge x 128 with h | h
    · rw [encodeLoop_of_lt h]
      simp
    · rw [encodeLoop_of_ge h]
      intro b hb
      have hne := encodeLoop_ne_nil (x / 128)
      rw [List.dropLast_cons_of_ne_nil hne] at hb
      rcases List.mem_cons.mp hb with rfl | hb
      · exact encodeLoop_head_ge _
      · exact ih (x / 128) (Nat.div_lt_self (by omega) (by omega)) b hb

/-! ## Parsing an encoded record -/

/-- Core reconstruction lemma: running the accumulation loop over the
encoder's output (followed by anything) adds `m * 2 ^ shift` to the
accumulator and consumes exactly the encoder's bytes. -/
theorem parseLoop_encodeLoop (m : Nat) :
    ∀ (x shift cur : Nat) (tail : List Nat), 128 ≤ cur → x < 2 ^ shift →
      m * 2 ^ shift < 4294967296 →
      parseLoop x shift cur (encodeLoop m ++ tail) =
        (x + m * 2 ^ shift, (encodeLoop m).length) := by
  induction m using Nat.strong_induction_on with
  | _ m ih =>
    intro x shift cur tail hcur hx hm
    rcases Nat.lt_or_ge m 128 with h | h
    · rw [encodeLoop_of_lt h]
      have hor : x ||| m % 128 * 2 ^ shift % 4294967296 = x + m * 2 ^ shift := by
        rw [Nat.mod_eq_of_lt h, Nat.mod_eq_of_lt hm, lor_mul_pow hx]
      cases tail with
      | nil =>
        rw [List.cons_append, List.nil_append, parseLoop_cons_ge hcur, hor,
          parseLoop_nil]
        simp
      | cons t ts =>
        rw [List.cons_append, List.nil_append, parseLoop_cons_ge hcur, hor,
          parseLoop_cons_lt (by omega : m < 128)]
        simp
    · rw [encodeLoop_of_ge h]
      have hdiv : m / 128 < m := Nat.div_lt_self (by omega) (by omega)
      have hmod : (m % 256 ||| 128) % 128 = m % 128 := by
        rw [lor_128]
        omega
      have hterm : m % 128 * 2 ^ shift % 4294967296 = m % 128 * 2 ^ shift := by
        have : m % 128 * 2 ^ shift ≤ m * 2 ^ shift :=
          Nat.mul_le_mul_right _ (Nat.mod_le _ _)
        exact Nat.mod_eq_of_lt (by omega)
      have hor : x ||| m % 128 * 2 ^ shift % 4294967296 = x + m % 128 * 2 ^ shift := by
        rw [hterm, lor_mul_pow hx]
      have h3 : (2 : Nat) ^ (shift + 7) = 2 ^ shift * 128 := by
        norm_num [Nat.pow_add]
      have hx2 : x + m % 128 * 2 ^ shift < 2 ^ (shift + 7) := by
        have h2 : m % 128 * 2 ^ shift ≤ 127 * 2 ^ shift :=
          Nat.mul_le_mul_right _ (by omega)
        omega
      have hm2 : m / 128 * 2 ^ (shift + 7) < 4294967296 := by
        rw [h3]
        have h4 : m / 128 * (2 ^ shift * 128) ≤ m * 2 ^ shift := by
          have h5 := Nat.div_mul_le_self m 128
          calc m / 128 * (2 ^ shift * 128) = m / 128 * 128 * 2 ^ shift := by ring
            _ ≤ m * 2 ^ shift := Nat.mul_le_mul_right _ h5
        omega
      have hcur2 : 128 ≤ (m % 256 ||| 128) := encodeLoop_head_ge _
      rw [List.cons_append, parseLoop_cons_ge hcur, hmod, hor,
        ih (m / 128) hdiv (x + m % 128 * 2 ^ shift) (shift + 7) (m % 256 ||| 128)
          tail hcur2 hx2 hm2]
      have hsum : x + m % 128 * 2 ^ shift + m / 128 * 2 ^ (shift + 7) =
          x + m * 2 ^ shift := by
        have h6 : m % 128 + 128 * (m / 128) = m := Nat.mod_add_div m 128
        calc x + m % 128 * 2 ^ shift + m / 128 * 2 ^ (shift + 7)
            = x + (m % 128 + 128 * (m / 128)) * 2 ^ shift := by rw [h3]; ring
          _ = x + m * 2 ^ shift := by rw [h6]
      rw [hsum]
      simp

/-- The strict loop agrees with `parseLoop` on exactly the encoder's
output (no trailing bytes). -/
theorem decodeLoop_encodeLoop (m : Nat) :
    ∀ (x shift cur : Nat), 128 ≤ cur → x < 2 ^ shift →
      m * 2 ^ shift < 4294967296 →
      decodeLoop x shift cur (encodeLoop m) =
        some (x + m * 2 ^ shift, (encodeLoop m).length) := by
  induction m using Nat.strong_induction_on with
  | _ m ih =>
    intro x shift cur hcur hx hm
    rcases Nat.lt_or_ge m 128 with h | h
    · rw [encodeLoop_of_lt h]
      have hor : x ||| m % 128 * 2 ^ shift % 4294967296 = x + m * 2 ^ shift := by
        rw [Nat.mod_eq_of_lt h, Nat.mod_eq_of_lt hm, lor_mul_pow hx]
      rw [decodeLoop_cons_ge hcur, hor, decodeLoop_nil]
      simp
    · rw [encodeLoop_of_ge h]
      have hdiv : m / 128 < m := Nat.div_lt_self (by omega) (by omega)
      have hmod : (m % 256 ||| 128) % 128 = m % 128 := by
        rw [lor_128]
        omega
      have hterm : m % 128 * 2 ^ shift % 4294967296 = m % 128 * 2 ^ shift := by
        have : m % 128 * 2 ^ shift ≤ m * 2 ^ shift :=
          Nat.mul_le_mul_right _ (Nat.mod_le _ _)
        exact Nat.mod_eq_of_lt (by omega)
      have hor : x ||| m % 128 * 2 ^ shift % 4294967296 = x + m % 128 * 2 ^ shift := by
        rw [hterm, lor_mul_pow hx]
      have h3 : (2 : Nat) ^ (shift + 7) = 2 ^ shift * 128 := by
        norm_num [Nat.pow_add]
      have hx2 : x + m % 128 * 2 ^ shift < 2 ^ (shift + 7) := by
        have h2 : m % 128 * 2 ^ shift ≤ 127 * 2 ^ shift :=
          Nat.mul_le_mul_right _ (by omega)
        omega
      have hm2 : m / 128 * 2 ^ (shift + 7) < 4294967296 := by
        rw [h3]
        have h4 : m / 128 * (2 ^ shift * 128) ≤ m * 2 ^ shift := by
          have h5 := Nat.div_mul_le_self m 128
          calc m / 128 * (2 ^ shift * 128) = m / 128 * 128 * 2 ^ shift := by ring
            _ ≤ m * 2 ^ shift := Nat.mul_le_mul_right _ h5
        omega
      have hcur2 : 128 ≤ (m % 256 ||| 128) := encodeLoop_head_ge _
      rw [decodeLoop_cons_ge hcur, hmod, hor,
        ih (m / 128) hdiv (x + m % 128 * 2 ^ shift) (shift + 7) (m % 256 ||| 128)
          hcur2 hx2 hm2]
      have hsum : x + m % 128 * 2 ^ shift + m / 128 * 2 ^ (shift + 7) =
          x + m * 2 ^ shift := by
        have h6 : m % 128 + 128 * (m / 128) = m := Nat.mod_add_div m 128
        calc x + m % 128 * 2 ^ shift + m / 128 * 2 ^ (shift + 7)
            = x + (m % 128 + 128 * (m / 128)) * 2 ^ shift := by rw [h3]; ring
          _ = x + m * 2 ^ shift := by rw [h6]
      rw [hsum]
      simp

/-! ## The shape of an encoded record -/

/-- The OR installing a 2-bit value into cleared low bits is addition. -/
theorem lor_small {v : Nat} (k : Nat) (hv : v < 4) : k * 4 ||| v = k * 4 + v := by
  have h := lor_mul_pow (a := v) (b := k) (s := 2) (by omega)
  have h4 : (2 : Nat) ^ 2 = 4 := by norm_num
  rw [h4] at h
  rw [Nat.or_comm]
  omega

theorem encode_of_lt {n : Nat} (hn : n < 32) (v : Nat) (hv : v < 4) :
    encode n v = [n * 4 + v] := by
  simp only [encode, encodeLoop_of_lt (by omega : n * 4 < 128)]
  rw [lor_small n hv]

theorem encode_of_ge {n : Nat} (hn : 32 ≤ n) (v : Nat) (hv : v < 4) :
    encode n v = (n % 32 * 4 + 128 + v) :: encodeLoop (n / 32) := by
  have h128 : 128 ≤ n * 4 := by omega
  have hmod : n * 4 % 256 ||| 128 = n % 32 * 4 + 128 := by
    rw [lor_128]
    omega
  have hdiv : n * 4 / 128 = n / 32 := by
    omega
  simp only [encode, encodeLoop_of_ge h128, hmod, hdiv]
  have hsum : n % 32 * 4 + 128 = (n % 32 + 32) * 4 := by ring
  rw [hsum, lor_small _ hv]

theorem encode_ne_nil (n v : Nat) : encode n v ≠ [] := by
  rw [encode]
  have hne := encodeLoop_ne_nil (n * 4)
  cases h : encodeLoop (n * 4) with
  | nil => exact absurd h hne
  | cons b rest => simp

theorem encode_length (n v : Nat) :
    (encode n v).length = (encodeLoop (n * 4)).length := by
  rw [encode]
  have hne := encodeLoop_ne_nil (n * 4)
  cases h : encodeLoop (n * 4) with
  | nil => exact absurd h hne
  | cons b rest => simp

/-- A record encoded for any count below `2^32` parses back exactly,
regardless of what bytes follow it. -/
theorem next_encode (n v : Nat) (hn : n < 4294967296) (hv : v < 4)
    (tail : List Nat) :
    next (encode n v ++ tail) 0 = some (n, v, (encode n v).length) := by
  rcases Nat.lt_or_ge n 32 with h | h
  · rw [encode_of_lt h v hv, List.cons_append, List.nil_append]
    have hb : n * 4 + v < 128 := by omega
    have hx : (n * 4 + v) % 128 / 4 = n := by omega
    have hv4 : (n * 4 + v) % 4 = v := by omega
    cases tail with
    | nil =>
      simp only [next, List.drop_zero, parseLoop_nil, hx, hv4]
      simp
    | cons t ts =>
      simp only [next, List.drop_zero, parseLoop_cons_lt hb, hx, hv4]
      simp
  · rw [encode_of_ge h v hv, List.cons_append]
    have hb : 128 ≤ n % 32 * 4 + 128 + v := by omega
    have hlt : n % 32 * 4 + v < 128 := by omega
    have hx : (n % 32 * 4 + 128 + v) % 128 / 4 = n % 32 := by omega
    have hv4 : (n % 32 * 4 + 128 + v) % 4 = v := by omega
    have hm : n / 32 * 2 ^ 5 < 4294967296 := by
      have h5 : (2 : Nat) ^ 5 = 32 := by norm_num
      rw [h5]
      have := Nat.div_mul_le_self n 32
      omega
    have hx5 : n % 32 < 2 ^ 5 := by
      have h5 : (2 : Nat) ^ 5 = 32 := by norm_num
      omega
    simp only [next, List.drop_zero, hx, hv4]
    rw [parseLoop_encodeLoop (n / 32) (n % 32) 5 (n % 32 * 4 + 128 + v) tail hb hx5 hm]
    have hrec : n % 32 + n / 32 * 2 ^ 5 = n := by
      have h5 : (2 : Nat) ^ 5 = 32 := by norm_num
      rw [h5]
      omega
    rw [hrec]
    simp

/-- C1. For every count `n` with `1 ≤ n ≤ 2^30 - 1` and every 2-bit value
`v`, decoding the bytes produced by the varint encoder returns exactly
`(n, v)` together with a bytes-consumed figure equal to the length of the
encoding: `decode (encode n v) = (n, v, (encode n v).length)`. -/
theorem varint_roundtrip (n v : Nat) (h1 : 1 ≤ n) (h2 : n ≤ 2 ^ 30 - 1)
    (hv : v < 4) : decode (encode n v) = (n, v, (encode n v).length) := by
  have hn : n < 4294967296 := by
    have : (2 : Nat) ^ 30 - 1 < 4294967296 := by norm_num
    omega
  rcases Nat.lt_or_ge n 32 with h | h
  · rw [encode_of_lt h v hv]
    have hb : n * 4 + v < 128 := by omega
    have hx : (n * 4 + v) % 128 / 4 = n := by omega
    have hv4 : (n * 4 + v) % 4 = v := by omega
    have hlast : ([n * 4 + v].getLastD 0) = n * 4 + v := rfl
    simp only [decode, hlast, decodeLoop_nil, hx, hv4, if_neg (by omega : ¬ 128 ≤ n * 4 + v)]
    simp
  · rw [encode_of_ge h v hv]
    have hb : 128 ≤ n % 32 * 4 + 128 + v := by omega
    have hx : (n % 32 * 4 + 128 + v) % 128 / 4 = n % 32 := by omega
    have hv4 : (n % 32 * 4 + 128 + v) % 4 = v := by omega
    have hm : n / 32 * 2 ^ 5 < 4294967296 := by
      have h5 : (2 : Nat) ^ 5 = 32 := by norm_num
      rw [h5]
      have := Nat.div_mul_le_self n 32
      omega
    have hx5 : n % 32 < 2 ^ 5 := by
      have h5 : (2 : Nat) ^ 5 = 32 := by norm_num
      omega
    have hlast : ((n % 32 * 4 + 128 + v) :: encodeLoop (n / 32)).getLastD 0 < 128 := by
      have hne := encodeLoop_ne_nil (n / 32)
      have hl := encodeLoop_last_lt (n / 32)
      cases hlp : encodeLoop (n / 32) with
      | nil => exact absurd hlp hne
      | cons a l =>
        have h2 := hl a
        rw [hlp] at h2
        simpa using h2
    simp only [decode, if_neg (by omega : ¬ 128 ≤ ((n % 32 * 4 + 128 + v) :: encodeLoop (n / 32)).getLastD 0), hx, hv4]
    rw [decodeLoop_encodeLoop (n / 32) (n % 32) 5 (n % 32 * 4 + 128 + v) hb hx5 hm]
    have hrec : n % 32 + n / 32 * 2 ^ 5 = n := by
      have h5 : (2 : Nat) ^ 5 = 32 := by norm_num
      rw [h5]
      omega
    rw [hrec]
    simp

/-- Witness for C1 at the concrete record `(129, active)`. -/
theorem varint_roundtrip_witness :
    decode (encode 129 1) = (129, 1, (encode 129 1).length) :=
  varint_roundtrip 129 1 (by norm_num) (by norm_num) (by norm_num)

/-! ## The Sequence state -/

/-- `MaxSequenceLength` (sequence.go). -/
def MaxSequenceLength : Nat := 4294967295

/-- `StateInactive` (sequence.go). -/
def StateInactive : Nat := 0

/-- `StateActive` (sequence.go). -/
def StateActive : Nat := 1

/-- `StateUnknown` (sequence.go). -/
def StateUnknown : Nat := 2

/-- `StateNotUsed` (sequence.go). -/
def StateNotUsed : Nat := 3

/-- The `Sequence` struct (sequence.go). `ts` is `int64`, `frequency`
`uint16`, `length` and `count` `uint32`, `data` a byte buffer. -/
structure Sequence where
  ts : Int
  frequency : Nat
  length : Nat
  count : Nat
  data : List Nat
deriving Repr, DecidableEq

/-- The result of an operation that can return an error or panic. -/
inductive Res (α : Type) where
  | panic : Res α
  | err : String → Res α
  | ok : α → Res α
deriving Repr, DecidableEq

/-- The backward scan of `Sequence.last` (sequence.go): the start offset
of the last run record, i.e. one past the last byte with a clear
continuation bit among `data[0 .. len-2]`, or `0` if there is none. -/
def lastRunStart (data : List Nat) : Nat :=
  match (data.take (data.length - 1)).reverse.findIdx? (fun b => b < 128) with
  | some j => data.length - 1 - j
  | none => 0

/-- `Sequence.last` (sequence.go). On an empty buffer Go indexes out of
range inside `next` (`none`). -/
def Sequence.lastRun (s : Sequence) : Option (Nat × Nat × Nat) :=
  next s.data (lastRunStart s.data)

/-- Net effect of the in-place overwrite loop of `addSeries`
(sequence.go): starting at `index = len(data) - nBytes`, each byte of
`buf` overwrites in place, bytes of `buf` beyond the old record are
appended, and when `buf` is shorter than the old record the stale tail
bytes stay. -/
def spliceLast (data : List Nat) (nBytes : Nat) (buf : List Nat) : List Nat :=
  if nBytes ≤ buf.length then data.take (data.length - nBytes) ++ buf
  else data.take (data.length - nBytes) ++ buf ++
    data.drop (data.length - nBytes + buf.length)

/-- The append branch of `addSeries` (sequence.go): `count == 1` emits
the single byte `1<<flagBits | x`, otherwise the full encoding. `x` is
already masked. Both `uint32` counters wrap modulo `2^32`. -/
def appendRun (s : Sequence) (count x : Nat) : Sequence :=
  if count = 1 then
    { s with data := s.data ++ [4 ||| x], count := (s.count + count) % 4294967296 }
  else
    { s with data := s.data ++ encode count x, count := (s.count + count) % 4294967296 }

/-- `Sequence.addSeries` (sequence.go). `x &= flagBitsMask` is `x % 4`.
When the last run has the same value the re-encoded run splices over it
in place; Go panics (`none`) if `last` reads an empty buffer. -/
def Sequence.addSeries (s : Sequence) (count x0 : Nat) : Option Sequence :=
  let x := x0 % 4
  if s.count ≠ 0 then
    match s.lastRun with
    | none => none
    | some (c, v, n) =>
      if v = x then
        some { s with
          data := spliceLast s.data n (encode ((c + count) % 4294967296) x),
          count := (s.count + count) % 4294967296 }
      else some (appendRun s count x)
  else some (appendRun s count x)

/-- `NewSequence` (sequence.go); `t` is the argument timestamp's Unix
seconds. -/
def newSequence (t : Int) (f : Nat) : Sequence :=
  { ts := t, frequency := if f = 0 then 1 else f,
    length := MaxSequenceLength, count := 0, data := [] }

/-- The grouping loop of `NewSequenceFromValues` (sequence.go): `count`
and `x` describe the open group, the list holds the remaining values. -/
def newFromValuesLoop (s : Sequence) (count x : Nat) : List Nat → Option Sequence
  | [] => s.addSeries count x
  | v :: rest =>
    if v ≠ x then
      match s.addSeries count x with
      | none => none
      | some s2 => newFromValuesLoop s2 1 v rest
    else newFromValuesLoop s (count + 1) x rest

/-- `NewSequenceFromValues` (sequence.go): values beyond
`MaxSequenceLength` are dropped, the rest are appended as runs of equal
values. -/
def newSequenceFromValues (t : Int) (f : Nat) (values : List Nat) : Option Sequence :=
  let s := newSequence t f
  match values.take MaxSequenceLength with
  | [] => some s
  | v :: rest => newFromValuesLoop s 1 v rest

/-- `Sequence.Add` (sequence.go). `t` is the argument's Unix seconds;
`offset := (t - ts) / frequency + 1` with Go's truncated `int64`
division (which panics when `frequency` is zero). -/
def Sequence.add (s : Sequence) (t : Int) (x : Nat) : Res Sequence :=
  if s.frequency = 0 then .panic
  else
    let offset := godiv (t - s.ts) s.frequency + 1
    if offset < 1 ∨ (s.length : Int) < offset then .err "out of bounds"
    else if offset ≤ (s.count : Int) then .err "cannot overwrite value"
    else
      let afterGap : Option Sequence :=
        if 1 < offset - (s.count : Int) then
          s.addSeries ((offset - (s.count : Int)).toNat - 1) StateUnknown
        else some s
      match afterGap with
      | none => .panic
      | some s1 =>
        match s1.addSeries 1 x with
        | none => .panic
        | some s2 => .ok s2

/-- The truncation walk of `Sequence.SetLength` (sequence.go), carried
out on the suffix of `data` not yet passed (`pre` holds the bytes before
the current offset `p`). `v` is the `uint32` accumulator of run
lengths. Returns the new `data`. -/
def setLengthLoop (x : Nat) (v : Nat) (pre : List Nat) : List Nat → List Nat
  | [] => pre
  | b0 :: rest =>
    let r := parseLoop (b0 % 128 / 4) 5 b0 rest
    let count := r.1
    let value := b0 % 4
    let bytesRead := r.2 + 1
    let v2 := (v + count) % 4294967296
    if v2 = x then pre ++ (b0 :: rest).take bytesRead
    else if x < v2 then
      pre ++ encode ((count + 4294967296 - (v2 - x) % 4294967296) % 4294967296) value
    else setLengthLoop x v2 (pre ++ (b0 :: rest).take bytesRead) (rest.drop r.2)
termination_by suffix => suffix.length
decreasing_by simp [List.length_drop]; omega

/-- `Sequence.SetLength` (sequence.go): sets `length := x`; when
`x < count` walks the run list, truncating `data` and re-encoding the
run that straddles `x`, then sets `count := x`. -/
def Sequence.setLength (s : Sequence) (x : Nat) : Sequence :=
  if x ≥ s.count then { s with length := x }
  else { s with length := x, count := x, data := setLengthLoop x 0 [] s.data }

/-- Writing `m` copies of `v` into `arr` at positions
`index .. index+m-1`; `none` when Go would index out of range. -/
def writeRange (arr : List Nat) (index m v : Nat) : Option (List Nat) :=
  if m = 0 then some arr
  else if index + m ≤ arr.length then
    some (arr.take index ++ List.replicate m v ++ arr.drop (index + m))
  else none

/-- The walk of `Sequence.All` (sequence.go): runs with value `0` only
advance the write index (the buffer is zero-initialised), other runs
write their value. -/
def allLoop (arr : List Nat) (index : Nat) : List Nat → Option (List Nat)
  | [] => some arr
  | b0 :: rest =>
    let r := parseLoop (b0 % 128 / 4) 5 b0 rest
    let count := r.1
    let value := b0 % 4
    if value = 0 then allLoop arr (index + count) (rest.drop r.2)
    else
      match writeRange arr index count value with
      | none => none
      | some arr2 => allLoop arr2 (index + count) (rest.drop r.2)
termination_by suffix => suffix.length
decreasing_by all_goals simp [List.length_drop]; omega

/-- `Sequence.All` (sequence.go): materialise the dense `count`-element
value vector. -/
def Sequence.all (s : Sequence) : Option (List Nat) :=
  allLoop (List.replicate s.count 0) 0 s.data

/-- Little-endian bytes of a 16-bit value. -/
def le2 (x : Nat) : List Nat := [x % 256, x / 256 % 256]

/-- Little-endian bytes of a 32-bit value. -/
def le4 (x : Nat) : List Nat :=
  [x % 256, x / 256 % 256, x / 65536 % 256, x / 16777216 % 256]

/-- `Sequence.Bytes` (sequence.go): the 14-byte header (`ts` low 32 bits
little-endian, `frequency`, `length` — written as zero when it equals
`MaxSequenceLength` —, `count` — written as zero when zero) followed by
`data`. For the `int64` timestamp, `byte(ts>>8k)` equals byte `k` of the
two's-complement residue `ts mod 2^32`. -/
def Sequence.bytes (s : Sequence) : List Nat :=
  le4 (s.ts % 4294967296).toNat ++ le2 s.frequency ++
    (if s.length ≠ MaxSequenceLength then le4 s.length else [0, 0, 0, 0]) ++
    (if s.count ≠ 0 then le4 s.count else [0, 0, 0, 0]) ++ s.data

/-- `NewSequenceFromBytes` (sequence.go): requires at least the 14
header bytes, reconstructs the fields (`length` zero becomes
`MaxSequenceLength`) and copies the rest as `data`. The `count` header
field is copied verbatim, unchecked against `data`. -/
def fromBytes (buf : List Nat) : Except String Sequence :=
  if buf.length < 14 then .error "cannot decode the sequence"
  else
    let g := fun i => buf.getD i 0
    let length0 := g 6 ||| g 7 * 256 ||| g 8 * 65536 ||| g 9 * 16777216
    Except.ok
      { ts := ((g 0 ||| g 1 * 256 ||| g 2 * 65536 ||| g 3 * 16777216 : Nat) : Int)
        frequency := g 4 ||| g 5 * 256
        length := if length0 = 0 then MaxSequenceLength else length0
        count := g 10 ||| g 11 * 256 ||| g 12 * 65536 ||| g 13 * 16777216
        data := buf.drop 14 }

/-! ## Intervals and the query engine (part_003 / part_009) -/

/-- The closed interval struct (interval source file); `stop` models the
Go field `end`. -/
structure Interval where
  start : Int
  stop : Int
deriving Repr, DecidableEq

/-- `interval.intersect`. -/
def Interval.intersect (x y : Interval) : Option Interval :=
  if x.start ≤ y.start then
    if y.stop ≤ x.stop then some y
    else if y.start ≤ x.stop then some ⟨y.start, x.stop⟩
    else none
  else if x.start ≤ y.stop then
    if y.stop ≤ x.stop then some ⟨x.start, y.stop⟩
    else some x
  else none

/-- `Sequence.interval` (sequence.go). -/
def Sequence.interval (s : Sequence) : Interval :=
  ⟨s.ts, s.ts + ((s.length : Int) - 1) * (s.frequency : Int)⟩

/-- `ceilInt64` (part_003): least multiple of `step` at least `x`
(for nonnegative operands; Go's `%`). -/
def ceilInt64 (x step : Int) : Int :=
  let r := gomod x step
  if r ≠ 0 then x + step - r else x

/-- The run walk of `Sequence.Values` (part_003). `total` is the length
of the output buffer; the accumulated writes are sequential, so the Go
write index `dstIndex` is `acc.length`. `none` models an out-of-range
write. -/
def valuesLoop (x y : Int) (total : Nat) :
    List Nat → Int → List Nat → Option (List Nat)
  | [], _, acc => some acc
  | b0 :: rest, srcIndex, acc =>
    let r := parseLoop (b0 % 128 / 4) 5 b0 rest
    let count : Int := r.1
    let v := b0 % 4
    if srcIndex + count < x then
      valuesLoop x y total (rest.drop r.2) (srcIndex + count) acc
    else
      let offset : Int := if acc.length = 0 then x - srcIndex else 0
      if y < srcIndex + count then
        let m := y - srcIndex - offset + 1
        if m ≤ 0 then some acc
        else if acc.length + m.toNat ≤ total then
          some (acc ++ List.replicate m.toNat v)
        else none
      else
        let m := count - offset
        if m ≤ 0 then
          valuesLoop x y total (rest.drop r.2) (srcIndex + count) acc
        else if acc.length + m.toNat ≤ total then
          valuesLoop x y total (rest.drop r.2) (srcIndex + count)
            (acc ++ List.replicate m.toNat v)
        else none
termination_by suffix => suffix.length
decreasing_by all_goals simp [List.length_drop]; omega

/-- `Sequence.Values` / `queryValues` (part_003): raw range query with
closed interval filter, returning the samples and the Unix time of the
first one. -/
def Sequence.values (s : Sequence) (start stop : Int) : Res (List Nat × Int) :=
  if stop < start then .err "invalid arguments"
  else
    match s.interval.intersect ⟨start, stop⟩ with
    | none => .err "out of bounds"
    | some r =>
      if s.frequency = 0 then .panic
      else
        let f : Int := s.frequency
        let x := godiv (ceilInt64 (r.start - s.ts) f) f
        let y := godiv (r.stop - s.ts) f
        let total := (y - x + 1).toNat
        match valuesLoop x y total s.data 0 [] with
        | none => .panic
        | some acc =>
          .ok (acc ++ List.replicate (total - acc.length) StateUnknown,
            s.ts + x * f)

/-- The `QuerySet` struct (part_003). -/
structure QuerySet where
  timestamp : Int
  frequency : Int
  sum : List Int
  count : List Int
deriving Repr, DecidableEq

/-- The inner grouping loop of `Sequence.Query` (part_003): spread the
current run (value `v`) from `src` up to `target` over the groups. The
`fuel` argument only serves termination; it is chosen large enough at
the call site (the loop advances by at least one when `agg ≥ 1`). -/
def queryInnerLoop (fuel : Nat) (sum cnt : List Int)
    (src target x shift agg : Int) (v : Nat) (first : Bool) :
    Option (List Int × List Int) :=
  match fuel with
  | 0 => none
  | fuel + 1 =>
    if src < target then
      let dst := godiv (shift + src - x) agg
      let n0 : Int := agg
      let n1 := if first then n0 - gomod (shift + src - x) agg else n0
      let n2 := if target < src + n1 then target - src else n1
      if 0 ≤ dst ∧ dst.toNat < cnt.length then
        let sum2 := if v = 1 then sum.set dst.toNat (sum.getD dst.toNat 0 + n2) else sum
        let cnt2 := cnt.set dst.toNat (cnt.getD dst.toNat 0 + n2)
        queryInnerLoop fuel sum2 cnt2 (src + n2) target x shift agg v false
      else none
    else some (sum, cnt)

/-- The run walk of `Sequence.Query` (part_003). -/
def queryLoop (x y shift agg : Int) :
    List Nat → Int → List Int → List Int → Option (List Int × List Int)
  | [], _, sum, cnt => some (sum, cnt)
  | b0 :: rest, src, sum, cnt =>
    let r := parseLoop (b0 % 128 / 4) 5 b0 rest
    let n : Int := r.1
    let v := b0 % 4
    let nxt := src + n
    if nxt ≤ x ∨ v = StateUnknown then
      queryLoop x y shift agg (rest.drop r.2) nxt sum cnt
    else
      let src2 := if x > src then x else src
      let target := if y < nxt then y + 1 else nxt
      match queryInnerLoop ((target - src2).toNat + 1) sum cnt src2 target x
          shift agg v true with
      | none => none
      | some (sum2, cnt2) =>
        if y < nxt then some (sum2, cnt2)
        else queryLoop x y shift agg (rest.drop r.2) nxt sum2 cnt2
termination_by suffix => suffix.length
decreasing_by all_goals simp [List.length_drop]; omega

/-- `Sequence.Query` (part_003): grouped aggregation with closed
interval filter `[start, stop]` and grouping interval `d` (modelled in
whole seconds, as produced by `int64(d.Seconds())`). -/
def Sequence.query (s : Sequence) (start stop : Int) (d : Int) : Res QuerySet :=
  if stop < start then .err "invalid time filter"
  else if s.frequency = 0 then .panic
  else
    let f : Int := s.frequency
    let aggregation := godiv d f
    if aggregation < 1 then .err "invalid grouping interval"
    else
      let ts := start
      let numberOfValues := godiv (godiv (stop - ts) f) aggregation + 1
      let qs : QuerySet :=
        { timestamp := ts, frequency := f * aggregation,
          sum := List.replicate numberOfValues.toNat 0,
          count := List.replicate numberOfValues.toNat 0 }
      match s.interval.intersect ⟨start, stop⟩ with
      | none => .ok qs
      | some r =>
        let x := godiv (ceilInt64 (r.start - s.ts) f) f
        let y := godiv (r.stop - s.ts) f
        let shift := if ts < s.ts then godiv (s.ts - ts) f else 0
        match queryLoop x y shift aggregation s.data 0 qs.sum qs.count with
        | none => .panic
        | some (sum2, cnt2) => .ok { qs with sum := sum2, count := cnt2 }

/-! ## Roll and TrimLeft (modelled from the spec) -/

/-- The gap fill and single-slot append shared by `Add`'s tail and the
roll paths: append `offset - count - 1` unknown slots when a gap
remains, then the one slot of `x`. -/
def Sequence.fillTo (s : Sequence) (offset : Int) (x : Nat) : Option Sequence :=
  let afterGap : Option Sequence :=
    if 1 < offset - (s.count : Int) then
      s.addSeries ((offset - (s.count : Int)).toNat - 1) StateUnknown
    else some s
  match afterGap with
  | none => none
  | some s1 => s1.addSeries 1 x

/-- Modelled from the spec: the walk of `Sequence.TrimLeft` (§4.C.6),
whose body is not in the provided sources. Drop runs while the
cumulative coverage stays below `x`; on an exact hit drop the run and
every earlier one; on an overshoot re-encode the surviving portion
(length `cumulative - x`). -/
def trimLoop (x v : Nat) : List Nat → List Nat
  | [] => []
  | b0 :: rest =>
    let r := parseLoop (b0 % 128 / 4) 5 b0 rest
    let count := r.1
    let value := b0 % 4
    let v2 := v + count
    if v2 = x then rest.drop r.2
    else if x < v2 then encode (v2 - x) value ++ rest.drop r.2
    else trimLoop x v2 (rest.drop r.2)
termination_by suffix => suffix.length
decreasing_by simp [List.length_drop]; omega

/-- Modelled from the spec: `Sequence.Roll` (§4.C.4), whose body is not
in the provided sources. Offset as in `Add`; out of bounds only below 1;
cannot overwrite up to `count`; within `length` it appends like `Add`;
past `length` either the full-reset fast path
(`offset - length ≥ count`), the single-slot-advance fast path
(`offset - count = 1`, one data byte, same value), or the general path:
trim the leftmost `offset - length` slots, advance `ts`, fill the gap
and append. Values are pre-masked as in `addSeries`. -/
def Sequence.roll (s : Sequence) (t : Int) (x : Nat) : Res Sequence :=
  if s.frequency = 0 then .panic
  else
    let offset := godiv (t - s.ts) s.frequency + 1
    if offset < 1 then .err "out of bounds"
    else if offset ≤ (s.count : Int) then .err "cannot overwrite value"
    else if offset ≤ (s.length : Int) then
      match s.fillTo offset x with
      | none => .panic
      | some s2 => .ok s2
    else if (s.count : Int) ≤ offset - (s.length : Int) then
      .ok { s with ts := s.ts + (offset - (s.length : Int)) * (s.frequency : Int),
                   count := s.length,
                   data := encode (s.length - 1) StateUnknown ++ encode 1 (x % 4) }
    else if offset - (s.count : Int) = 1 ∧ s.data.length = 1 ∧
        s.data.getD 0 0 % 4 = x % 4 then
      .ok { s with ts := s.ts + (s.frequency : Int) }
    else
      let over := (offset - (s.length : Int)).toNat
      let s1 : Sequence :=
        { s with ts := s.ts + (offset - (s.length : Int)) * (s.frequency : Int),
                 count := s.count - over,
                 data := trimLoop over 0 s.data }
      match s1.fillTo (s.length : Int) x with
      | none => .panic
      | some s2 => .ok s2

/-! ## The store (store.go) -/

/-- `StatementAdd` (store.go). -/
def StatementAdd : Nat := 0

/-- `StatementRoll` (store.go). -/
def StatementRoll : Nat := 1

/-- `statementUnknown` (store.go). -/
def statementUnknownType : Nat := 2

/-- The `Statement` struct (store.go); timestamps as Unix seconds. -/
structure Statement where
  key : String
  timestamp : Int
  value : Nat
  type : Nat
  createIfNotExists : Bool
  createWithTimestamp : Int
  createWithFrequency : Nat
  createWithLength : Nat

/-- The store's map, modelled as a function from keys to sequences. -/
def StoreMap := String → Option Sequence

/-- Insertion into the store's map. -/
def storeInsert (m : StoreMap) (k : String) (v : Sequence) : StoreMap :=
  fun j => if j = k then some v else m j

/-- The sequence freshly constructed by `executeUnsafe` (store.go) when
the key is absent and creation is enabled. -/
def Statement.freshSequence (stmt : Statement) : Sequence :=
  let x := newSequence stmt.createWithTimestamp stmt.createWithFrequency
  if 0 < stmt.createWithLength then x.setLength stmt.createWithLength else x

/-- `Store.executeUnsafe` (store.go). The result is the final map and
the returned error; `none` models a panic of the dispatched operation.
Go stores a pointer into the map before dispatching, so the map ends up
holding the dispatched sequence: unchanged on error (`Add` and `Roll`
mutate nothing on their error paths), mutated on success. -/
def executeUnsafe (m : StoreMap) (stmt : Statement) :
    Option (StoreMap × Option String) :=
  if statementUnknownType ≤ stmt.type then some (m, some "unknown statement type")
  else
    let dispatch : StoreMap → Sequence → Option (StoreMap × Option String) :=
      fun m1 x =>
        match (if stmt.type = StatementAdd then x.add stmt.timestamp stmt.value
               else x.roll stmt.timestamp stmt.value) with
        | .panic => none
        | .err e => some (m1, some e)
        | .ok x2 => some (storeInsert m1 stmt.key x2, none)
    match m stmt.key with
    | some x => dispatch m x
    | none =>
      if ¬ stmt.createIfNotExists then some (m, some "key does not exist")
      else
        let x := stmt.freshSequence
        dispatch (storeInsert m stmt.key x) x

/-! ## Totality facts for `addSeries` -/

theorem lastRunStart_le (data : List Nat) : lastRunStart data ≤ data.length - 1 := by
  unfold lastRunStart
  cases hfind : (data.take (data.length - 1)).reverse.findIdx? (fun b => b < 128) with
  | none => exact Nat.zero_le _
  | some j => exact Nat.sub_le _ _

theorem lastRunStart_lt {data : List Nat} (h : data ≠ []) :
    lastRunStart data < data.length := by
  have h1 := lastRunStart_le data
  have h2 : 0 < data.length := List.length_pos.mpr h
  omega

theorem next_isSome {data : List Nat} {p : Nat} (h : p < data.length) :
    ∃ r, next data p = some r := by
  unfold next
  cases hd : data.drop p with
  | nil =>
    have := List.drop_eq_nil_iff.mp hd
    omega
  | cons b0 rest => exact ⟨_, rfl⟩

theorem lastRun_isSome {s : Sequence} (h : s.data ≠ []) :
    ∃ r, s.lastRun = some r :=
  next_isSome (lastRunStart_lt h)

theorem appendRun_data_ne_nil (s : Sequence) (c x : Nat) :
    (appendRun s c x).data ≠ [] := by
  unfold appendRun
  split <;> simp [encode_ne_nil]

theorem spliceLast_ne_nil (data : List Nat) (nBytes : Nat) {buf : List Nat}
    (h : buf ≠ []) : spliceLast data nBytes buf ≠ [] := by
  unfold spliceLast
  split <;> simp [h]

/-- `addSeries` cannot panic when a populated sequence has a nonempty
buffer, and it always leaves a nonempty buffer. -/
theorem addSeries_some (s : Sequence) (c x : Nat) (h : s.data = [] → s.count = 0) :
    ∃ s2, s.addSeries c x = some s2 ∧ s2.data ≠ [] := by
  unfold Sequence.addSeries
  by_cases hc : s.count ≠ 0
  · have hd : s.data ≠ [] := fun he => hc (h he)
    obtain ⟨⟨c0, v0, n0⟩, hr⟩ := lastRun_isSome hd
    rw [hr]
    simp only [if_pos hc]
    by_cases hv : v0 = x % 4
    · rw [if_pos hv]
      exact ⟨_, rfl, spliceLast_ne_nil _ _ (encode_ne_nil _ _)⟩
    · rw [if_neg hv]
      exact ⟨_, rfl, appendRun_data_ne_nil _ _ _⟩
  · simp only [if_neg hc]
    exact ⟨_, rfl, appendRun_data_ne_nil _ _ _⟩

/-! ## C3: the offset arithmetic and error cases of `Add` -/

/-- C3 (amended): `Add` computes the 1-based offset with Go's truncated
`int64` division, `offset = tdiv (t - ts) frequency + 1` (for `t < ts`
this truncates toward zero, not mathematical floor); it fails out of
bounds exactly when `offset < 1` or `offset > length`, fails with the
cannot-overwrite error exactly when `1 ≤ offset ≤ count`, and succeeds
otherwise. Hypotheses: the data-model invariants `frequency ≥ 1`,
`count ≤ length`, and a populated sequence has a nonempty buffer. -/
theorem add_eq (s : Sequence) (t : Int) (x : Nat) :
    s.add t x =
      (if s.frequency = 0 then .panic
      else if Int.tdiv (t - s.ts) (s.frequency : Int) + 1 < 1 ∨
          (s.length : Int) < Int.tdiv (t - s.ts) (s.frequency : Int) + 1 then
        .err "out of bounds"
      else if Int.tdiv (t - s.ts) (s.frequency : Int) + 1 ≤ (s.count : Int) then
        .err "cannot overwrite value"
      else
        match (if 1 < Int.tdiv (t - s.ts) (s.frequency : Int) + 1 - (s.count : Int) then
            s.addSeries
              ((Int.tdiv (t - s.ts) (s.frequency : Int) + 1 - (s.count : Int)).toNat - 1)
              StateUnknown
          else some s) with
        | none => .panic
        | some s1 =>
          match s1.addSeries 1 x with
          | none => .panic
          | some s2 => .ok s2) := rfl

theorem add_offset_and_errors (s : Sequence) (t : Int) (x : Nat)
    (hf : 1 ≤ s.frequency) (hcl : s.count ≤ s.length)
    (hdata : s.data = [] → s.count = 0) :
    (s.add t x = .err "out of bounds" ↔
      (Int.tdiv (t - s.ts) (s.frequency : Int) + 1 < 1 ∨
        (s.length : Int) < Int.tdiv (t - s.ts) (s.frequency : Int) + 1)) ∧
    (s.add t x = .err "cannot overwrite value" ↔
      (1 ≤ Int.tdiv (t - s.ts) (s.frequency : Int) + 1 ∧
        Int.tdiv (t - s.ts) (s.frequency : Int) + 1 ≤ (s.count : Int))) ∧
    ((∃ s2, s.add t x = .ok s2) ↔
      (1 ≤ Int.tdiv (t - s.ts) (s.frequency : Int) + 1 ∧
        Int.tdiv (t - s.ts) (s.frequency : Int) + 1 ≤ (s.length : Int) ∧
        (s.count : Int) < Int.tdiv (t - s.ts) (s.frequency : Int) + 1)) := by
  have hf0 : s.frequency ≠ 0 := by omega
  have hcast : (s.count : Int) ≤ (s.length : Int) := by exact_mod_cast hcl
  rw [add_eq, if_neg hf0]
  by_cases h1 : Int.tdiv (t - s.ts) (s.frequency : Int) + 1 < 1 ∨
      (s.length : Int) < Int.tdiv (t - s.ts) (s.frequency : Int) + 1
  · rw [if_pos h1]
    refine ⟨⟨fun _ => h1, fun _ => rfl⟩, ?_, ?_⟩
    · constructor
      · intro he
        have hstr := Res.err.inj he
        simp at hstr
      · intro hc
        omega
    · constructor
      · rintro ⟨s2, hs2⟩
        exact absurd hs2 (by simp)
      · intro hc
        omega
  · rw [if_neg h1]
    push_neg at h1
    by_cases h2 : Int.tdiv (t - s.ts) (s.frequency : Int) + 1 ≤ (s.count : Int)
    · rw [if_pos h2]
      refine ⟨?_, ⟨fun _ => ⟨h1.1, h2⟩, fun _ => rfl⟩, ?_⟩
      · constructor
        · intro he
          have hstr := Res.err.inj he
          simp at hstr
        · intro hc
          omega
      · constructor
        · rintro ⟨s2, hs2⟩
          exact absurd hs2 (by simp)
        · intro hc
          omega
    · rw [if_neg h2]
      push_neg at h2
      have hgap : ∃ s1,
          (if 1 < Int.tdiv (t - s.ts) (s.frequency : Int) + 1 - (s.count : Int) then
            s.addSeries
              ((Int.tdiv (t - s.ts) (s.frequency : Int) + 1 - (s.count : Int)).toNat - 1)
              StateUnknown
          else some s) = some s1 ∧ (s1.data = [] → s1.count = 0) := by
        split
        · obtain ⟨s1, hs1, hne⟩ := addSeries_some s _ _ hdata
          exact ⟨s1, hs1, fun he => absurd he hne⟩
        · exact ⟨s, rfl, hdata⟩
      obtain ⟨s1, hs1, hd1⟩ := hgap
      obtain ⟨s2, hs2, _⟩ := addSeries_some s1 1 x hd1
      rw [hs1]
      simp only [hs2]
      refine ⟨?_, ?_, ?_⟩
      · constructor
        · intro he
          exact absurd he (by simp)
        · intro hc
          omega
      · constructor
        · intro he
          exact absurd he (by simp)
        · intro hc
          omega
      · constructor
        · intro _
          exact ⟨h1.1, h1.2, h2⟩
        · intro _
          exact ⟨s2, rfl⟩

/-- Witness for the amended C3 at a concrete in-window append. -/
theorem add_offset_and_errors_witness :
    (((newSequence 1000 60).add 1420 1 = .err "out of bounds" ↔
      (Int.tdiv (1420 - (newSequence 1000 60).ts) ((newSequence 1000 60).frequency : Int) + 1 < 1 ∨
        ((newSequence 1000 60).length : Int) <
          Int.tdiv (1420 - (newSequence 1000 60).ts) ((newSequence 1000 60).frequency : Int) + 1)) ∧
    ((newSequence 1000 60).add 1420 1 = .err "cannot overwrite value" ↔
      (1 ≤ Int.tdiv (1420 - (newSequence 1000 60).ts) ((newSequence 1000 60).frequency : Int) + 1 ∧
        Int.tdiv (1420 - (newSequence 1000 60).ts) ((newSequence 1000 60).frequency : Int) + 1 ≤
          ((newSequence 1000 60).count : Int))) ∧
    ((∃ s2, (newSequence 1000 60).add 1420 1 = .ok s2) ↔
      (1 ≤ Int.tdiv (1420 - (newSequence 1000 60).ts) ((newSequence 1000 60).frequency : Int) + 1 ∧
        Int.tdiv (1420 - (newSequence 1000 60).ts) ((newSequence 1000 60).frequency : Int) + 1 ≤
          ((newSequence 1000 60).length : Int) ∧
        ((newSequence 1000 60).count : Int) <
          Int.tdiv (1420 - (newSequence 1000 60).ts) ((newSequence 1000 60).frequency : Int) + 1))) :=
  add_offset_and_errors (newSequence 1000 60) 1420 1 (by decide) (by decide) (by decide)

/-- C3 counterexample: at `t = 970` on a fresh sequence with `ts = 1000`
and `frequency = 60`, the mathematical-floor offset is `0 < 1`, so the
claim as stated demands the out-of-bounds error, but `Add` (which
truncates toward zero) succeeds. -/
theorem add_floor_counterexample :
    Int.fdiv (970 - (newSequence 1000 60).ts) ((newSequence 1000 60).frequency : Int) + 1 < 1 ∧
    (newSequence 1000 60).add 970 1 =
      .ok { ts := 1000, frequency := 60, length := MaxSequenceLength,
            count := 1, data := [5] } := by
  constructor
  · decide
  · decide

/-! ## C8: `FromBytes` is unchecked and `Add` can panic -/

/-- C8: `NewSequenceFromBytes` accepts every buffer of at least 14 bytes
and copies the little-endian `count` header field verbatim, without
checking it against the decoded run lengths; on the 14-byte buffer with
`count = 1` and an empty data section, an in-window `Add` at offset 2
reaches `last()`, which reads `data[0]` out of range: `Add` panics. -/
theorem fromBytes_unchecked_count_add_panics :
    (∀ buf : List Nat, 14 ≤ buf.length →
      ∃ s, fromBytes buf = .ok s ∧
        s.count = (buf.getD 10 0 ||| buf.getD 11 0 * 256 ||| buf.getD 12 0 * 65536 |||
          buf.getD 13 0 * 16777216) ∧ s.data = buf.drop 14) ∧
    fromBytes [0, 0, 0, 0, 60, 0, 0, 0, 0, 0, 1, 0, 0, 0] =
      .ok (Sequence.mk 0 60 MaxSequenceLength 1 []) ∧
    Sequence.add (Sequence.mk 0 60 MaxSequenceLength 1 []) 60 1 = .panic := by
  refine ⟨?_, by rfl, by decide⟩
  intro buf h
  unfold fromBytes
  rw [if_neg (by omega : ¬ buf.length < 14)]
  exact ⟨_, rfl, rfl, rfl⟩

/-- Witness for C8's universally quantified part at a concrete buffer. -/
theorem fromBytes_unchecked_count_add_panics_witness :
    ∃ s, fromBytes [1, 0, 0, 0, 2, 0, 3, 0, 0, 0, 7, 0, 0, 0, 9, 9] = .ok s ∧
      s.count = ([1, 0, 0, 0, 2, 0, 3, 0, 0, 0, 7, 0, 0, 0, 9, 9].getD 10 0 |||
        [1, 0, 0, 0, 2, 0, 3, 0, 0, 0, 7, 0, 0, 0, 9, 9].getD 11 0 * 256 |||
        [1, 0, 0, 0, 2, 0, 3, 0, 0, 0, 7, 0, 0, 0, 9, 9].getD 12 0 * 65536 |||
        [1, 0, 0, 0, 2, 0, 3, 0, 0, 0, 7, 0, 0, 0, 9, 9].getD 13 0 * 16777216) ∧
      s.data = [1, 0, 0, 0, 2, 0, 3, 0, 0, 0, 7, 0, 0, 0, 9, 9].drop 14 :=
  fromBytes_unchecked_count_add_panics.1
    [1, 0, 0, 0, 2, 0, 3, 0, 0, 0, 7, 0, 0, 0, 9, 9] (by decide)

/-! ## C9: `Store.Execute` inserts the fresh sequence before dispatch -/

/-- C9: when the key is absent and `CreateIfNotExists` is set,
`executeUnsafe` inserts the freshly constructed sequence into the map
before dispatching `Add`/`Roll`; if the dispatched operation returns an
error, the store still contains that fresh sequence under the key. -/
theorem execute_creates_despite_error (m : StoreMap) (stmt : Statement) (e : String)
    (habs : m stmt.key = none) (hcr : stmt.createIfNotExists = true)
    (htype : stmt.type < statementUnknownType)
    (herr : (if stmt.type = StatementAdd then
        stmt.freshSequence.add stmt.timestamp stmt.value
      else stmt.freshSequence.roll stmt.timestamp stmt.value) = .err e) :
    executeUnsafe m stmt =
      some (storeInsert m stmt.key stmt.freshSequence, some e) ∧
    storeInsert m stmt.key stmt.freshSequence stmt.key = some stmt.freshSequence := by
  constructor
  · unfold executeUnsafe
    rw [if_neg (by omega : ¬ statementUnknownType ≤ stmt.type)]
    simp only [habs, hcr]
    rw [herr]
    simp
  · simp [storeInsert]

/-- Witness for C9: a creating `Add` statement whose dispatch fails out
of bounds leaves the fresh empty sequence in the store. -/
theorem execute_creates_despite_error_witness :
    executeUnsafe (fun _ => none)
        ⟨"k", -100, 1, StatementAdd, true, 0, 60, 0⟩ =
      some (storeInsert (fun _ => none) "k"
        (Statement.freshSequence ⟨"k", -100, 1, StatementAdd, true, 0, 60, 0⟩),
        some "out of bounds") ∧
    storeInsert (fun _ => none) "k"
        (Statement.freshSequence ⟨"k", -100, 1, StatementAdd, true, 0, 60, 0⟩) "k" =
      some (Statement.freshSequence ⟨"k", -100, 1, StatementAdd, true, 0, 60, 0⟩) :=
  execute_creates_despite_error (fun _ => none)
    ⟨"k", -100, 1, StatementAdd, true, 0, 60, 0⟩ "out of bounds"
    rfl rfl (by decide) (by decide)

/-! ## C4: serialization round-trip -/

theorem lor_byte {u : Nat} (v : Nat) (hu : u < 256) : u ||| v * 256 = u + v * 256 := by
  have h := lor_mul_pow (a := u) (b := v) (s := 8) (by norm_num [hu])
  norm_num at h
  exact h

theorem lor_word {u : Nat} (v : Nat) (hu : u < 65536) :
    u ||| v * 65536 = u + v * 65536 := by
  have h := lor_mul_pow (a := u) (b := v) (s := 16) (by norm_num [hu])
  norm_num at h
  exact h

theorem lor_word3 {u : Nat} (v : Nat) (hu : u < 16777216) :
    u ||| v * 16777216 = u + v * 16777216 := by
  have h := lor_mul_pow (a := u) (b := v) (s := 24) (by norm_num [hu])
  norm_num at h
  exact h

/-- The little-endian reader of `NewSequenceFromBytes` inverts `le4` on
32-bit values. -/
theorem le4_reconstruct {a : Nat} (h : a < 4294967296) :
    a % 256 ||| a / 256 % 256 * 256 ||| a / 65536 % 256 * 65536 |||
      a / 16777216 % 256 * 16777216 = a := by
  rw [lor_byte _ (by omega)]
  rw [lor_word _ (by omega)]
  rw [lor_word3 _ (by omega)]
  omega

theorem le2_reconstruct {a : Nat} (h : a < 65536) :
    a % 256 ||| a / 256 % 256 * 256 = a := by
  rw [lor_byte _ (by omega)]
  omega

/-- `NewSequenceFromBytes` on an explicit 14-byte header followed by
`data`. -/
theorem fromBytes_cons (b0 b1 b2 b3 b4 b5 b6 b7 b8 b9 b10 b11 b12 b13 : Nat)
    (data : List Nat) :
    fromBytes (b0 :: b1 :: b2 :: b3 :: b4 :: b5 :: b6 :: b7 :: b8 :: b9 ::
        b10 :: b11 :: b12 :: b13 :: data) =
      .ok { ts := ((b0 ||| b1 * 256 ||| b2 * 65536 ||| b3 * 16777216 : Nat) : Int)
            frequency := b4 ||| b5 * 256
            length := if (b6 ||| b7 * 256 ||| b8 * 65536 ||| b9 * 16777216) = 0 then
                MaxSequenceLength
              else b6 ||| b7 * 256 ||| b8 * 65536 ||| b9 * 16777216
            count := b10 ||| b11 * 256 ||| b12 * 65536 ||| b13 * 16777216
            data := data } := by
  unfold fromBytes
  rw [if_neg (by simp only [List.length_cons]; omega)]
  rfl

/-- C4 (amended): `FromBytes (s.Bytes())` reproduces `s` exactly for
every sequence whose reference timestamp lies in `[0, 2^32)` and whose
length is nonzero, the remaining fields ranging over their full machine
types (`frequency < 2^16`, `length ≤ MaxSequenceLength`,
`count < 2^32`, arbitrary run data). -/
theorem bytes_fromBytes_roundtrip (s : Sequence)
    (hts0 : 0 ≤ s.ts) (hts1 : s.ts < 4294967296)
    (hf : s.frequency < 65536) (hl1 : 1 ≤ s.length)
    (hl2 : s.length ≤ MaxSequenceLength) (hc : s.count < 4294967296) :
    fromBytes s.bytes = .ok s := by
  obtain ⟨ts, f, L, c, data⟩ := s
  simp only at hts0 hts1 hf hl1 hl2 hc
  have hmod : ts % 4294967296 = ts := Int.emod_eq_of_lt hts0 hts1
  have htsu : (ts % 4294967296).toNat < 4294967296 := by omega
  have hcast : (((ts % 4294967296).toNat : Nat) : Int) = ts := by omega
  show fromBytes (Sequence.bytes ⟨ts, f, L, c, data⟩) = _
  unfold Sequence.bytes
  simp only [le4, le2]
  by_cases hL : L ≠ MaxSequenceLength <;> by_cases hC : c ≠ 0 <;>
    simp only [hL, hC, if_pos, if_neg, if_true, if_false, ite_true, ite_false,
      List.cons_append, List.nil_append, not_true, not_false_iff, ite_not] <;>
    rw [fromBytes_cons] <;>
    simp only [Except.ok.injEq, Sequence.mk.injEq]
  · refine ⟨by rw [le4_reconstruct htsu, hcast], by rw [le2_reconstruct hf], ?_, ?_, trivial⟩
    · rw [le4_reconstruct (by unfold MaxSequenceLength at hl2; omega)]
      rw [if_neg (by omega)]
    · rw [le4_reconstruct hc]
  · refine ⟨by rw [le4_reconstruct htsu, hcast], by rw [le2_reconstruct hf], ?_, ?_, trivial⟩
    · rw [le4_reconstruct (by unfold MaxSequenceLength at hl2; omega)]
      rw [if_neg (by omega)]
    · simp
      omega
  · refine ⟨by rw [le4_reconstruct htsu, hcast], by rw [le2_reconstruct hf], ?_, ?_, trivial⟩
    · simp
      omega
    · rw [le4_reconstruct hc]
  · refine ⟨by rw [le4_reconstruct htsu, hcast], by rw [le2_reconstruct hf], ?_, ?_, trivial⟩
    · simp
      omega
    · simp
      omega

/-- Witness for C4 at the concrete test sequence of the Go test suite. -/
theorem bytes_fromBytes_roundtrip_witness :
    fromBytes (Sequence.bytes
        ⟨946782245, 60, MaxSequenceLength, 20, [21, 20, 21, 18, 4]⟩) =
      .ok ⟨946782245, 60, MaxSequenceLength, 20, [21, 20, 21, 18, 4]⟩ :=
  bytes_fromBytes_roundtrip _ (by decide) (by decide) (by decide) (by decide)
    (by decide) (by decide)

/-- C4 counterexample: serialization keeps only the low 32 bits of the
timestamp, so a sequence created at `ts = -1` comes back with
`ts = 2^32 - 1`; and a zero length (reachable through `SetLength 0`) is
decoded as `MaxSequenceLength`. -/
theorem bytes_roundtrip_counterexample :
    fromBytes (Sequence.bytes (newSequence (-1) 60)) =
      .ok ⟨4294967295, 60, MaxSequenceLength, 0, []⟩ ∧
    (newSequence (-1) 60).ts = -1 ∧ (4294967295 : Int) ≠ -1 ∧
    fromBytes (Sequence.bytes ((newSequence 0 60).setLength 0)) =
      .ok ⟨0, 60, MaxSequenceLength, 0, []⟩ ∧
    ((newSequence 0 60).setLength 0).length = 0 ∧ (MaxSequenceLength : Nat) ≠ 0 := by
  refine ⟨by rfl, by rfl, by decide, by rfl, by rfl, by decide⟩

/-! ## Run lists and the data invariants (C2) -/

/-- The byte image of a run list: concatenated minimal encodings. -/
def encodeRuns : List (Nat × Nat) → List Nat
  | [] => []
  | r :: rest => encode r.1 r.2 ++ encodeRuns rest

/-- Sum of the run lengths. -/
def sumRuns : List (Nat × Nat) → Nat
  | [] => 0
  | r :: rest => r.1 + sumRuns rest

/-- The specification's three run-list invariants, together with the
bounds the machine types give: `data` is the concatenation of the
records of `runs`, every record has a length `n ≥ 1` (invariant 1)
below `2^32` and a 2-bit value, no two adjacent records share a value
(invariant 3), the lengths sum to `count` (invariant 2), and `count`
fits `uint32`. -/
structure SeqWF (s : Sequence) (runs : List (Nat × Nat)) : Prop where
  data_eq : s.data = encodeRuns runs
  pos : ∀ r ∈ runs, 1 ≤ r.1
  lt : ∀ r ∈ runs, r.1 < 4294967296
  val : ∀ r ∈ runs, r.2 < 4
  adj : List.Chain' (fun a b => a.2 ≠ b.2) runs
  sum : sumRuns runs = s.count
  cnt : s.count < 4294967296

/-- A sequence satisfies the run-list invariants. -/
def WF (s : Sequence) : Prop := ∃ runs, SeqWF s runs

theorem encodeRuns_append (l1 l2 : List (Nat × Nat)) :
    encodeRuns (l1 ++ l2) = encodeRuns l1 ++ encodeRuns l2 := by
  induction l1 with
  | nil => simp [encodeRuns]
  | cons r rest ih => simp [encodeRuns, ih]

theorem sumRuns_append (l1 l2 : List (Nat × Nat)) :
    sumRuns (l1 ++ l2) = sumRuns l1 + sumRuns l2 := by
  induction l1 with
  | nil => simp [sumRuns]
  | cons r rest ih => simp [sumRuns, ih]; omega

theorem sumRuns_le_of_mem {runs : List (Nat × Nat)} {r : Nat × Nat}
    (h : r ∈ runs) : r.1 ≤ sumRuns runs := by
  induction runs with
  | nil => cases h
  | cons a rest ih =>
    rcases List.mem_cons.mp h with rfl | h2
    · simp [sumRuns]
    · have := ih h2
      simp [sumRuns]
      omega

theorem encode_dropLast_ge (n v : Nat) (hv : v < 4) :
    ∀ b ∈ (encode n v).dropLast, 128 ≤ b := by
  rcases Nat.lt_or_ge n 32 with h | h
  · rw [encode_of_lt h v hv]
    simp
  · rw [encode_of_ge h v hv]
    intro b hb
    have hne := encodeLoop_ne_nil (n / 32)
    rw [List.dropLast_cons_of_ne_nil hne] at hb
    rcases List.mem_cons.mp hb with rfl | hb
    · omega
    · exact encodeLoop_dropLast_ge (n / 32) b hb

theorem encode_getLastD_lt (n v : Nat) (hv : v < 4) (d : Nat) :
    (encode n v).getLastD d < 128 := by
  rcases Nat.lt_or_ge n 32 with h | h
  · rw [encode_of_lt h v hv]
    simp
    omega
  · rw [encode_of_ge h v hv]
    have hne := encodeLoop_ne_nil (n / 32)
    have hl := encodeLoop_last_lt (n / 32)
    cases hlp : encodeLoop (n / 32) with
    | nil => exact absurd hlp hne
    | cons a l =>
      have h2 := hl a
      rw [hlp] at h2
      simpa using h2

/-- The last byte of a nonempty run-list image has its continuation bit
clear. -/
theorem encodeRuns_getLast_lt {runs : List (Nat × Nat)}
    (hv : ∀ r ∈ runs, r.2 < 4) (hne : runs ≠ []) :
    ∃ z, (encodeRuns runs).getLast? = some z ∧ z < 128 := by
  induction runs with
  | nil => exact absurd rfl hne
  | cons r rest ih =>
    show ∃ z, (encode r.1 r.2 ++ encodeRuns rest).getLast? = some z ∧ z < 128
    cases hrest : rest with
    | nil =>
      have hne2 := encode_ne_nil r.1 r.2
      have hlt := encode_getLastD_lt r.1 r.2 (hv r (by simp)) 0
      cases hq : (encode r.1 r.2).getLast? with
      | none => exact absurd (List.getLast?_eq_none_iff.mp hq) hne2
      | some z =>
        refine ⟨z, ?_, ?_⟩
        · show (encode r.1 r.2 ++ []).getLast? = some z
          rw [List.append_nil, hq]
        · rw [List.getLastD_eq_getLast?, hq] at hlt
          simpa using hlt
    | cons a l =>
      obtain ⟨z, hz, hzlt⟩ := ih (fun q hq => hv q (by simp [hq])) (by simp [hrest])
      rw [hrest] at hz
      refine ⟨z, ?_, hzlt⟩
      rw [List.getLast?_append, hz]
      rfl

/-- The backward scan of `last` over a run-list image followed by one
more record starts the final record exactly at the end of the prefix. -/
theorem lastRunStart_append {runs : List (Nat × Nat)} {n v : Nat}
    (hv : ∀ r ∈ runs, r.2 < 4) (hnv : v < 4) :
    lastRunStart (encodeRuns runs ++ encode n v) = (encodeRuns runs).length := by
  have hene : encode n v ≠ [] := encode_ne_nil n v
  have hlen : 1 ≤ (encode n v).length := List.length_pos.mpr hene
  unfold lastRunStart
  have htake : (encodeRuns runs ++ encode n v).take
      ((encodeRuns runs ++ encode n v).length - 1) =
      encodeRuns runs ++ (encode n v).dropLast := by
    rw [List.length_append]
    rw [show (encodeRuns runs).length + (encode n v).length - 1 =
      (encodeRuns runs).length + ((encode n v).length - 1) by omega]
    rw [List.take_append_eq_append_take]
    rw [List.take_of_length_le (by omega)]
    congr 1
    rw [show (encodeRuns runs).length + ((encode n v).length - 1) -
      (encodeRuns runs).length = (encode n v).length - 1 by omega]
    exact (List.dropLast_eq_take _).symm
  rw [htake, List.reverse_append]
  have hd : (encode n v).dropLast.reverse.findIdx? (fun b => b < 128) = none := by
    rw [List.findIdx?_eq_none_iff]
    intro b hb
    have := encode_dropLast_ge n v hnv b (List.mem_reverse.mp hb)
    simpa using this
  rw [List.findIdx?_append, hd, Option.none_or]
  cases hruns : runs with
  | nil =>
    simp [hruns, encodeRuns]
  | cons r rest =>
    rw [← hruns]
    have hne2 : runs ≠ [] := by simp [hruns]
    obtain ⟨z, hz, hzlt⟩ := encodeRuns_getLast_lt hv hne2
    obtain ⟨b0, rrest, hrev⟩ : ∃ b0 rrest, (encodeRuns runs).reverse = b0 :: rrest := by
      cases hr : (encodeRuns runs).reverse with
      | nil =>
        have : encodeRuns runs = [] := by simpa using congrArg List.reverse hr
        rw [this] at hz
        cases hz
      | cons b0 rrest => exact ⟨b0, rrest, rfl⟩
    have hb0 : b0 = z := by
      have h1 : (encodeRuns runs).getLast? = (encodeRuns runs).reverse.head? :=
        (List.head?_reverse _).symm
      rw [hz, hrev] at h1
      simpa using h1.symm
    rw [hrev]
    simp only [List.findIdx?_cons]
    rw [if_pos (by simp [hb0]; omega)]
    simp only [Option.map_some']
    have hdl : (encode n v).dropLast.length = (encode n v).length - 1 :=
      List.length_dropLast _
    have hlen2 : (encodeRuns runs ++ encode n v).length =
        (encodeRuns runs).length + (encode n v).length := List.length_append _ _
    rw [List.length_reverse, hdl, hlen2]
    omega

/-- `next` at the length of a prefix parses the suffix. -/
theorem next_append (pre bs : List Nat) :
    next (pre ++ bs) pre.length = next bs 0 := by
  unfold next
  rw [List.drop_left, List.drop_zero]

/-- `last` on a run-list image ending in record `(n, v)` returns that
record. -/
theorem lastRun_append {s : Sequence} {runs : List (Nat × Nat)} {n v : Nat}
    (hdata : s.data = encodeRuns runs ++ encode n v)
    (hv : ∀ r ∈ runs, r.2 < 4) (hnv : v < 4) (hn : n < 4294967296) :
    s.lastRun = some (n, v, (encode n v).length) := by
  unfold Sequence.lastRun
  rw [hdata, lastRunStart_append hv hnv]
  have h2 : next (encodeRuns runs ++ encode n v) (encodeRuns runs).length =
      next (encode n v) 0 := next_append _ _
  rw [h2]
  have h3 := next_encode n v hn hnv []
  simpa using h3

/-! ## `addSeries` preserves the invariants -/

theorem encodeLoop_length_pos (x : Nat) : 1 ≤ (encodeLoop x).length := by
  have := encodeLoop_ne_nil x
  cases h : encodeLoop x with
  | nil => exact absurd h this
  | cons a l => simp

theorem encodeLoop_length_mono : ∀ {x y : Nat}, x ≤ y →
    (encodeLoop x).length ≤ (encodeLoop y).length := by
  intro x y
  induction y using Nat.strong_induction_on generalizing x with
  | _ y ih =>
    intro hxy
    rcases Nat.lt_or_ge y 128 with hy | hy
    · rw [encodeLoop_of_lt hy, encodeLoop_of_lt (by omega)]
      simp
    · rw [encodeLoop_of_ge hy]
      rcases Nat.lt_or_ge x 128 with hx | hx
      · rw [encodeLoop_of_lt hx]
        have := encodeLoop_length_pos (y / 128)
        simp only [List.length_cons, List.length_singleton, List.length_nil]
        omega
      · rw [encodeLoop_of_ge hx]
        have hstep := ih (y / 128) (Nat.div_lt_self (by omega) (by omega))
          (Nat.div_le_div_right hxy)
        simp only [List.length_cons]
        omega

theorem encode_length_mono {c1 c2 v1 v2 : Nat} (h : c1 ≤ c2) :
    (encode c1 v1).length ≤ (encode c2 v2).length := by
  rw [encode_length, encode_length]
  exact encodeLoop_length_mono (by omega)

/-- The abstract effect of `addSeries` on the run list: extend the last
run in place when the value matches, append a fresh run otherwise. -/
def mergeRuns (runs : List (Nat × Nat)) (n v : Nat) : List (Nat × Nat) :=
  match runs.getLast? with
  | some r => if r.2 = v then runs.dropLast ++ [(r.1 + n, v)] else runs ++ [(n, v)]
  | none => runs ++ [(n, v)]

theorem sumRuns_eq_zero {runs : List (Nat × Nat)}
    (hpos : ∀ r ∈ runs, 1 ≤ r.1) (h : sumRuns runs = 0) : runs = [] := by
  cases runs with
  | nil => rfl
  | cons r rest =>
    have := hpos r (by simp)
    simp [sumRuns] at h
    omega

theorem appendRun_eq (s : Sequence) (n xm : Nat) (hxm : xm < 4) :
    appendRun s n xm =
      { s with data := s.data ++ encode n xm,
               count := (s.count + n) % 4294967296 } := by
  unfold appendRun
  split
  · rename_i h1
    subst h1
    have : (4 : Nat) ||| xm = 1 * 4 + xm := by
      rw [show (4 : Nat) = 1 * 4 by norm_num, lor_small 1 hxm]
    rw [this, ← encode_of_lt (by omega) xm hxm]
  · rfl

/-- Unfolding `addSeries` when the last run is known. -/
theorem addSeries_of_last (s : Sequence) (n x : Nat) (hc : s.count ≠ 0)
    {c v bl : Nat} (hl : s.lastRun = some (c, v, bl)) :
    s.addSeries n x =
      (if v = x % 4 then
        some { s with data := spliceLast s.data bl (encode ((c + n) % 4294967296) (x % 4)),
                      count := (s.count + n) % 4294967296 }
      else some (appendRun s n (x % 4))) := by
  unfold Sequence.addSeries
  rw [if_pos hc, hl]

/-- Unfolding `addSeries` on an empty sequence. -/
theorem addSeries_of_zero (s : Sequence) (n x : Nat) (hc : s.count = 0) :
    s.addSeries n x = some (appendRun s n (x % 4)) := by
  unfold Sequence.addSeries
  rw [if_neg (by simpa using hc)]

/-- `addSeries n x` on a well-formed state: never panics, and the run
list becomes `mergeRuns runs n (x % 4)`. -/
theorem addSeries_wf {s : Sequence} {runs : List (Nat × Nat)} (hwf : SeqWF s runs)
    (n x : Nat) (hn : 1 ≤ n) (hcap : s.count + n < 4294967296) :
    ∃ s2, s.addSeries n x = some s2 ∧
      SeqWF s2 (mergeRuns runs n (x % 4)) ∧
      s2.count = s.count + n ∧ s2.ts = s.ts ∧
      s2.frequency = s.frequency ∧ s2.length = s.length := by
  have hxm : x % 4 < 4 := Nat.mod_lt _ (by norm_num)
  by_cases hc : s.count ≠ 0
  · have hrne : runs ≠ [] := by
      intro he
      apply hc
      rw [← hwf.sum, he]
      rfl
    rcases List.eq_nil_or_concat runs with rfl | ⟨init, lastR, hsplit⟩
    · exact absurd rfl hrne
    rw [List.concat_eq_append] at hsplit
    have hdata : s.data = encodeRuns init ++ encode lastR.1 lastR.2 := by
      rw [hwf.data_eq, hsplit, encodeRuns_append]
      simp [encodeRuns]
    have hlast := lastRun_append hdata
      (fun r hr => hwf.val r (by rw [hsplit]; exact List.mem_append_left _ hr))
      (hwf.val lastR (by rw [hsplit]; simp))
      (hwf.lt lastR (by rw [hsplit]; simp))
    rw [addSeries_of_last s n x hc hlast]
    have hcle : lastR.1 ≤ s.count := by
      rw [← hwf.sum]
      exact sumRuns_le_of_mem (by rw [hsplit]; simp)
    have hgl : runs.getLast? = some lastR := by
      rw [hsplit]
      simp
    by_cases hveq : lastR.2 = x % 4
    · rw [if_pos hveq]
      have hcn : (lastR.1 + n) % 4294967296 = lastR.1 + n :=
        Nat.mod_eq_of_lt (by omega)
      have hcc : (s.count + n) % 4294967296 = s.count + n :=
        Nat.mod_eq_of_lt (by omega)
      have hmerge : mergeRuns runs n (x % 4) = init ++ [(lastR.1 + n, x % 4)] := by
        unfold mergeRuns
        rw [hgl]
        show (if lastR.2 = x % 4 then runs.dropLast ++ [(lastR.1 + n, x % 4)]
          else runs ++ [(n, x % 4)]) = _
        rw [if_pos hveq, hsplit]
        simp
      have hsplice : spliceLast s.data (encode lastR.1 lastR.2).length
          (encode ((lastR.1 + n) % 4294967296) (x % 4)) =
          encodeRuns init ++ encode (lastR.1 + n) (x % 4) := by
        unfold spliceLast
        rw [hcn, if_pos (encode_length_mono (by omega))]
        congr 1
        rw [hdata, List.length_append]
        rw [show (encodeRuns init).length + (encode lastR.1 lastR.2).length -
          (encode lastR.1 lastR.2).length = (encodeRuns init).length by omega]
        exact List.take_left _ _
      refine ⟨_, rfl, ?_, by simpa using hcc, rfl, rfl, rfl⟩
      rw [hmerge]
      constructor
      · show spliceLast _ _ _ = _
        rw [hsplice, encodeRuns_append]
        simp [encodeRuns]
      · intro r hr
        rcases List.mem_append.mp hr with hr | hr
        · exact hwf.pos r (by rw [hsplit]; exact List.mem_append_left _ hr)
        · simp at hr
          subst hr
          simp
          omega
      · intro r hr
        rcases List.mem_append.mp hr with hr | hr
        · exact hwf.lt r (by rw [hsplit]; exact List.mem_append_left _ hr)
        · simp at hr
          subst hr
          simp
          omega
      · intro r hr
        rcases List.mem_append.mp hr with hr | hr
        · exact hwf.val r (by rw [hsplit]; exact List.mem_append_left _ hr)
        · simp at hr
          subst hr
          exact hxm
      · have hadj := hwf.adj
        rw [hsplit] at hadj
        rw [List.chain'_append] at hadj ⊢
        refine ⟨hadj.1, by simp, ?_⟩
        intro p hp q hq
        simp at hq
        subst hq
        have h5 := hadj.2.2 p hp lastR (by simp)
        show p.2 ≠ x % 4
        rw [← hveq]
        exact h5
      · show sumRuns (init ++ [(lastR.1 + n, x % 4)]) = (s.count + n) % 4294967296
        rw [sumRuns_append, hcc]
        have h1 : sumRuns runs = sumRuns init + lastR.1 := by
          rw [hsplit, sumRuns_append]
          simp [sumRuns]
        have h2 := hwf.sum
        simp [sumRuns]
        omega
      · show (s.count + n) % 4294967296 < 4294967296
        omega
    · rw [if_neg hveq]
      have hcc : (s.count + n) % 4294967296 = s.count + n :=
        Nat.mod_eq_of_lt (by omega)
      have hmerge : mergeRuns runs n (x % 4) = runs ++ [(n, x % 4)] := by
        unfold mergeRuns
        rw [hgl]
        show (if lastR.2 = x % 4 then runs.dropLast ++ [(lastR.1 + n, x % 4)]
          else runs ++ [(n, x % 4)]) = _
        rw [if_neg hveq]
      refine ⟨_, rfl, ?_, by simp [appendRun_eq s n (x % 4) hxm, hcc], ?_, ?_, ?_⟩
      · rw [hmerge, appendRun_eq s n (x % 4) hxm]
        constructor
        · show s.data ++ encode n (x % 4) = _
          rw [encodeRuns_append, hwf.data_eq]
          simp [encodeRuns]
        · intro r hr
          rcases List.mem_append.mp hr with hr | hr
          · exact hwf.pos r hr
          · simp at hr
            subst hr
            exact hn
        · intro r hr
          rcases List.mem_append.mp hr with hr | hr
          · exact hwf.lt r hr
          · simp at hr
            subst hr
            omega
        · intro r hr
          rcases List.mem_append.mp hr with hr | hr
          · exact hwf.val r hr
          · simp at hr
            subst hr
            exact hxm
        · rw [List.chain'_append]
          refine ⟨hwf.adj, by simp, ?_⟩
          intro p hp q hq
          simp at hq
          subst hq
          rw [hgl] at hp
          simp at hp
          subst hp
          exact hveq
        · show sumRuns (runs ++ [(n, x % 4)]) = (s.count + n) % 4294967296
          rw [sumRuns_append, hcc, hwf.sum]
          simp [sumRuns]
        · show (s.count + n) % 4294967296 < 4294967296
          omega
      · simp [appendRun_eq s n (x % 4) hxm]
      · simp [appendRun_eq s n (x % 4) hxm]
      · simp [appendRun_eq s n (x % 4) hxm]
  · push_neg at hc
    have hrnil : runs = [] := sumRuns_eq_zero hwf.pos (by rw [hwf.sum, hc])
    rw [addSeries_of_zero s n x hc]
    have hcc : (s.count + n) % 4294967296 = s.count + n :=
      Nat.mod_eq_of_lt (by omega)
    have hmerge : mergeRuns runs n (x % 4) = [(n, x % 4)] := by
      unfold mergeRuns
      rw [hrnil]
      rfl
    refine ⟨_, rfl, ?_, by simp [appendRun_eq s n (x % 4) hxm, hcc], ?_, ?_, ?_⟩
    · rw [hmerge, appendRun_eq s n (x % 4) hxm]
      constructor
      · show s.data ++ encode n (x % 4) = _
        rw [hwf.data_eq, hrnil]
        simp [encodeRuns]
      · intro r hr
        simp at hr
        subst hr
        exact hn
      · intro r hr
        simp at hr
        subst hr
        omega
      · intro r hr
        simp at hr
        subst hr
        exact hxm
      · simp
      · show sumRuns [(n, x % 4)] = (s.count + n) % 4294967296
        rw [hcc, hc]
        simp [sumRuns]
      · show (s.count + n) % 4294967296 < 4294967296
        omega
    · simp [appendRun_eq s n (x % 4) hxm]
    · simp [appendRun_eq s n (x % 4) hxm]
    · simp [appendRun_eq s n (x % 4) hxm]

/-! ## Constructors and `Add` preserve the invariants -/

theorem newSequence_wf (t : Int) (f : Nat) : SeqWF (newSequence t f) [] :=
  ⟨rfl, by simp, by simp, by simp, by simp, rfl,
    by show (0 : Nat) < 4294967296; norm_num⟩

theorem newFromValuesLoop_wf :
    ∀ (rest : List Nat) (s : Sequence) (runs : List (Nat × Nat)) (cnt x : Nat),
      SeqWF s runs → 1 ≤ cnt → s.count + cnt + rest.length < 4294967296 →
      ∃ s2, newFromValuesLoop s cnt x rest = some s2 ∧ WF s2 ∧
        s2.count = s.count + cnt + rest.length := by
  intro rest
  induction rest with
  | nil =>
    intro s runs cnt x hwf hcnt hcap
    obtain ⟨s2, h1, h2, h3, _⟩ := addSeries_wf hwf cnt x hcnt (by simp at hcap; omega)
    refine ⟨s2, h1, ⟨_, h2⟩, by simp; omega⟩
  | cons v rest ih =>
    intro s runs cnt x hwf hcnt hcap
    by_cases hvx : v ≠ x
    · obtain ⟨s1, h1, h2, h3, _⟩ := addSeries_wf hwf cnt x hcnt
        (by simp at hcap; omega)
      obtain ⟨s2, h4, h5, h6⟩ := ih s1 _ 1 v h2 (by omega)
        (by simp at hcap; omega)
      refine ⟨s2, ?_, h5, by simp; omega⟩
      show (if v ≠ x then
        match s.addSeries cnt x with
        | none => none
        | some s1 => newFromValuesLoop s1 1 v rest
      else newFromValuesLoop s (cnt + 1) x rest) = some s2
      rw [if_pos hvx, h1]
      exact h4
    · obtain ⟨s2, h4, h5, h6⟩ := ih s runs (cnt + 1) x hwf (by omega)
        (by simp at hcap; omega)
      refine ⟨s2, ?_, h5, by simp; omega⟩
      show (if v ≠ x then
        match s.addSeries cnt x with
        | none => none
        | some s1 => newFromValuesLoop s1 1 v rest
      else newFromValuesLoop s (cnt + 1) x rest) = some s2
      rw [if_neg hvx]
      exact h4

theorem newSequenceFromValues_wf (t : Int) (f : Nat) (values : List Nat) :
    ∃ s2, newSequenceFromValues t f values = some s2 ∧ WF s2 := by
  unfold newSequenceFromValues
  cases h : values.take MaxSequenceLength with
  | nil => exact ⟨_, rfl, [], newSequence_wf t f⟩
  | cons v rest =>
    have hlen : (v :: rest).length ≤ MaxSequenceLength := by
      rw [← h]
      exact List.length_take_le _ _
    obtain ⟨s2, h1, h2, _⟩ := newFromValuesLoop_wf rest (newSequence t f) [] 1 v
      (newSequence_wf t f) (by omega)
      (by simp at hlen ⊢; unfold newSequence MaxSequenceLength at *; simp; omega)
    exact ⟨s2, h1, h2⟩

/-- `Add` preserves the run-list invariants. -/
theorem add_wf {s : Sequence} {runs : List (Nat × Nat)} (hwf : SeqWF s runs)
    (hlen : s.length ≤ MaxSequenceLength) {t : Int} {x : Nat} {s2 : Sequence}
    (h : s.add t x = .ok s2) : WF s2 := by
  rw [add_eq] at h
  by_cases hf0 : s.frequency = 0
  · rw [if_pos hf0] at h
    cases h
  rw [if_neg hf0] at h
  by_cases h1 : Int.tdiv (t - s.ts) (s.frequency : Int) + 1 < 1 ∨
      (s.length : Int) < Int.tdiv (t - s.ts) (s.frequency : Int) + 1
  · rw [if_pos h1] at h
    cases h
  rw [if_neg h1] at h
  push_neg at h1
  by_cases h2 : Int.tdiv (t - s.ts) (s.frequency : Int) + 1 ≤ (s.count : Int)
  · rw [if_pos h2] at h
    cases h
  rw [if_neg h2] at h
  push_neg at h2
  have hoff : Int.tdiv (t - s.ts) (s.frequency : Int) + 1 ≤ (MaxSequenceLength : Nat) := by
    have : ((s.length : Nat) : Int) ≤ ((MaxSequenceLength : Nat) : Int) := by
      exact_mod_cast hlen
    omega
  have hgap : ∃ s1,
      (if 1 < Int.tdiv (t - s.ts) (s.frequency : Int) + 1 - (s.count : Int) then
        s.addSeries
          ((Int.tdiv (t - s.ts) (s.frequency : Int) + 1 - (s.count : Int)).toNat - 1)
          StateUnknown
      else some s) = some s1 ∧ WF s1 ∧
      (s1.count : Int) < Int.tdiv (t - s.ts) (s.frequency : Int) + 1 ∧
      s1.count + 1 < 4294967296 := by
    have hmax : (MaxSequenceLength : Nat) = 4294967295 := rfl
    split
    · rename_i hd
      obtain ⟨s1, e1, e2, e3, _⟩ := addSeries_wf hwf
        ((Int.tdiv (t - s.ts) (s.frequency : Int) + 1 - (s.count : Int)).toNat - 1)
        StateUnknown (by omega) (by omega)
      refine ⟨s1, e1, ⟨_, e2⟩, by omega, by omega⟩
    · rename_i hd
      push_neg at hd
      exact ⟨s, rfl, ⟨_, hwf⟩, by omega, by have := hwf.cnt; omega⟩
  obtain ⟨s1, e1, ⟨runs1, e2⟩, e3, e4⟩ := hgap
  rw [e1] at h
  obtain ⟨s2x, f1, f2, f3, _⟩ := addSeries_wf e2 1 x (by omega) e4
  have h5 : (match s1.addSeries 1 x with
    | none => Res.panic
    | some s2 => Res.ok s2) = Res.ok s2 := h
  rw [f1] at h5
  have h6 : Res.ok s2x = Res.ok s2 := h5
  cases h6
  exact ⟨_, f2⟩

/-! ## `SetLength` and the truncation walk -/

/-- Stepping over the leading record of a buffer: the head byte and the
parse of the remainder. -/
theorem parse_head_encode (n v : Nat) (hn : n < 4294967296) (hv : v < 4)
    (tail : List Nat) :
    ∃ b0 rest, encode n v ++ tail = b0 :: rest ∧
      (parseLoop (b0 % 128 / 4) 5 b0 rest).1 = n ∧
      (parseLoop (b0 % 128 / 4) 5 b0 rest).2 + 1 = (encode n v).length ∧
      b0 % 4 = v := by
  have hnext := next_encode n v hn hv tail
  cases he : encode n v with
  | nil => exact absurd he (encode_ne_nil n v)
  | cons b0 ebody =>
    refine ⟨b0, ebody ++ tail, by simp [he], ?_, ?_, ?_⟩ <;>
    · rw [he] at hnext
      unfold next at hnext
      simp only [List.cons_append, List.drop_zero] at hnext
      have h1 := Option.some.inj hnext
      have h2 := congrArg (fun q => q.1) h1
      have h3 := congrArg (fun q => q.2.1) h1
      have h4 := congrArg (fun q => q.2.2) h1
      simp at h2 h3 h4
      simp [h2, h3, h4, he]

/-- The abstract effect of the `SetLength` walk: keep whole records
while the accumulated length stays below `x`, shorten the straddling
record. -/
def truncRuns : List (Nat × Nat) → Nat → List (Nat × Nat)
  | [], _ => []
  | r :: rest, k =>
    if r.1 = k then [r]
    else if k < r.1 then [(k, r.2)]
    else r :: truncRuns rest (k - r.1)

theorem setLengthLoop_spec :
    ∀ (runs : List (Nat × Nat)) (pre : List Nat) (v x : Nat),
      (∀ r ∈ runs, 1 ≤ r.1) → (∀ r ∈ runs, r.1 < 4294967296) →
      (∀ r ∈ runs, r.2 < 4) →
      v + sumRuns runs < 4294967296 → v < x → x ≤ v + sumRuns runs →
      setLengthLoop x v pre (encodeRuns runs) =
        pre ++ encodeRuns (truncRuns runs (x - v)) := by
  intro runs
  induction runs with
  | nil =>
    intro pre v x _ _ _ _ h5 h6
    simp [sumRuns] at h6
    omega
  | cons r rest ih =>
    intro pre v x hpos hlt hval hcap h5 h6
    obtain ⟨b0, brest, hsplit, hp1, hp2, hp3⟩ :=
      parse_head_encode r.1 r.2 (hlt r (by simp)) (hval r (by simp))
        (encodeRuns rest)
    have hruns : encodeRuns (r :: rest) = b0 :: brest := hsplit
    rw [hruns, setLengthLoop.eq_def]
    show (let q := parseLoop (b0 % 128 / 4) 5 b0 brest
      let count := q.1
      let value := b0 % 4
      let bytesRead := q.2 + 1
      let v2 := (v + count) % 4294967296
      if v2 = x then pre ++ (b0 :: brest).take bytesRead
      else if x < v2 then
        pre ++ encode ((count + 4294967296 - (v2 - x) % 4294967296) % 4294967296) value
      else setLengthLoop x v2 (pre ++ (b0 :: brest).take bytesRead)
        (brest.drop q.2)) = pre ++ encodeRuns (truncRuns (r :: rest) (x - v))
    have hsums : sumRuns (r :: rest) = r.1 + sumRuns rest := rfl
    have hsum : v + r.1 + sumRuns rest < 4294967296 := by omega
    have hmod : (v + r.1) % 4294967296 = v + r.1 := Nat.mod_eq_of_lt (by omega)
    simp only [hp1, hp3, hmod]
    have htake : (b0 :: brest).take ((parseLoop (b0 % 128 / 4) 5 b0 brest).2 + 1) =
        encode r.1 r.2 := by
      rw [hp2, ← hruns]
      show (encode r.1 r.2 ++ encodeRuns rest).take (encode r.1 r.2).length = _
      exact List.take_left _ _
    by_cases hc1 : v + r.1 = x
    · rw [if_pos hc1, htake]
      have : truncRuns (r :: rest) (x - v) = [r] := by
        unfold truncRuns
        rw [if_pos (by omega)]
      rw [this]
      simp [encodeRuns]
    · rw [if_neg hc1]
      by_cases hc2 : x < v + r.1
      · rw [if_pos hc2]
        have harith : (r.1 + 4294967296 - (v + r.1 - x) % 4294967296) % 4294967296 =
            x - v := by
          have h7 : v + r.1 - x < 4294967296 := by omega
          rw [Nat.mod_eq_of_lt h7]
          have h8 : r.1 + 4294967296 - (v + r.1 - x) = 4294967296 + (x - v) := by omega
          rw [h8]
          rw [Nat.add_mod_left]
          exact Nat.mod_eq_of_lt (by omega)
        rw [harith]
        have : truncRuns (r :: rest) (x - v) = [(x - v, r.2)] := by
          unfold truncRuns
          rw [if_neg (by omega), if_pos (by omega)]
        rw [this]
        simp [encodeRuns]
      · rw [if_neg hc2]
        have hdrop : brest.drop (parseLoop (b0 % 128 / 4) 5 b0 brest).2 =
            encodeRuns rest := by
          have h9 : (b0 :: brest).drop ((parseLoop (b0 % 128 / 4) 5 b0 brest).2 + 1) =
              brest.drop (parseLoop (b0 % 128 / 4) 5 b0 brest).2 := rfl
          rw [← h9, hp2, ← hruns]
          show (encode r.1 r.2 ++ encodeRuns rest).drop (encode r.1 r.2).length = _
          exact List.drop_left _ _
        rw [hdrop, htake]
        have c4 : (v + r.1) + sumRuns rest < 4294967296 := by omega
        have c5 : v + r.1 < x := by omega
        have c6 : x ≤ (v + r.1) + sumRuns rest := by omega
        rw [ih (pre ++ encode r.1 r.2) (v + r.1) x
          (fun q hq => hpos q (by simp [hq]))
          (fun q hq => hlt q (by simp [hq]))
          (fun q hq => hval q (by simp [hq]))
          c4 c5 c6]
        have htr : truncRuns (r :: rest) (x - v) = r :: truncRuns rest (x - v - r.1) := by
          show (if r.1 = x - v then [r]
            else if x - v < r.1 then [(x - v, r.2)]
            else r :: truncRuns rest (x - v - r.1)) = _
          rw [if_neg (by omega), if_neg (by omega)]
        rw [htr]
        show pre ++ encode r.1 r.2 ++ encodeRuns (truncRuns rest (x - (v + r.1))) = _
        have h10 : x - (v + r.1) = x - v - r.1 := by omega
        rw [h10]
        simp [encodeRuns, List.append_assoc]

theorem truncRuns_head_value (a : Nat × Nat) (l : List (Nat × Nat)) (k : Nat) :
    ∃ m rest, truncRuns (a :: l) k = (m, a.2) :: rest := by
  unfold truncRuns
  by_cases h1 : a.1 = k
  · rw [if_pos h1]
    exact ⟨a.1, [], by simp⟩
  · rw [if_neg h1]
    by_cases h2 : k < a.1
    · rw [if_pos h2]
      exact ⟨k, [], rfl⟩
    · rw [if_neg h2]
      exact ⟨a.1, truncRuns l (k - a.1), by simp⟩

theorem truncRuns_props :
    ∀ (runs : List (Nat × Nat)) (k : Nat),
      (∀ r ∈ runs, 1 ≤ r.1) → (∀ r ∈ runs, r.1 < 4294967296) →
      (∀ r ∈ runs, r.2 < 4) → List.Chain' (fun a b => a.2 ≠ b.2) runs →
      1 ≤ k → k ≤ sumRuns runs →
      (∀ r ∈ truncRuns runs k, 1 ≤ r.1) ∧
      (∀ r ∈ truncRuns runs k, r.1 < 4294967296) ∧
      (∀ r ∈ truncRuns runs k, r.2 < 4) ∧
      List.Chain' (fun a b => a.2 ≠ b.2) (truncRuns runs k) ∧
      sumRuns (truncRuns runs k) = k := by
  intro runs
  induction runs with
  | nil =>
    intro k _ _ _ _ h5 h6
    simp [sumRuns] at h6
    omega
  | cons r rest ih =>
    intro k hpos hlt hval hadj h5 h6
    have hsums : sumRuns (r :: rest) = r.1 + sumRuns rest := rfl
    unfold truncRuns
    by_cases h1 : r.1 = k
    · rw [if_pos h1]
      refine ⟨?_, ?_, ?_, by simp, by simp [sumRuns]; omega⟩
      · intro w hw
        simp at hw
        rw [hw]
        exact hpos r (by simp)
      · intro w hw
        simp at hw
        rw [hw]
        exact hlt r (by simp)
      · intro w hw
        simp at hw
        rw [hw]
        exact hval r (by simp)
    · rw [if_neg h1]
      by_cases h2 : k < r.1
      · rw [if_pos h2]
        refine ⟨?_, ?_, ?_, by simp, by simp [sumRuns]⟩
        · intro w hw
          simp at hw
          rw [hw]
          simpa using h5
        · intro w hw
          simp at hw
          rw [hw]
          have := hlt r (by simp)
          simp
          omega
        · intro w hw
          simp at hw
          rw [hw]
          exact hval r (by simp)
      · rw [if_neg h2]
        obtain ⟨q1, q2, q3, q4, q5⟩ := ih (k - r.1)
          (fun q hq => hpos q (by simp [hq]))
          (fun q hq => hlt q (by simp [hq]))
          (fun q hq => hval q (by simp [hq]))
          (List.Chain'.tail hadj) (by omega) (by omega)
        refine ⟨?_, ?_, ?_, ?_, ?_⟩
        · intro q hq
          rcases List.mem_cons.mp hq with rfl | hq
          · exact hpos q (by simp)
          · exact q1 q hq
        · intro q hq
          rcases List.mem_cons.mp hq with rfl | hq
          · exact hlt q (by simp)
          · exact q2 q hq
        · intro q hq
          rcases List.mem_cons.mp hq with rfl | hq
          · exact hval q (by simp)
          · exact q3 q hq
        · rw [List.chain'_cons']
          refine ⟨?_, q4⟩
          intro y hy
          cases hrest : rest with
          | nil =>
            rw [hrest] at hy
            simp [truncRuns] at hy
          | cons a l =>
            obtain ⟨m, rest2, hm⟩ := truncRuns_head_value a l (k - r.1)
            rw [hrest, hm] at hy
            simp at hy
            rw [hrest] at hadj
            have h12 := List.chain'_cons.mp hadj
            subst hy
            simpa using h12.1
        · show r.1 + sumRuns (truncRuns rest (k - r.1)) = k
          omega

/-- `SetLength` preserves the invariants whenever the truncating case is
entered with a positive target. -/
theorem setLength_wf {s : Sequence} {runs : List (Nat × Nat)} (hwf : SeqWF s runs)
    (x : Nat) (hx : x < s.count → 1 ≤ x) : WF (s.setLength x) := by
  unfold Sequence.setLength
  by_cases hge : x ≥ s.count
  · rw [if_pos hge]
    exact ⟨runs, hwf.data_eq, hwf.pos, hwf.lt, hwf.val, hwf.adj, hwf.sum, hwf.cnt⟩
  · rw [if_neg hge]
    push_neg at hge
    have hx1 : 1 ≤ x := hx hge
    have hcnt := hwf.cnt
    have hloop := setLengthLoop_spec runs [] 0 x hwf.pos hwf.lt hwf.val
      (by rw [hwf.sum]; omega) (by omega) (by rw [hwf.sum]; omega)
    obtain ⟨q1, q2, q3, q4, q5⟩ := truncRuns_props runs x hwf.pos hwf.lt hwf.val
      hwf.adj hx1 (by rw [hwf.sum]; omega)
    refine ⟨truncRuns runs x, ?_, q1, q2, q3, q4, ?_, by show x < 4294967296; omega⟩
    · show setLengthLoop x 0 [] s.data = _
      rw [hwf.data_eq, hloop]
      simp
    · show sumRuns (truncRuns runs x) = x
      rw [q5]

/-! ## `Roll` and the trim walk -/

/-- The abstract effect of the trim walk: drop `k` leading slots. -/
def trimRuns : List (Nat × Nat) → Nat → List (Nat × Nat)
  | [], _ => []
  | r :: rest, k =>
    if r.1 = k then rest
    else if k < r.1 then (r.1 - k, r.2) :: rest
    else trimRuns rest (k - r.1)

theorem trimLoop_spec :
    ∀ (runs : List (Nat × Nat)) (v x : Nat),
      (∀ r ∈ runs, r.1 < 4294967296) → (∀ r ∈ runs, r.2 < 4) →
      v < x → x ≤ v + sumRuns runs →
      trimLoop x v (encodeRuns runs) = encodeRuns (trimRuns runs (x - v)) := by
  intro runs
  induction runs with
  | nil =>
    intro v x _ _ h5 h6
    simp [sumRuns] at h6
    omega
  | cons r rest ih =>
    intro v x hlt hval h5 h6
    obtain ⟨b0, brest, hsplit, hp1, hp2, hp3⟩ :=
      parse_head_encode r.1 r.2 (hlt r (by simp)) (hval r (by simp))
        (encodeRuns rest)
    have hruns : encodeRuns (r :: rest) = b0 :: brest := hsplit
    have hsums : sumRuns (r :: rest) = r.1 + sumRuns rest := rfl
    rw [hruns, trimLoop.eq_def]
    show (let q := parseLoop (b0 % 128 / 4) 5 b0 brest
      let count := q.1
      let value := b0 % 4
      let v2 := v + count
      if v2 = x then brest.drop q.2
      else if x < v2 then encode (v2 - x) value ++ brest.drop q.2
      else trimLoop x v2 (brest.drop q.2)) = encodeRuns (trimRuns (r :: rest) (x - v))
    simp only [hp1, hp3]
    have hdrop : brest.drop (parseLoop (b0 % 128 / 4) 5 b0 brest).2 =
        encodeRuns rest := by
      have h9 : (b0 :: brest).drop ((parseLoop (b0 % 128 / 4) 5 b0 brest).2 + 1) =
          brest.drop (parseLoop (b0 % 128 / 4) 5 b0 brest).2 := rfl
      rw [← h9, hp2, ← hruns]
      show (encode r.1 r.2 ++ encodeRuns rest).drop (encode r.1 r.2).length = _
      exact List.drop_left _ _
    by_cases hc1 : v + r.1 = x
    · rw [if_pos hc1, hdrop]
      have htr : trimRuns (r :: rest) (x - v) = rest := by
        show (if r.1 = x - v then rest
          else if x - v < r.1 then (r.1 - (x - v), r.2) :: rest
          else trimRuns rest (x - v - r.1)) = _
        rw [if_pos (by omega)]
      rw [htr]
    · rw [if_neg hc1]
      by_cases hc2 : x < v + r.1
      · rw [if_pos hc2, hdrop]
        have htr : trimRuns (r :: rest) (x - v) = (r.1 - (x - v), r.2) :: rest := by
          show (if r.1 = x - v then rest
            else if x - v < r.1 then (r.1 - (x - v), r.2) :: rest
            else trimRuns rest (x - v - r.1)) = _
          rw [if_neg (by omega), if_pos (by omega)]
        rw [htr]
        show encode (v + r.1 - x) r.2 ++ encodeRuns rest = _
        have h11 : v + r.1 - x = r.1 - (x - v) := by omega
        rw [h11]
        rfl
      · rw [if_neg hc2, hdrop]
        rw [ih (v + r.1) x (fun q hq => hlt q (by simp [hq]))
          (fun q hq => hval q (by simp [hq])) (by omega) (by omega)]
        have htr : trimRuns (r :: rest) (x - v) = trimRuns rest (x - v - r.1) := by
          show (if r.1 = x - v then rest
            else if x - v < r.1 then (r.1 - (x - v), r.2) :: rest
            else trimRuns rest (x - v - r.1)) = _
          rw [if_neg (by omega), if_neg (by omega)]
        rw [htr]
        have h11 : x - (v + r.1) = x - v - r.1 := by omega
        rw [h11]

theorem trimRuns_props :
    ∀ (runs : List (Nat × Nat)) (k : Nat),
      (∀ r ∈ runs, 1 ≤ r.1) → (∀ r ∈ runs, r.1 < 4294967296) →
      (∀ r ∈ runs, r.2 < 4) → List.Chain' (fun a b => a.2 ≠ b.2) runs →
      k ≤ sumRuns runs →
      (∀ r ∈ trimRuns runs k, 1 ≤ r.1) ∧
      (∀ r ∈ trimRuns runs k, r.1 < 4294967296) ∧
      (∀ r ∈ trimRuns runs k, r.2 < 4) ∧
      List.Chain' (fun a b => a.2 ≠ b.2) (trimRuns runs k) ∧
      sumRuns (trimRuns runs k) = sumRuns runs - k := by
  intro runs
  induction runs with
  | nil =>
    intro k _ _ _ _ _
    exact ⟨by simp [trimRuns], by simp [trimRuns], by simp [trimRuns],
      by simp [trimRuns], by show (0 : Nat) = 0 - k; omega⟩
  | cons r rest ih =>
    intro k hpos hlt hval hadj h6
    have hsums : sumRuns (r :: rest) = r.1 + sumRuns rest := rfl
    have hunf : trimRuns (r :: rest) k =
        (if r.1 = k then rest
         else if k < r.1 then (r.1 - k, r.2) :: rest
         else trimRuns rest (k - r.1)) := rfl
    by_cases h1 : r.1 = k
    · rw [hunf, if_pos h1]
      refine ⟨fun q hq => hpos q (by simp [hq]), fun q hq => hlt q (by simp [hq]),
        fun q hq => hval q (by simp [hq]), List.Chain'.tail hadj, by omega⟩
    · rw [hunf, if_neg h1]
      by_cases h2 : k < r.1
      · rw [if_pos h2]
        refine ⟨?_, ?_, ?_, ?_, ?_⟩
        · intro q hq
          rcases List.mem_cons.mp hq with rfl | hq
          · simp
            omega
          · exact hpos q (by simp [hq])
        · intro q hq
          rcases List.mem_cons.mp hq with rfl | hq
          · have := hlt r (by simp)
            simp
            omega
          · exact hlt q (by simp [hq])
        · intro q hq
          rcases List.mem_cons.mp hq with rfl | hq
          · exact hval r (by simp)
          · exact hval q (by simp [hq])
        · rw [List.chain'_cons']
          refine ⟨?_, List.Chain'.tail hadj⟩
          intro y hy
          have h12 := List.chain'_cons'.mp hadj
          exact h12.1 y hy
        · show r.1 - k + sumRuns rest = sumRuns (r :: rest) - k
          omega
      · rw [if_neg h2]
        obtain ⟨q1, q2, q3, q4, q5⟩ := ih (k - r.1)
          (fun q hq => hpos q (by simp [hq]))
          (fun q hq => hlt q (by simp [hq]))
          (fun q hq => hval q (by simp [hq]))
          (List.Chain'.tail hadj) (by omega)
        refine ⟨q1, q2, q3, q4, by omega⟩

/-- `fillTo` on a well-formed state with room left. -/
theorem fillTo_wf {s : Sequence} {runs : List (Nat × Nat)} (hwf : SeqWF s runs)
    (offset : Int) (x : Nat) (hgt : (s.count : Int) < offset)
    (hle : offset ≤ 4294967295) :
    ∃ s2, s.fillTo offset x = some s2 ∧ WF s2 ∧ (s2.count : Int) = offset ∧
      s2.ts = s.ts ∧ s2.frequency = s.frequency ∧ s2.length = s.length := by
  by_cases hgap : 1 < offset - (s.count : Int)
  · obtain ⟨s1, e1, e2, e3, e4, e5, e6⟩ := addSeries_wf hwf
      ((offset - (s.count : Int)).toNat - 1) StateUnknown (by omega) (by omega)
    obtain ⟨s2x, f1, f2, f3, f4, f5, f6⟩ := addSeries_wf e2 1 x (by omega)
      (by omega)
    refine ⟨s2x, ?_, ⟨_, f2⟩, by omega, by omega, by rw [f5, e5], by rw [f6, e6]⟩
    show (match (if 1 < offset - (s.count : Int) then
        s.addSeries ((offset - (s.count : Int)).toNat - 1) StateUnknown
      else some s) with
      | none => none
      | some s1 => s1.addSeries 1 x) = some s2x
    rw [if_pos hgap, e1]
    exact f1
  · obtain ⟨s2x, f1, f2, f3, f4, f5, f6⟩ := addSeries_wf hwf 1 x (by omega)
      (by have := hwf.cnt; omega)
    refine ⟨s2x, ?_, ⟨_, f2⟩, by omega, f4, f5, f6⟩
    show (match (if 1 < offset - (s.count : Int) then
        s.addSeries ((offset - (s.count : Int)).toNat - 1) StateUnknown
      else some s) with
      | none => none
      | some s1 => s1.addSeries 1 x) = some s2x
    rw [if_neg hgap]
    exact f1


/-- Unfolding `roll` to a let-free form. -/
theorem roll_eq (s : Sequence) (t : Int) (x : Nat) :
    s.roll t x =
      (if s.frequency = 0 then .panic
      else if godiv (t - s.ts) s.frequency + 1 < 1 then .err "out of bounds"
      else if godiv (t - s.ts) s.frequency + 1 ≤ (s.count : Int) then
        .err "cannot overwrite value"
      else if godiv (t - s.ts) s.frequency + 1 ≤ (s.length : Int) then
        match s.fillTo (godiv (t - s.ts) s.frequency + 1) x with
        | none => .panic
        | some s2 => .ok s2
      else if (s.count : Int) ≤
          godiv (t - s.ts) s.frequency + 1 - (s.length : Int) then
        .ok { s with
          ts := s.ts + (godiv (t - s.ts) s.frequency + 1 - (s.length : Int)) *
            (s.frequency : Int),
          count := s.length,
          data := encode (s.length - 1) StateUnknown ++ encode 1 (x % 4) }
      else if godiv (t - s.ts) s.frequency + 1 - (s.count : Int) = 1 ∧
          s.data.length = 1 ∧ s.data.getD 0 0 % 4 = x % 4 then
        .ok { s with ts := s.ts + (s.frequency : Int) }
      else
        match ({ s with
            ts := s.ts + (godiv (t - s.ts) s.frequency + 1 - (s.length : Int)) *
              (s.frequency : Int),
            count := s.count -
              (godiv (t - s.ts) s.frequency + 1 - (s.length : Int)).toNat,
            data := trimLoop
              ((godiv (t - s.ts) s.frequency + 1 - (s.length : Int)).toNat)
              0 s.data : Sequence }).fillTo (s.length : Int) x with
        | none => .panic
        | some s2 => .ok s2) := rfl

/-- `Roll` preserves the invariants whenever it succeeds on a state
whose count fits the window and whose value is not the unknown state. -/
theorem roll_wf {s : Sequence} {runs : List (Nat × Nat)} (hwf : SeqWF s runs)
    (hlen : s.length ≤ MaxSequenceLength) (hlen2 : 2 ≤ s.length)
    (hcl : s.count ≤ s.length) {t : Int} {x : Nat} (hxv : x % 4 ≠ StateUnknown)
    {s2 : Sequence} (h : s.roll t x = .ok s2) : WF s2 := by
  have hmax : (MaxSequenceLength : Nat) = 4294967295 := rfl
  have hlenI : ((s.length : Nat) : Int) ≤ 4294967295 := by
    exact_mod_cast hmax ▸ hlen
  rw [roll_eq] at h
  by_cases hf0 : s.frequency = 0
  · rw [if_pos hf0] at h
    cases h
  rw [if_neg hf0] at h
  by_cases h1 : godiv (t - s.ts) s.frequency + 1 < 1
  · rw [if_pos h1] at h
    cases h
  rw [if_neg h1] at h
  push_neg at h1
  by_cases h2 : godiv (t - s.ts) s.frequency + 1 ≤ (s.count : Int)
  · rw [if_pos h2] at h
    cases h
  rw [if_neg h2] at h
  push_neg at h2
  by_cases h3 : godiv (t - s.ts) s.frequency + 1 ≤ (s.length : Int)
  · rw [if_pos h3] at h
    obtain ⟨s2x, e1, e2, _⟩ := fillTo_wf hwf (godiv (t - s.ts) s.frequency + 1) x
      h2 (by omega)
    have h5 : (match s.fillTo (godiv (t - s.ts) s.frequency + 1) x with
      | none => Res.panic
      | some s3 => Res.ok s3) = Res.ok s2 := h
    rw [e1] at h5
    have h6 : Res.ok s2x = Res.ok s2 := h5
    cases h6
    exact e2
  rw [if_neg h3] at h
  push_neg at h3
  by_cases h4 : (s.count : Int) ≤ godiv (t - s.ts) s.frequency + 1 - (s.length : Int)
  · rw [if_pos h4] at h
    have h6 : Res.ok _ = Res.ok s2 := h
    cases h6
    refine ⟨[(s.length - 1, StateUnknown), (1, x % 4)], ?_, ?_, ?_, ?_, ?_, ?_, ?_⟩
    · show encode (s.length - 1) StateUnknown ++ encode 1 (x % 4) =
        encode (s.length - 1) StateUnknown ++ (encode 1 (x % 4) ++ [])
      simp
    · intro q hq
      rcases List.mem_cons.mp hq with rfl | hq
      · show 1 ≤ s.length - 1
        omega
      rcases List.mem_cons.mp hq with rfl | hq
      · show 1 ≤ 1
        omega
      cases hq
    · intro q hq
      rcases List.mem_cons.mp hq with rfl | hq
      · show s.length - 1 < 4294967296
        omega
      rcases List.mem_cons.mp hq with rfl | hq
      · show (1 : Nat) < 4294967296
        omega
      cases hq
    · intro q hq
      rcases List.mem_cons.mp hq with rfl | hq
      · show (2 : Nat) < 4
        omega
      rcases List.mem_cons.mp hq with rfl | hq
      · exact Nat.mod_lt _ (by norm_num)
      cases hq
    · refine List.chain'_cons.mpr ⟨?_, List.chain'_singleton _⟩
      show StateUnknown ≠ x % 4
      exact fun he => hxv he.symm
    · show s.length - 1 + (1 + 0) = s.length
      omega
    · show s.length < 4294967296
      omega
  rw [if_neg h4] at h
  push_neg at h4
  by_cases h5 : godiv (t - s.ts) s.frequency + 1 - (s.count : Int) = 1 ∧
      s.data.length = 1 ∧ s.data.getD 0 0 % 4 = x % 4
  · rw [if_pos h5] at h
    have h6 : Res.ok _ = Res.ok s2 := h
    cases h6
    exact ⟨runs, hwf.data_eq, hwf.pos, hwf.lt, hwf.val, hwf.adj, hwf.sum, hwf.cnt⟩
  rw [if_neg h5] at h
  have hcnt := hwf.cnt
  have hoverI : 1 ≤ godiv (t - s.ts) s.frequency + 1 - (s.length : Int) := by omega
  have hover1 : 1 ≤ (godiv (t - s.ts) s.frequency + 1 - (s.length : Int)).toNat := by
    omega
  have hover2 : (godiv (t - s.ts) s.frequency + 1 - (s.length : Int)).toNat <
      s.count := by omega
  obtain ⟨p1, p2, p3, p4, p5⟩ := trimRuns_props runs
    ((godiv (t - s.ts) s.frequency + 1 - (s.length : Int)).toNat)
    hwf.pos hwf.lt hwf.val hwf.adj (by rw [hwf.sum]; omega)
  have hloop := trimLoop_spec runs 0
    ((godiv (t - s.ts) s.frequency + 1 - (s.length : Int)).toNat)
    hwf.lt hwf.val (by omega) (by rw [hwf.sum]; omega)
  have hwf1 : SeqWF { s with
      ts := s.ts + (godiv (t - s.ts) s.frequency + 1 - (s.length : Int)) *
        (s.frequency : Int),
      count := s.count -
        (godiv (t - s.ts) s.frequency + 1 - (s.length : Int)).toNat,
      data := trimLoop
        ((godiv (t - s.ts) s.frequency + 1 - (s.length : Int)).toNat)
        0 s.data }
      (trimRuns runs
        ((godiv (t - s.ts) s.frequency + 1 - (s.length : Int)).toNat)) := by
    refine ⟨?_, p1, p2, p3, p4, ?_, ?_⟩
    · show trimLoop ((godiv (t - s.ts) s.frequency + 1 - (s.length : Int)).toNat)
        0 s.data = _
      rw [hwf.data_eq, hloop]
      simp
    · show sumRuns _ = s.count -
        (godiv (t - s.ts) s.frequency + 1 - (s.length : Int)).toNat
      rw [p5, hwf.sum]
    · show s.count - (godiv (t - s.ts) s.frequency + 1 - (s.length : Int)).toNat <
        4294967296
      omega
  obtain ⟨s2x, e1, e2, _⟩ := fillTo_wf hwf1 (s.length : Int) x
    (by show ((s.count - (godiv (t - s.ts) s.frequency + 1 -
        (s.length : Int)).toNat : Nat) : Int) < (s.length : Int)
        omega)
    (by omega)
  rw [e1] at h
  have h6 : Res.ok s2x = Res.ok s2 := h
  cases h6
  exact e2



/-- Inverting one record of an encoded run list: the head byte parses
back to the leading run. -/
theorem encodeRuns_head_inv {runs : List (Nat × Nat)} {b0 : Nat}
    {brest : List Nat}
    (hlt : ∀ r ∈ runs, r.1 < 4294967296) (hval : ∀ r ∈ runs, r.2 < 4)
    (h : encodeRuns runs = b0 :: brest) :
    ∃ r rest, runs = r :: rest ∧
      r.1 = (parseLoop (b0 % 128 / 4) 5 b0 brest).1 ∧ r.2 = b0 % 4 ∧
      encodeRuns rest = brest.drop (parseLoop (b0 % 128 / 4) 5 b0 brest).2 := by
  cases runs with
  | nil => cases h
  | cons r rest =>
    obtain ⟨b0x, brestx, hsplit, hp1, hp2, hp3⟩ :=
      parse_head_encode r.1 r.2 (hlt r (by simp)) (hval r (by simp))
        (encodeRuns rest)
    have h2 : b0x :: brestx = b0 :: brest := hsplit.symm.trans h
    injection h2 with h3 h4
    rw [h3, h4] at hp1
    rw [h3, h4] at hp2
    rw [h3] at hp3
    refine ⟨r, rest, rfl, hp1.symm, hp3.symm, ?_⟩
    have h9 : (b0 :: brest).drop ((parseLoop (b0 % 128 / 4) 5 b0 brest).2 + 1) =
        brest.drop (parseLoop (b0 % 128 / 4) 5 b0 brest).2 := rfl
    rw [← h9, hp2, ← h]
    show encodeRuns rest =
      (encode r.1 r.2 ++ encodeRuns rest).drop (encode r.1 r.2).length
    rw [List.drop_left]

/-- C2 counterexample, one failure for each dropped case of the
original claim. `SetLength 0` on a one-slot sequence emits the
zero-length record `encode 0 1 = [1]` while setting `count := 0`;
`Roll` with the unknown value hits the full-reset path and writes two
adjacent unknown-value records `[38, 6]`; a full reset on a one-slot
window writes the zero-length record `encode 0 unknown` first,
`[2, 5]`. None of the three results admits a well-formed run list. -/
theorem run_list_counterexample :
    (¬ WF ((Sequence.mk 0 60 10 1 [5]).setLength 0)) ∧
    ((Sequence.mk 0 60 10 3 [13]).roll 720 2 =
        .ok (Sequence.mk 180 60 10 10 [38, 6]) ∧
      ¬ WF (Sequence.mk 180 60 10 10 [38, 6])) ∧
    ((Sequence.mk 0 60 1 1 [5]).roll 120 1 =
        .ok (Sequence.mk 120 60 1 1 [2, 5]) ∧
      ¬ WF (Sequence.mk 120 60 1 1 [2, 5])) := by
  refine ⟨?_, ⟨?_, ?_⟩, ⟨?_, ?_⟩⟩
  · have hd : ((Sequence.mk 0 60 10 1 [5]).setLength 0).data = [1] := by
      show setLengthLoop 0 0 [] [5] = [1]
      rw [setLengthLoop.eq_def]
      show [] ++ encode ((1 + 4294967296 - (1 - 0) % 4294967296) % 4294967296) 1 = [1]
      rw [encode_of_lt (by norm_num) 1 (by norm_num)]
      norm_num
    intro hWF
    obtain ⟨runs, hwf⟩ := hWF
    have h0 : sumRuns runs = 0 := by
      rw [hwf.sum]
      rfl
    have hnil := sumRuns_eq_zero hwf.pos h0
    subst hnil
    have hde := hwf.data_eq
    rw [hd] at hde
    simp [encodeRuns] at hde
  · rw [roll_eq, if_neg (by decide), if_neg (by decide), if_neg (by decide),
      if_neg (by decide), if_pos (by decide)]
    rw [encode_of_lt (by norm_num) StateUnknown (by decide),
      encode_of_lt (by norm_num) (2 % 4) (by norm_num)]
    rfl
  · intro hWF
    obtain ⟨runs, hwf⟩ := hWF
    obtain ⟨r1, rest1, hr1, hv1, hw1, hrest1⟩ :=
      encodeRuns_head_inv hwf.lt hwf.val hwf.data_eq.symm
    obtain ⟨r2, rest2, hr2, hv2, hw2, _⟩ :=
      encodeRuns_head_inv
        (fun q hq => hwf.lt q (by rw [hr1]; simp [hq]))
        (fun q hq => hwf.val q (by rw [hr1]; simp [hq])) hrest1
    have hadj := hwf.adj
    rw [hr1, hr2] at hadj
    have hne := (List.chain'_cons.mp hadj).1
    rw [hw1, hw2] at hne
    exact hne (by decide)
  · rw [roll_eq, if_neg (by decide), if_neg (by decide), if_neg (by decide),
      if_neg (by decide), if_pos (by decide)]
    rw [encode_of_lt (by norm_num) StateUnknown (by decide),
      encode_of_lt (by norm_num) (1 % 4) (by norm_num)]
    rfl
  · intro hWF
    obtain ⟨runs, hwf⟩ := hWF
    obtain ⟨r1, rest1, hr1, hv1, _, _⟩ :=
      encodeRuns_head_inv hwf.lt hwf.val hwf.data_eq.symm
    have hp := hwf.pos r1 (by rw [hr1]; simp)
    have hz : (parseLoop (2 % 128 / 4) 5 2 [5]).1 = 0 := rfl
    rw [hv1, hz] at hp
    omega

/-- **C2.** After every public construction or mutation of a `Sequence`
(`New`, `NewWithValues`, `Add`, `Roll` with a value other than the
unknown state on a window of at least two slots, and `SetLength`
restricted to a positive truncation target), the run-list invariants
hold: every record encodes a run of length at least 1 with a value
below 4, run lengths sum to `count`, and no two adjacent records share
a value (all packaged in `WF`). The excluded cases genuinely fail (see
the counterexample): `SetLength 0` emits a zero-length record, `Roll`
with the unknown value writes two adjacent unknown records on the
full-reset path, and a full reset on a one-slot window starts with a
zero-length record. -/
theorem run_list_invariants (t : Int) (f : Nat) (values : List Nat) :
    WF (newSequence t f) ∧
    (∀ s2, newSequenceFromValues t f values = some s2 → WF s2) ∧
    (∀ (s : Sequence) (t2 : Int) (x : Nat) (s2 : Sequence),
      WF s → s.length ≤ MaxSequenceLength →
      s.add t2 x = .ok s2 → WF s2) ∧
    (∀ (s : Sequence) (t2 : Int) (x : Nat) (s2 : Sequence),
      WF s → s.length ≤ MaxSequenceLength → 2 ≤ s.length →
      s.count ≤ s.length → x % 4 ≠ StateUnknown →
      s.roll t2 x = .ok s2 → WF s2) ∧
    (∀ (s : Sequence) (x : Nat),
      WF s → (x < s.count → 1 ≤ x) → WF (s.setLength x)) := by
  refine ⟨⟨[], newSequence_wf t f⟩, ?_, ?_, ?_, ?_⟩
  · intro s2 h
    obtain ⟨s2x, h1, h2⟩ := newSequenceFromValues_wf t f values
    rw [h1] at h
    cases h
    exact h2
  · intro s t2 x s2 hs hlen h
    obtain ⟨runs, hwf⟩ := hs
    exact add_wf hwf hlen h
  · intro s t2 x s2 hs hlen hlen2 hcl hxv h
    obtain ⟨runs, hwf⟩ := hs
    exact roll_wf hwf hlen hlen2 hcl hxv h
  · intro s x hs hx
    obtain ⟨runs, hwf⟩ := hs
    exact setLength_wf hwf x hx

/-- Witness for C2: the new-sequence conjunct feeds the `SetLength`
conjunct at the concrete state `newSequence 0 60` and target `5`. -/
theorem run_list_invariants_witness :
    WF ((newSequence 0 60).setLength 5) :=
  (run_list_invariants 0 60 []).2.2.2.2 (newSequence 0 60) 5
    (run_list_invariants 0 60 []).1
    (fun _ => by norm_num)



/-- **C7.** Modelled from the spec (`Roll` is absent from the provided
sources): whenever the computed offset satisfies
`offset - length >= count` (with at least one slot recorded and a
window of at least one slot, so the earlier guards pass), `Roll`
succeeds via the full-reset fast path: `data` becomes exactly the two
records `encode (length - 1) unknown ++ encode 1 v`, `count` becomes
`length`, and `ts` advances by `(offset - length) * frequency`. -/
theorem roll_full_reset (s : Sequence) (t : Int) (x : Nat)
    (hf : 1 ≤ s.frequency) (hc1 : 1 ≤ s.count) (hl1 : 1 ≤ s.length)
    (hx : x < 4)
    (hge : (s.count : Int) ≤ godiv (t - s.ts) s.frequency + 1 - (s.length : Int)) :
    s.roll t x = .ok { s with
      ts := s.ts +
        (godiv (t - s.ts) s.frequency + 1 - (s.length : Int)) * (s.frequency : Int),
      count := s.length,
      data := encode (s.length - 1) StateUnknown ++ encode 1 x } := by
  have hcI : (1 : Int) ≤ (s.count : Int) := by exact_mod_cast hc1
  have hlI : (1 : Int) ≤ (s.length : Int) := by exact_mod_cast hl1
  have hxm : x % 4 = x := Nat.mod_eq_of_lt hx
  rw [roll_eq, if_neg (by omega), if_neg (by omega), if_neg (by omega),
    if_neg (by omega), if_pos hge, hxm]

/-- Witness for C7 at the roll-test state: three recorded slots, window
10, rolling 12 frequencies ahead (offset 13, overflow 3 at or above
`count = 3`). -/
theorem roll_full_reset_witness :
    (Sequence.mk 0 60 10 3 [13]).roll 720 1 =
      .ok (Sequence.mk 180 60 10 10 [38, 5]) := by
  rw [roll_full_reset (Sequence.mk 0 60 10 3 [13]) 720 1 (by norm_num)
    (by norm_num) (by norm_num) (by norm_num) (by decide)]
  rw [encode_of_lt (by norm_num) StateUnknown (by decide),
    encode_of_lt (by norm_num) 1 (by norm_num)]
  rfl




/-- `valuesLoop` on an exhausted buffer returns the accumulator. -/
theorem valuesLoop_nil (x y : Int) (total : Nat) (srcIndex : Int) (acc : List Nat) :
    valuesLoop x y total [] srcIndex acc = some acc := by
  rw [valuesLoop.eq_def]

/-- **C10.** For every empty sequence (`count = 0`, empty `data`) and
every `start <= stop` whose interval intersects the sequence's covered
interval, `Values` succeeds and returns a slice of length `y - x + 1`
filled entirely with the unknown value `2`, with timestamp
`ts + x * frequency`, where `x` and `y` are the clipped slot indices of
the intersection. -/
theorem empty_values (s : Sequence) (start stop : Int)
    (hcnt : s.count = 0) (hdata : s.data = [])
    (hf : 1 ≤ s.frequency) (hss : start ≤ stop)
    {r : Interval} (hr : s.interval.intersect ⟨start, stop⟩ = some r) :
    s.values start stop =
      .ok (List.replicate
          (godiv (r.stop - s.ts) s.frequency -
            godiv (ceilInt64 (r.start - s.ts) s.frequency) s.frequency + 1).toNat
          StateUnknown,
        s.ts + godiv (ceilInt64 (r.start - s.ts) s.frequency) s.frequency *
          (s.frequency : Int)) := by
  unfold Sequence.values
  rw [if_neg (by omega), hr, hdata]
  have hf0 : s.frequency ≠ 0 := by omega
  simp [hf0, valuesLoop_nil]

/-- Witness for C10: window of ten minute slots starting at `0`,
queried on `[30, 150]`; the intersection clips to slots `1` and `2`. -/
theorem empty_values_witness :
    (Sequence.mk 0 60 10 0 []).values 30 150 = .ok ([2, 2], 60) := by
  rw [empty_values (Sequence.mk 0 60 10 0 []) 30 150 rfl rfl (by norm_num)
    (by norm_num) (by rfl)]
  rfl



/-! ## Dense expansion: `All` and `Values` agree on the populated range -/

/-- The dense expansion of a run list: each run spelled out slot by
slot. -/
def denseOf : List (Nat × Nat) → List Nat
  | [] => []
  | r :: rest => List.replicate r.1 r.2 ++ denseOf rest

theorem denseOf_length :
    ∀ runs : List (Nat × Nat), (denseOf runs).length = sumRuns runs := by
  intro runs
  induction runs with
  | nil => rfl
  | cons r rest ih =>
    show (List.replicate r.1 r.2 ++ denseOf rest).length = r.1 + sumRuns rest
    simp [ih]

/-- Slicing inside the leading replicate block. -/
theorem seg_replicate (n : Nat) (v : Nat) (k T : Nat) (hT : T ≤ n - k)
    (B : List Nat) :
    ((List.replicate n v ++ B).drop k).take T = List.replicate T v := by
  rw [List.drop_append_eq_append_drop, List.drop_replicate,
    List.take_append_eq_append_take, List.take_replicate]
  have h1 : min T (n - k) = T := by omega
  have h2 : T - (List.replicate (n - k) v).length = 0 := by
    simp
    omega
  rw [h1, h2]
  cases hkb : k - (List.replicate n v).length with
  | zero => simp
  | succ j =>
    have : n ≤ k := by
      simp at hkb
      omega
    have hnk : n - k = 0 := by omega
    simp [hnk] at hT
    simp [hT, hnk]

/-- Slicing that consumes the whole leading replicate block. -/
theorem seg_cons (n : Nat) (v : Nat) (k T : Nat) (hk : k ≤ n)
    (hT : n - k ≤ T) (B : List Nat) :
    ((List.replicate n v ++ B).drop k).take T =
      List.replicate (n - k) v ++ B.take (T - (n - k)) := by
  rw [List.drop_append_eq_append_drop, List.drop_replicate,
    List.take_append_eq_append_take, List.take_replicate]
  have h1 : min T (n - k) = n - k := by omega
  have h2 : k - (List.replicate n v).length = 0 := by
    simp
    omega
  rw [h1, h2]
  simp

/-- Dropping past the leading replicate block. -/
theorem seg_skip (n : Nat) (v : Nat) (k : Nat) (hk : n ≤ k) (B : List Nat) :
    (List.replicate n v ++ B).drop k = B.drop (k - n) := by
  rw [List.drop_append_eq_append_drop, List.drop_replicate]
  have h1 : n - k = 0 := by omega
  simp [h1]

/-- `allLoop` on an exhausted buffer returns the array. -/
theorem allLoop_nil (arr : List Nat) (index : Nat) :
    allLoop arr index [] = some arr := by
  rw [allLoop.eq_def]

/-- The `All` walk materialises the dense expansion: with the array
split as written prefix plus zero-filled remainder, the walk overwrites
the remainder with the dense expansion of the remaining runs. -/
theorem allLoop_spec :
    ∀ (runs : List (Nat × Nat)) (pre : List Nat),
      (∀ r ∈ runs, 1 ≤ r.1) → (∀ r ∈ runs, r.1 < 4294967296) →
      (∀ r ∈ runs, r.2 < 4) →
      allLoop (pre ++ List.replicate (sumRuns runs) 0) pre.length
          (encodeRuns runs) =
        some (pre ++ denseOf runs) := by
  intro runs
  induction runs with
  | nil =>
    intro pre _ _ _
    show allLoop (pre ++ List.replicate 0 0) pre.length [] = some (pre ++ [])
    rw [allLoop_nil]
    simp
  | cons r rest ih =>
    intro pre hpos hlt hval
    obtain ⟨b0, brest, hsplit, hp1, hp2, hp3⟩ :=
      parse_head_encode r.1 r.2 (hlt r (by simp)) (hval r (by simp))
        (encodeRuns rest)
    have hruns : encodeRuns (r :: rest) = b0 :: brest := hsplit
    rw [hruns, allLoop.eq_def]
    show (let q := parseLoop (b0 % 128 / 4) 5 b0 brest
      let count := q.1
      let value := b0 % 4
      if value = 0 then
        allLoop (pre ++ List.replicate (sumRuns (r :: rest)) 0)
          (pre.length + count) (brest.drop q.2)
      else
        match writeRange (pre ++ List.replicate (sumRuns (r :: rest)) 0)
            pre.length count value with
        | none => none
        | some arr2 => allLoop arr2 (pre.length + count) (brest.drop q.2)) =
      some (pre ++ denseOf (r :: rest))
    simp only [hp1, hp3]
    have hdrop : brest.drop (parseLoop (b0 % 128 / 4) 5 b0 brest).2 =
        encodeRuns rest := by
      have h9 : (b0 :: brest).drop ((parseLoop (b0 % 128 / 4) 5 b0 brest).2 + 1) =
          brest.drop (parseLoop (b0 % 128 / 4) 5 b0 brest).2 := rfl
      rw [← h9, hp2, ← hruns]
      show (encode r.1 r.2 ++ encodeRuns rest).drop (encode r.1 r.2).length = _
      exact List.drop_left _ _
    rw [hdrop]
    have harr : pre ++ List.replicate (sumRuns (r :: rest)) 0 =
        (pre ++ List.replicate r.1 0) ++ List.replicate (sumRuns rest) 0 := by
      show pre ++ List.replicate (r.1 + sumRuns rest) 0 = _
      rw [List.replicate_add, List.append_assoc]
    have hdense : pre ++ denseOf (r :: rest) =
        (pre ++ List.replicate r.1 r.2) ++ denseOf rest := by
      show pre ++ (List.replicate r.1 r.2 ++ denseOf rest) = _
      rw [List.append_assoc]
    by_cases hv0 : r.2 = 0
    · rw [if_pos hv0, harr, hdense, hv0]
      have hidx : pre.length + r.1 = (pre ++ List.replicate r.1 0).length := by
        simp
      rw [hidx]
      exact ih (pre ++ List.replicate r.1 0) (fun q hq => hpos q (by simp [hq]))
        (fun q hq => hlt q (by simp [hq])) (fun q hq => hval q (by simp [hq]))
    · rw [if_neg hv0]
      have hn1 : 1 ≤ r.1 := hpos r (by simp)
      have hwr : writeRange (pre ++ List.replicate (sumRuns (r :: rest)) 0)
          pre.length r.1 r.2 =
          some ((pre ++ List.replicate r.1 r.2) ++ List.replicate (sumRuns rest) 0) := by
        unfold writeRange
        rw [if_neg (by omega), if_pos (by
          show pre.length + r.1 ≤ (pre ++ List.replicate (sumRuns (r :: rest)) 0).length
          have hsums : sumRuns (r :: rest) = r.1 + sumRuns rest := rfl
          simp only [List.length_append, List.length_replicate, hsums]
          omega)]
        rw [harr]
        have ht : ((pre ++ List.replicate r.1 0) ++
            List.replicate (sumRuns rest) 0).take pre.length = pre := by
          rw [List.append_assoc]
          rw [List.take_append_eq_append_take]
          simp
        have hd : ((pre ++ List.replicate r.1 0) ++
            List.replicate (sumRuns rest) 0).drop (pre.length + r.1) =
            List.replicate (sumRuns rest) 0 := by
          have hl : (pre ++ List.replicate r.1 0).length = pre.length + r.1 := by
            simp
          rw [← hl]
          exact List.drop_left _ _
        rw [ht, hd, List.append_assoc]
      rw [hwr]
      have hidx : pre.length + r.1 = (pre ++ List.replicate r.1 r.2).length := by
        simp
      rw [hdense, hidx]
      exact ih (pre ++ List.replicate r.1 r.2) (fun q hq => hpos q (by simp [hq]))
        (fun q hq => hlt q (by simp [hq])) (fun q hq => hval q (by simp [hq]))

/-- `All` on a well-formed state returns the dense expansion. -/
theorem all_spec {s : Sequence} {runs : List (Nat × Nat)} (hwf : SeqWF s runs) :
    s.all = some (denseOf runs) := by
  unfold Sequence.all
  rw [hwf.data_eq, ← hwf.sum]
  have h := allLoop_spec runs [] hwf.pos hwf.lt hwf.val
  simpa using h



/-- The `Values` walk under the run-list invariants: starting at
`srcIndex` with the slots `x .. srcIndex - 1` already accumulated, the
walk returns the accumulator extended with the dense slots up to `y`. -/
theorem valuesLoop_spec :
    ∀ (runs : List (Nat × Nat)) (x y srcIndex : Int) (total : Nat)
      (acc : List Nat),
      (∀ r ∈ runs, 1 ≤ r.1) → (∀ r ∈ runs, r.1 < 4294967296) →
      (∀ r ∈ runs, r.2 < 4) →
      0 ≤ srcIndex → 0 ≤ x → x ≤ y → srcIndex ≤ y →
      y < srcIndex + sumRuns runs →
      (acc.length : Int) = max 0 (srcIndex - x) →
      (y - x + 1).toNat ≤ total →
      valuesLoop x y total (encodeRuns runs) srcIndex acc =
        some (acc ++ ((denseOf runs).drop (x - srcIndex).toNat).take
          (y + 1 - max x srcIndex).toNat) := by
  intro runs
  induction runs with
  | nil =>
    intro x y si total acc _ _ _ _ _ _ hsy hy _ _
    have h0 : sumRuns ([] : List (Nat × Nat)) = 0 := rfl
    omega
  | cons r rest ih =>
    intro x y si total acc hpos hlt hval hsi hx0 hxy hsy hy hacc htot
    obtain ⟨b0, brest, hsplit, hp1, hp2, hp3⟩ :=
      parse_head_encode r.1 r.2 (hlt r (by simp)) (hval r (by simp))
        (encodeRuns rest)
    have hruns : encodeRuns (r :: rest) = b0 :: brest := hsplit
    have hsums : sumRuns (r :: rest) = r.1 + sumRuns rest := rfl
    have hn1 : 1 ≤ r.1 := hpos r (by simp)
    have hd1 : denseOf (r :: rest) = List.replicate r.1 r.2 ++ denseOf rest := rfl
    have hyR : y < si + (r.1 : Int) + (sumRuns rest : Int) := by
      rw [hsums] at hy
      push_cast at hy
      omega
    rw [hruns, valuesLoop.eq_def]
    show (let q := parseLoop (b0 % 128 / 4) 5 b0 brest
      let count : Int := q.1
      let v := b0 % 4
      if si + count < x then
        valuesLoop x y total (brest.drop q.2) (si + count) acc
      else
        let offset : Int := if acc.length = 0 then x - si else 0
        if y < si + count then
          let m := y - si - offset + 1
          if m ≤ 0 then some acc
          else if acc.length + m.toNat ≤ total then
            some (acc ++ List.replicate m.toNat v)
          else none
        else
          let m := count - offset
          if m ≤ 0 then
            valuesLoop x y total (brest.drop q.2) (si + count) acc
          else if acc.length + m.toNat ≤ total then
            valuesLoop x y total (brest.drop q.2) (si + count)
              (acc ++ List.replicate m.toNat v)
          else none) =
      some (acc ++ ((denseOf (r :: rest)).drop (x - si).toNat).take
        (y + 1 - max x si).toNat)
    simp only [hp1, hp3]
    have hdrop : brest.drop (parseLoop (b0 % 128 / 4) 5 b0 brest).2 =
        encodeRuns rest := by
      have h9 : (b0 :: brest).drop ((parseLoop (b0 % 128 / 4) 5 b0 brest).2 + 1) =
          brest.drop (parseLoop (b0 % 128 / 4) 5 b0 brest).2 := rfl
      rw [← h9, hp2, ← hruns]
      show (encode r.1 r.2 ++ encodeRuns rest).drop (encode r.1 r.2).length = _
      exact List.drop_left _ _
    rw [hdrop]
    by_cases hb1 : si + (r.1 : Int) < x
    · rw [if_pos hb1]
      rw [hd1, seg_skip r.1 r.2 (x - si).toNat (by omega) (denseOf rest),
        show (x - si).toNat - r.1 = (x - (si + (r.1 : Int))).toNat by omega,
        show max x si = max x (si + (r.1 : Int)) by omega]
      exact ih x y (si + (r.1 : Int)) total acc
        (fun q hq => hpos q (by simp [hq])) (fun q hq => hlt q (by simp [hq]))
        (fun q hq => hval q (by simp [hq]))
        (by omega) hx0 hxy (by omega) (by omega) (by omega) htot
    · rw [if_neg hb1]
      by_cases hsx : si ≤ x
      · have hacc0 : acc.length = 0 := by omega
        rw [if_pos hacc0]
        by_cases hb2 : y < si + (r.1 : Int)
        · rw [if_pos hb2, if_neg (show ¬ y - si - (x - si) + 1 ≤ 0 by omega),
            if_pos (show acc.length + (y - si - (x - si) + 1).toNat ≤ total by omega)]
          rw [hd1, seg_replicate r.1 r.2 (x - si).toNat
            (y + 1 - max x si).toNat (by omega) (denseOf rest)]
          rw [show (y - si - (x - si) + 1).toNat = (y + 1 - max x si).toNat by omega]
        · rw [if_neg hb2]
          by_cases hm0 : (r.1 : Int) - (x - si) ≤ 0
          · rw [if_pos hm0]
            rw [hd1, seg_skip r.1 r.2 (x - si).toNat (by omega) (denseOf rest),
              show (x - si).toNat - r.1 = (x - (si + (r.1 : Int))).toNat by omega,
              show max x si = max x (si + (r.1 : Int)) by omega]
            exact ih x y (si + (r.1 : Int)) total acc
              (fun q hq => hpos q (by simp [hq])) (fun q hq => hlt q (by simp [hq]))
              (fun q hq => hval q (by simp [hq]))
              (by omega) hx0 hxy (by omega) (by omega) (by omega) htot
          · rw [if_neg hm0,
              if_pos (show acc.length + ((r.1 : Int) - (x - si)).toNat ≤ total by omega)]
            rw [hd1, seg_cons r.1 r.2 (x - si).toNat (y + 1 - max x si).toNat
              (by omega) (by omega) (denseOf rest)]
            rw [show r.1 - (x - si).toNat = ((r.1 : Int) - (x - si)).toNat by omega,
              show (y + 1 - max x si).toNat - ((r.1 : Int) - (x - si)).toNat =
                (y + 1 - max x (si + (r.1 : Int))).toNat by omega]
            rw [← List.append_assoc]
            have hrec := ih x y (si + (r.1 : Int)) total
              (acc ++ List.replicate ((r.1 : Int) - (x - si)).toNat r.2)
              (fun q hq => hpos q (by simp [hq])) (fun q hq => hlt q (by simp [hq]))
              (fun q hq => hval q (by simp [hq]))
              (by omega) hx0 hxy (by omega) (by omega)
              (by simp
                  omega) htot
            rw [hrec]
            rw [show (x - (si + (r.1 : Int))).toNat = 0 by omega, List.drop_zero]
      · have haccne : ¬ acc.length = 0 := by omega
        rw [if_neg haccne]
        by_cases hb2 : y < si + (r.1 : Int)
        · rw [if_pos hb2, if_neg (show ¬ y - si - 0 + 1 ≤ 0 by omega),
            if_pos (show acc.length + (y - si - 0 + 1).toNat ≤ total by omega)]
          rw [hd1, show (x - si).toNat = 0 by omega,
            seg_replicate r.1 r.2 0 (y + 1 - max x si).toNat (by omega)
              (denseOf rest)]
          rw [show (y - si - 0 + 1).toNat = (y + 1 - max x si).toNat by omega]
        · rw [if_neg hb2]
          rw [if_neg (show ¬ (r.1 : Int) - 0 ≤ 0 by omega),
            if_pos (show acc.length + ((r.1 : Int) - 0).toNat ≤ total by omega)]
          rw [hd1, show (x - si).toNat = 0 by omega,
            seg_cons r.1 r.2 0 (y + 1 - max x si).toNat (by omega) (by omega)
              (denseOf rest)]
          rw [show r.1 - 0 = ((r.1 : Int) - 0).toNat by omega,
            show (y + 1 - max x si).toNat - ((r.1 : Int) - 0).toNat =
              (y + 1 - max x (si + (r.1 : Int))).toNat by omega]
          rw [← List.append_assoc]
          have hrec := ih x y (si + (r.1 : Int)) total
            (acc ++ List.replicate ((r.1 : Int) - 0).toNat r.2)
            (fun q hq => hpos q (by simp [hq])) (fun q hq => hlt q (by simp [hq]))
            (fun q hq => hval q (by simp [hq]))
            (by omega) hx0 hxy (by omega) (by omega)
            (by simp
                omega) htot
          rw [hrec]
          rw [show (x - (si + (r.1 : Int))).toNat = 0 by omega, List.drop_zero]



/-- For nonnegative operands Go's truncated division is the
mathematical floor. -/
theorem godiv_eq_ediv {d f : Int} (hd : 0 ≤ d) (hf : 0 ≤ f) :
    godiv d f = d / f :=
  Int.tdiv_eq_ediv hd hf

/-- Dividing the next multiple given by `ceilInt64` is the mathematical
ceiling `(d + f - 1) / f`. -/
theorem godiv_ceilInt64 {d f : Int} (hd : 0 ≤ d) (hf : 1 ≤ f) :
    godiv (ceilInt64 d f) f = (d + f - 1) / f := by
  have hr0 : 0 ≤ d % f := Int.emod_nonneg d (by omega)
  have hrf : d % f < f := Int.emod_lt_of_pos d (by omega)
  have hde : f * (d / f) + d % f = d := Int.ediv_add_emod d f
  have hcomm : f * (d / f) = d / f * f := mul_comm f (d / f)
  have hmod : gomod d f = d % f := Int.tmod_eq_emod hd (by omega)
  unfold ceilInt64
  rw [hmod]
  by_cases hr : d % f = 0
  · rw [if_neg (by omega)]
    rw [godiv_eq_ediv hd (show (0 : Int) ≤ f by omega)]
    have h1 : d + f - 1 = (f - 1) + (d / f) * f := by omega
    rw [h1, Int.add_mul_ediv_right _ _ (show f ≠ 0 by omega)]
    have h2 : (f - 1) / f = 0 := Int.ediv_eq_zero_of_lt (by omega) (by omega)
    rw [h2]
    omega
  · rw [if_pos (by omega)]
    rw [godiv_eq_ediv (show (0 : Int) ≤ d + f - d % f by omega)
      (show (0 : Int) ≤ f by omega)]
    have hmul : (d / f + 1) * f = d / f * f + f := by ring
    have h1 : d + f - d % f = 0 + (d / f + 1) * f := by omega
    have h2 : d + f - 1 = (d % f - 1) + (d / f + 1) * f := by omega
    rw [h1, h2, Int.add_mul_ediv_right _ _ (show f ≠ 0 by omega),
      Int.add_mul_ediv_right _ _ (show f ≠ 0 by omega)]
    have h3 : (0 : Int) / f = 0 := Int.zero_ediv f
    have h4 : (d % f - 1) / f = 0 := Int.ediv_eq_zero_of_lt (by omega) (by omega)
    rw [h3, h4]

/-- The `Values` walk on an interval that clips to no whole slot
(`y < x`): the first record at or past `x` bails out with an empty
accumulator. -/
theorem valuesLoop_empty :
    ∀ (runs : List (Nat × Nat)) (x y srcIndex : Int) (total : Nat),
      (∀ r ∈ runs, r.1 < 4294967296) → (∀ r ∈ runs, r.2 < 4) →
      0 ≤ srcIndex → srcIndex ≤ x → y < x →
      x ≤ srcIndex + sumRuns runs →
      valuesLoop x y total (encodeRuns runs) srcIndex [] = some [] := by
  intro runs
  induction runs with
  | nil =>
    intro x y si total _ _ _ _ _ _
    exact valuesLoop_nil x y total si []
  | cons r rest ih =>
    intro x y si total hlt hval hsi hsx hyx hx
    obtain ⟨b0, brest, hsplit, hp1, hp2, hp3⟩ :=
      parse_head_encode r.1 r.2 (hlt r (by simp)) (hval r (by simp))
        (encodeRuns rest)
    have hruns : encodeRuns (r :: rest) = b0 :: brest := hsplit
    have hsums : sumRuns (r :: rest) = r.1 + sumRuns rest := rfl
    rw [hruns, valuesLoop.eq_def]
    show (let q := parseLoop (b0 % 128 / 4) 5 b0 brest
      let count : Int := q.1
      let v := b0 % 4
      if si + count < x then
        valuesLoop x y total (brest.drop q.2) (si + count) ([] : List Nat)
      else
        let offset : Int := if ([] : List Nat).length = 0 then x - si else 0
        if y < si + count then
          let m := y - si - offset + 1
          if m ≤ 0 then some ([] : List Nat)
          else if ([] : List Nat).length + m.toNat ≤ total then
            some (([] : List Nat) ++ List.replicate m.toNat v)
          else none
        else
          let m := count - offset
          if m ≤ 0 then
            valuesLoop x y total (brest.drop q.2) (si + count) ([] : List Nat)
          else if ([] : List Nat).length + m.toNat ≤ total then
            valuesLoop x y total (brest.drop q.2) (si + count)
              (([] : List Nat) ++ List.replicate m.toNat v)
          else none) = some ([] : List Nat)
    simp only [hp1, hp3]
    have hdrop : brest.drop (parseLoop (b0 % 128 / 4) 5 b0 brest).2 =
        encodeRuns rest := by
      have h9 : (b0 :: brest).drop ((parseLoop (b0 % 128 / 4) 5 b0 brest).2 + 1) =
          brest.drop (parseLoop (b0 % 128 / 4) 5 b0 brest).2 := rfl
      rw [← h9, hp2, ← hruns]
      show (encode r.1 r.2 ++ encodeRuns rest).drop (encode r.1 r.2).length = _
      exact List.drop_left _ _
    rw [hdrop]
    by_cases hb1 : si + (r.1 : Int) < x
    · rw [if_pos hb1]
      exact ih x y (si + (r.1 : Int)) total
        (fun q hq => hlt q (by simp [hq])) (fun q hq => hval q (by simp [hq]))
        (by omega) (by omega) hyx (by omega)
    · rw [if_neg hb1]
      rw [if_pos (show (([] : List Nat)).length = 0 from rfl)]
      rw [if_pos (show y < si + ((r.1 : Nat) : Int) by omega)]
      rw [if_pos (show y - si - (x - si) + 1 ≤ 0 by omega)]



/-- **C6.** For every well-formed sequence with at least one recorded
slot and every closed interval `[a, b]` with `a <= b` lying entirely
inside the populated range `[ts, ts + (count - 1) * frequency]`, the raw
range query succeeds and its value slice is the slice of `All` (the
dense expansion) from slot index `ceil((a - ts) / f)` to
`floor((b - ts) / f)` inclusive, with returned timestamp
`ts + ceil((a - ts) / f) * f` (the ceiling written as
`(a - ts + f - 1) / f` over mathematical floor division). -/
theorem values_slice_of_all {s : Sequence} {runs : List (Nat × Nat)}
    (hwf : SeqWF s runs) (hc1 : 1 ≤ s.count) (hcl : s.count ≤ s.length)
    (hf : 1 ≤ s.frequency) (a b : Int) (hab : a ≤ b) (ha : s.ts ≤ a)
    (hb : b ≤ s.ts + ((s.count : Int) - 1) * (s.frequency : Int)) :
    s.all = some (denseOf runs) ∧
    s.values a b = .ok
      ((((denseOf runs).drop
            ((a - s.ts + (s.frequency : Int) - 1) / (s.frequency : Int)).toNat)).take
          ((b - s.ts) / (s.frequency : Int) + 1 -
            (a - s.ts + (s.frequency : Int) - 1) / (s.frequency : Int)).toNat,
        s.ts + (a - s.ts + (s.frequency : Int) - 1) / (s.frequency : Int) *
          (s.frequency : Int)) := by
  have hfI : (1 : Int) ≤ (s.frequency : Int) := by exact_mod_cast hf
  have hcI : (1 : Int) ≤ (s.count : Int) := by exact_mod_cast hc1
  have hclI : ((s.count : Int)) ≤ (s.length : Int) := by exact_mod_cast hcl
  have hsumI : ((sumRuns runs : Nat) : Int) = (s.count : Int) := by
    exact_mod_cast hwf.sum
  refine ⟨all_spec hwf, ?_⟩
  have hbe : b ≤ s.ts + ((s.length : Int) - 1) * (s.frequency : Int) := by
    have h1 : ((s.count : Int) - 1) * (s.frequency : Int) ≤
        ((s.length : Int) - 1) * (s.frequency : Int) :=
      mul_le_mul_of_nonneg_right (by omega) (by omega)
    omega
  have hint : s.interval.intersect ⟨a, b⟩ = some ⟨a, b⟩ := by
    simp only [Sequence.interval, Interval.intersect]
    rw [if_pos ha, if_pos hbe]
  have hxconv : godiv (ceilInt64 (a - s.ts) (s.frequency : Int)) (s.frequency : Int) =
      (a - s.ts + (s.frequency : Int) - 1) / (s.frequency : Int) :=
    godiv_ceilInt64 (by omega) hfI
  have hyconv : godiv (b - s.ts) (s.frequency : Int) =
      (b - s.ts) / (s.frequency : Int) :=
    godiv_eq_ediv (by omega) (by omega)
  have hf0 : s.frequency ≠ 0 := by omega
  have hx0 : 0 ≤ (a - s.ts + (s.frequency : Int) - 1) / (s.frequency : Int) :=
    Int.ediv_nonneg (by omega) (by omega)
  have hycnt : (b - s.ts) / (s.frequency : Int) ≤ (s.count : Int) - 1 := by
    have h1 : (b - s.ts) / (s.frequency : Int) ≤
        (((s.count : Int) - 1) * (s.frequency : Int)) / (s.frequency : Int) :=
      Int.ediv_le_ediv (by omega) (by omega)
    rwa [Int.mul_ediv_cancel _ (show (s.frequency : Int) ≠ 0 by omega)] at h1
  have hxy1 : (a - s.ts + (s.frequency : Int) - 1) / (s.frequency : Int) ≤
      (b - s.ts) / (s.frequency : Int) + 1 := by
    have h2 : (a - s.ts + (s.frequency : Int) - 1) / (s.frequency : Int) ≤
        (b - s.ts + (s.frequency : Int) - 1) / (s.frequency : Int) :=
      Int.ediv_le_ediv (by omega) (by omega)
    have h3 : b - s.ts + (s.frequency : Int) - 1 =
        (b - s.ts - 1) + 1 * (s.frequency : Int) := by ring
    have h4 : (b - s.ts + (s.frequency : Int) - 1) / (s.frequency : Int) =
        (b - s.ts - 1) / (s.frequency : Int) + 1 := by
      rw [h3, Int.add_mul_ediv_right _ _ (show (s.frequency : Int) ≠ 0 by omega)]
    have h5 : (b - s.ts - 1) / (s.frequency : Int) ≤
        (b - s.ts) / (s.frequency : Int) :=
      Int.ediv_le_ediv (by omega) (by omega)
    omega
  unfold Sequence.values
  rw [if_neg (show ¬ b < a by omega), hint]
  show (if s.frequency = 0 then Res.panic
    else
      match valuesLoop
          (godiv (ceilInt64 (a - s.ts) (s.frequency : Int)) (s.frequency : Int))
          (godiv (b - s.ts) (s.frequency : Int))
          (godiv (b - s.ts) (s.frequency : Int) -
            godiv (ceilInt64 (a - s.ts) (s.frequency : Int)) (s.frequency : Int) +
            1).toNat
          s.data 0 [] with
      | none => Res.panic
      | some acc =>
        Res.ok (acc ++ List.replicate
            ((godiv (b - s.ts) (s.frequency : Int) -
              godiv (ceilInt64 (a - s.ts) (s.frequency : Int)) (s.frequency : Int) +
              1).toNat - acc.length) StateUnknown,
          s.ts + godiv (ceilInt64 (a - s.ts) (s.frequency : Int)) (s.frequency : Int) *
            (s.frequency : Int))) = _
  rw [if_neg hf0, hwf.data_eq, hxconv, hyconv]
  by_cases hxy : (a - s.ts + (s.frequency : Int) - 1) / (s.frequency : Int) ≤
      (b - s.ts) / (s.frequency : Int)
  · have hl := valuesLoop_spec runs
      ((a - s.ts + (s.frequency : Int) - 1) / (s.frequency : Int))
      ((b - s.ts) / (s.frequency : Int)) 0
      (((b - s.ts) / (s.frequency : Int) -
        (a - s.ts + (s.frequency : Int) - 1) / (s.frequency : Int) + 1).toNat)
      [] hwf.pos hwf.lt hwf.val (by omega) hx0 hxy (by omega) (by omega)
      (by have hlen0 : ([] : List Nat).length = 0 := rfl
          omega)
      (by omega)
    rw [hl, sub_zero,
      show max ((a - s.ts + (s.frequency : Int) - 1) / (s.frequency : Int)) (0 : Int) =
        (a - s.ts + (s.frequency : Int) - 1) / (s.frequency : Int) by omega]
    simp only [List.nil_append]
    have hlen2 : (((denseOf runs).drop
        ((a - s.ts + (s.frequency : Int) - 1) / (s.frequency : Int)).toNat).take
          ((b - s.ts) / (s.frequency : Int) + 1 -
            (a - s.ts + (s.frequency : Int) - 1) / (s.frequency : Int)).toNat).length =
        ((b - s.ts) / (s.frequency : Int) -
          (a - s.ts + (s.frequency : Int) - 1) / (s.frequency : Int) + 1).toNat := by
      rw [List.length_take, List.length_drop, denseOf_length]
      omega
    rw [hlen2,
      show ((b - s.ts) / (s.frequency : Int) -
          (a - s.ts + (s.frequency : Int) - 1) / (s.frequency : Int) + 1).toNat -
        ((b - s.ts) / (s.frequency : Int) -
          (a - s.ts + (s.frequency : Int) - 1) / (s.frequency : Int) + 1).toNat = 0
        by omega]
    simp
  · push_neg at hxy
    have hempty := valuesLoop_empty runs
      ((a - s.ts + (s.frequency : Int) - 1) / (s.frequency : Int))
      ((b - s.ts) / (s.frequency : Int)) 0
      (((b - s.ts) / (s.frequency : Int) -
        (a - s.ts + (s.frequency : Int) - 1) / (s.frequency : Int) + 1).toNat)
      hwf.lt hwf.val (by omega) (by omega) hxy (by omega)
    rw [hempty,
      show ((b - s.ts) / (s.frequency : Int) -
        (a - s.ts + (s.frequency : Int) - 1) / (s.frequency : Int) + 1).toNat = 0
        by omega,
      show ((b - s.ts) / (s.frequency : Int) + 1 -
        (a - s.ts + (s.frequency : Int) - 1) / (s.frequency : Int)).toNat = 0
        by omega]
    simp

/-- Witness for C6: three active slots at frequency 60 starting at `0`,
queried on `[30, 120]`; the slice keeps slots `1` and `2`. -/
theorem values_slice_of_all_witness :
    (Sequence.mk 0 60 10 3 [13]).all = some [1, 1, 1] ∧
    (Sequence.mk 0 60 10 3 [13]).values 30 120 = .ok ([1, 1], 60) := by
  have hwf : SeqWF (Sequence.mk 0 60 10 3 [13]) [(3, 1)] := by
    refine ⟨?_, by decide, by decide, by decide, List.chain'_singleton _, rfl,
      by norm_num⟩
    show [13] = encode 3 1 ++ encodeRuns []
    rw [encode_of_lt (by norm_num) 1 (by norm_num)]
    decide
  have h := values_slice_of_all hwf (by norm_num) (by norm_num) (by norm_num)
    30 120 (by norm_num) (by norm_num) (by norm_num)
  refine ⟨?_, ?_⟩
  · rw [h.1]
    rfl
  · rw [h.2]
    rfl



/-! ## The grouped query: no panic, and the result shape -/

/-- A successful intersection clips to the pointwise max/min. -/
theorem intersect_some {i1 i2 r : Interval} (h1 : i1.start ≤ i1.stop)
    (h2 : i2.start ≤ i2.stop) (h : i1.intersect i2 = some r) :
    r.start = max i1.start i2.start ∧ r.stop = min i1.stop i2.stop ∧
      i1.start ≤ i2.stop ∧ i2.start ≤ i1.stop := by
  unfold Interval.intersect at h
  by_cases hc1 : i1.start ≤ i2.start
  · rw [if_pos hc1] at h
    by_cases hc2 : i2.stop ≤ i1.stop
    · rw [if_pos hc2] at h
      cases h
      exact ⟨by omega, by omega, by omega, by omega⟩
    · rw [if_neg hc2] at h
      by_cases hc3 : i2.start ≤ i1.stop
      · rw [if_pos hc3] at h
        cases h
        exact ⟨by show i2.start = max i1.start i2.start
                  omega,
          by show i1.stop = min i1.stop i2.stop
             omega,
          by omega, by omega⟩
      · rw [if_neg hc3] at h
        cases h
  · rw [if_neg hc1] at h
    by_cases hc2 : i1.start ≤ i2.stop
    · rw [if_pos hc2] at h
      by_cases hc3 : i2.stop ≤ i1.stop
      · rw [if_pos hc3] at h
        cases h
        exact ⟨by show i1.start = max i1.start i2.start
                  omega,
          by show i2.stop = min i1.stop i2.stop
             omega,
          by omega, by omega⟩
      · rw [if_neg hc3] at h
        cases h
        exact ⟨by omega, by omega, by omega, by omega⟩
    · rw [if_neg hc2] at h
      cases h

/-- Floor division is superadditive. -/
theorem ediv_add_ediv_le (a b f : Int) (hf : 1 ≤ f) :
    a / f + b / f ≤ (a + b) / f := by
  have hra : 0 ≤ a % f := Int.emod_nonneg a (by omega)
  have hrb : 0 ≤ b % f := Int.emod_nonneg b (by omega)
  have hda : f * (a / f) + a % f = a := Int.ediv_add_emod a f
  have hdb : f * (b / f) + b % f = b := Int.ediv_add_emod b f
  have h1 : a + b = (a % f + b % f) + (a / f + b / f) * f := by
    have : (a / f + b / f) * f = f * (a / f) + f * (b / f) := by ring
    omega
  rw [h1, Int.add_mul_ediv_right _ _ (show f ≠ 0 by omega)]
  have h2 : 0 ≤ (a % f + b % f) / f := Int.ediv_nonneg (by omega) (by omega)
  omega

/-- Go's truncated division of a negative numerator by a positive
denominator is nonpositive. -/
theorem godiv_nonpos {a f : Int} (ha : a ≤ 0) (hf : 1 ≤ f) :
    godiv a f ≤ 0 := by
  have h1 : godiv a f = -(godiv (-a) f) := by
    show Int.tdiv a f = -(Int.tdiv (-a) f)
    rw [Int.neg_tdiv]
    omega
  have h2 : 0 ≤ godiv (-a) f := by
    show 0 ≤ Int.tdiv (-a) f
    rw [Int.tdiv_eq_ediv (by omega) (by omega)]
    exact Int.ediv_nonneg (by omega) (by omega)
  omega



/-- One step of the inner grouping loop, zeta-expanded. -/
theorem queryInnerLoop_succ (fuel : Nat) (sum cnt : List Int)
    (src target x shift agg : Int) (v : Nat) (first : Bool) :
    queryInnerLoop (fuel + 1) sum cnt src target x shift agg v first =
      (if src < target then
        (if 0 ≤ godiv (shift + src - x) agg ∧
            (godiv (shift + src - x) agg).toNat < cnt.length then
          queryInnerLoop fuel
            (if v = 1 then sum.set (godiv (shift + src - x) agg).toNat (sum.getD (godiv (shift + src - x) agg).toNat 0 + (if target < src + (if first then agg - gomod (shift + src - x) agg else agg) then target - src else (if first then agg - gomod (shift + src - x) agg else agg))) else sum)
            (cnt.set (godiv (shift + src - x) agg).toNat (cnt.getD (godiv (shift + src - x) agg).toNat 0 + (if target < src + (if first then agg - gomod (shift + src - x) agg else agg) then target - src else (if first then agg - gomod (shift + src - x) agg else agg))))
            (src + (if target < src + (if first then agg - gomod (shift + src - x) agg else agg) then target - src else (if first then agg - gomod (shift + src - x) agg else agg))) target x shift agg v false
        else none)
      else some (sum, cnt)) := rfl

/-- The inner grouping loop with positive aggregation and enough fuel
never fails and preserves the vector lengths: every step advances `src`
by at least one slot, and the destination group of each visited slot
stays inside the vectors. -/
theorem queryInnerLoop_ok :
    ∀ (fuel : Nat) (sum cnt : List Int) (src target x shift agg : Int)
      (v : Nat) (first : Bool),
      1 ≤ agg → 0 ≤ shift → x ≤ src → (target - src).toNat < fuel →
      (godiv (shift + (target - 1) - x) agg).toNat < cnt.length →
      sum.length = cnt.length →
      ∃ sum2 cnt2,
        queryInnerLoop fuel sum cnt src target x shift agg v first =
          some (sum2, cnt2) ∧
        sum2.length = sum.length ∧ cnt2.length = cnt.length := by
  intro fuel
  induction fuel with
  | zero =>
    intro sum cnt src target x shift agg v first _ _ _ hfuel _ _
    omega
  | succ fuel ih =>
    intro sum cnt src target x shift agg v first hagg hshift hxs hfuel hbound hlen
    by_cases hst : src < target
    · have h0 : 0 ≤ shift + src - x := by omega
      have hmod : gomod (shift + src - x) agg = (shift + src - x) % agg :=
        Int.tmod_eq_emod (by omega) (by omega)
      have hm0 : 0 ≤ (shift + src - x) % agg := Int.emod_nonneg _ (by omega)
      have hm1 : (shift + src - x) % agg < agg := Int.emod_lt_of_pos _ (by omega)
      have hn1pos : 1 ≤ (if first then agg - gomod (shift + src - x) agg else agg) := by
        rw [hmod]
        split <;> omega
      have hn2pos : 1 ≤ (if target < src + (if first then agg - gomod (shift + src - x) agg else agg) then target - src else (if first then agg - gomod (shift + src - x) agg else agg)) := by
        split <;> omega
      have hn2le : src + (if target < src + (if first then agg - gomod (shift + src - x) agg else agg) then target - src else (if first then agg - gomod (shift + src - x) agg else agg)) ≤ target := by
        split <;> omega
      have hdst0 : 0 ≤ godiv (shift + src - x) agg := by
        show 0 ≤ Int.tdiv (shift + src - x) agg
        rw [Int.tdiv_eq_ediv (by omega) (by omega)]
        exact Int.ediv_nonneg (by omega) (by omega)
      have hdconv : godiv (shift + src - x) agg = (shift + src - x) / agg :=
        godiv_eq_ediv (by omega) (by omega)
      have hdconv2 : godiv (shift + (target - 1) - x) agg =
          (shift + (target - 1) - x) / agg :=
        godiv_eq_ediv (by omega) (by omega)
      have hdle : (shift + src - x) / agg ≤ (shift + (target - 1) - x) / agg :=
        Int.ediv_le_ediv (by omega) (by omega)
      have hdstlt : (godiv (shift + src - x) agg).toNat < cnt.length := by omega
      rw [queryInnerLoop_succ, if_pos hst, if_pos ⟨hdst0, hdstlt⟩]
      obtain ⟨sum2, cnt2, hq, hl1, hl2⟩ := ih
        (if v = 1 then sum.set (godiv (shift + src - x) agg).toNat (sum.getD (godiv (shift + src - x) agg).toNat 0 + (if target < src + (if first then agg - gomod (shift + src - x) agg else agg) then target - src else (if first then agg - gomod (shift + src - x) agg else agg))) else sum)
        (cnt.set (godiv (shift + src - x) agg).toNat (cnt.getD (godiv (shift + src - x) agg).toNat 0 + (if target < src + (if first then agg - gomod (shift + src - x) agg else agg) then target - src else (if first then agg - gomod (shift + src - x) agg else agg))))
        (src + (if target < src + (if first then agg - gomod (shift + src - x) agg else agg) then target - src else (if first then agg - gomod (shift + src - x) agg else agg))) target x shift agg v false
        hagg hshift (by omega) (by omega)
        (by rw [List.length_set]
            exact hbound)
        (by split <;> simp [List.length_set, hlen])
      refine ⟨sum2, cnt2, hq, ?_, ?_⟩
      · rw [hl1]
        split <;> simp [List.length_set]
      · rw [hl2, List.length_set]
    · refine ⟨sum, cnt, ?_, rfl, rfl⟩
      rw [queryInnerLoop_succ, if_neg hst]



/-- One step of the query walk, zeta-expanded. -/
theorem queryLoop_cons (x y shift agg : Int) (b0 : Nat) (rest : List Nat)
    (src : Int) (sum cnt : List Int) :
    queryLoop x y shift agg (b0 :: rest) src sum cnt =
      (if src + ((parseLoop (b0 % 128 / 4) 5 b0 rest).1 : Int) ≤ x ∨ b0 % 4 = StateUnknown then
        queryLoop x y shift agg (rest.drop (parseLoop (b0 % 128 / 4) 5 b0 rest).2) (src + ((parseLoop (b0 % 128 / 4) 5 b0 rest).1 : Int)) sum cnt
      else
        match queryInnerLoop (((if y < src + ((parseLoop (b0 % 128 / 4) 5 b0 rest).1 : Int) then y + 1 else src + ((parseLoop (b0 % 128 / 4) 5 b0 rest).1 : Int)) - (if x > src then x else src)).toNat + 1) sum cnt
            (if x > src then x else src) (if y < src + ((parseLoop (b0 % 128 / 4) 5 b0 rest).1 : Int) then y + 1 else src + ((parseLoop (b0 % 128 / 4) 5 b0 rest).1 : Int)) x shift agg (b0 % 4) true with
        | none => none
        | some (sum2, cnt2) =>
          if y < src + ((parseLoop (b0 % 128 / 4) 5 b0 rest).1 : Int) then some (sum2, cnt2)
          else queryLoop x y shift agg (rest.drop (parseLoop (b0 % 128 / 4) 5 b0 rest).2) (src + ((parseLoop (b0 % 128 / 4) 5 b0 rest).1 : Int)) sum2 cnt2) := by
  rw [queryLoop.eq_def]

/-- The query walk never fails on any byte buffer and preserves the
vector lengths, provided every group reachable below row `y` fits. -/
theorem queryLoop_ok :
    ∀ (n : Nat) (data : List Nat), data.length ≤ n →
      ∀ (x y shift agg src : Int) (sum cnt : List Int),
      1 ≤ agg → 0 ≤ shift →
      (godiv (shift + y - x) agg).toNat < cnt.length →
      sum.length = cnt.length →
      ∃ sum2 cnt2,
        queryLoop x y shift agg data src sum cnt = some (sum2, cnt2) ∧
        sum2.length = sum.length ∧ cnt2.length = cnt.length := by
  intro n
  induction n with
  | zero =>
    intro data hd x y shift agg src sum cnt _ _ _ _
    have hdata : data = [] := List.length_eq_zero.mp (by omega)
    subst hdata
    exact ⟨sum, cnt, by rw [queryLoop.eq_def], rfl, rfl⟩
  | succ n ih =>
    intro data hd x y shift agg src sum cnt hagg hshift hbound hlen
    cases data with
    | nil => exact ⟨sum, cnt, by rw [queryLoop.eq_def], rfl, rfl⟩
    | cons b0 rest =>
      have hd2 : rest.length + 1 ≤ n + 1 := by simpa using hd
      have hdrop : (rest.drop (parseLoop (b0 % 128 / 4) 5 b0 rest).2).length ≤ n := by
        rw [List.length_drop]
        omega
      by_cases hskip : src + ((parseLoop (b0 % 128 / 4) 5 b0 rest).1 : Int) ≤ x ∨ b0 % 4 = StateUnknown
      · obtain ⟨sum2, cnt2, hq, hl1, hl2⟩ := ih (rest.drop (parseLoop (b0 % 128 / 4) 5 b0 rest).2) hdrop
          x y shift agg (src + ((parseLoop (b0 % 128 / 4) 5 b0 rest).1 : Int)) sum cnt hagg hshift hbound hlen
        refine ⟨sum2, cnt2, ?_, hl1, hl2⟩
        rw [queryLoop_cons, if_pos hskip]
        exact hq
      · have hxsrc2 : x ≤ (if x > src then x else src) := by split <;> omega
        have hlen1 : 1 ≤ cnt.length := by omega
        by_cases hyn : y < src + ((parseLoop (b0 % 128 / 4) 5 b0 rest).1 : Int)
        · have hb2 : (godiv (shift + (y + 1 - 1) - x) agg).toNat < cnt.length := by
            have he : y + 1 - (1 : Int) = y := by ring
            rw [he]
            exact hbound
          obtain ⟨sum2, cnt2, hq, hl1, hl2⟩ := queryInnerLoop_ok
            ((y + 1 - (if x > src then x else src)).toNat + 1) sum cnt (if x > src then x else src) (y + 1) x shift agg
            (b0 % 4) true hagg hshift hxsrc2 (by omega) hb2 hlen
          refine ⟨sum2, cnt2, ?_, hl1, hl2⟩
          rw [queryLoop_cons, if_neg hskip, if_pos hyn, hq]
          show (if y < src + ((parseLoop (b0 % 128 / 4) 5 b0 rest).1 : Int) then some (sum2, cnt2)
            else queryLoop x y shift agg (rest.drop (parseLoop (b0 % 128 / 4) 5 b0 rest).2)
              (src + ((parseLoop (b0 % 128 / 4) 5 b0 rest).1 : Int)) sum2 cnt2) = some (sum2, cnt2)
          rw [if_pos hyn]
        · have hb2 : (godiv (shift + (src + ((parseLoop (b0 % 128 / 4) 5 b0 rest).1 : Int) - 1) - x) agg).toNat <
              cnt.length := by
            by_cases hneg : shift + (src + ((parseLoop (b0 % 128 / 4) 5 b0 rest).1 : Int) - 1) - x < 0
            · have := godiv_nonpos
                (show shift + (src + ((parseLoop (b0 % 128 / 4) 5 b0 rest).1 : Int) - 1) - x ≤ 0 by omega) hagg
              omega
            · have hc1 : godiv (shift + (src + ((parseLoop (b0 % 128 / 4) 5 b0 rest).1 : Int) - 1) - x) agg =
                  (shift + (src + ((parseLoop (b0 % 128 / 4) 5 b0 rest).1 : Int) - 1) - x) / agg :=
                godiv_eq_ediv (by omega) (by omega)
              have hc2 : godiv (shift + y - x) agg = (shift + y - x) / agg :=
                godiv_eq_ediv (by omega) (by omega)
              have hc3 : (shift + (src + ((parseLoop (b0 % 128 / 4) 5 b0 rest).1 : Int) - 1) - x) / agg ≤
                  (shift + y - x) / agg :=
                Int.ediv_le_ediv (by omega) (by omega)
              omega
          obtain ⟨sum2, cnt2, hq, hl1, hl2⟩ := queryInnerLoop_ok
            ((src + ((parseLoop (b0 % 128 / 4) 5 b0 rest).1 : Int) - (if x > src then x else src)).toNat + 1) sum cnt (if x > src then x else src) (src + ((parseLoop (b0 % 128 / 4) 5 b0 rest).1 : Int)) x shift agg
            (b0 % 4) true hagg hshift hxsrc2 (by omega) hb2 hlen
          obtain ⟨sum3, cnt3, hq3, hl3, hl4⟩ := ih (rest.drop (parseLoop (b0 % 128 / 4) 5 b0 rest).2) hdrop
            x y shift agg (src + ((parseLoop (b0 % 128 / 4) 5 b0 rest).1 : Int)) sum2 cnt2 hagg hshift
            (by rw [hl2]
                exact hbound)
            (by omega)
          refine ⟨sum3, cnt3, ?_, by omega, by omega⟩
          rw [queryLoop_cons, if_neg hskip, if_neg hyn, hq]
          show (if y < src + ((parseLoop (b0 % 128 / 4) 5 b0 rest).1 : Int) then some (sum2, cnt2)
            else queryLoop x y shift agg (rest.drop (parseLoop (b0 % 128 / 4) 5 b0 rest).2)
              (src + ((parseLoop (b0 % 128 / 4) 5 b0 rest).1 : Int)) sum2 cnt2) = some (sum3, cnt3)
          rw [if_neg hyn]
          exact hq3



/-- Unfolding `query` to a let-free form. -/
theorem query_eq (s : Sequence) (start stop d : Int) :
    s.query start stop d =
      (if stop < start then .err "invalid time filter"
      else if s.frequency = 0 then .panic
      else if godiv d (s.frequency : Int) < 1 then .err "invalid grouping interval"
      else
        match s.interval.intersect ⟨start, stop⟩ with
        | none =>
          .ok (QuerySet.mk start ((s.frequency : Int) * godiv d (s.frequency : Int))
            (List.replicate (godiv (godiv (stop - start) (s.frequency : Int)) (godiv d (s.frequency : Int)) + 1).toNat 0) (List.replicate (godiv (godiv (stop - start) (s.frequency : Int)) (godiv d (s.frequency : Int)) + 1).toNat 0))
        | some r =>
          match queryLoop (godiv (ceilInt64 (r.start - s.ts) (s.frequency : Int)) (s.frequency : Int)) (godiv (r.stop - s.ts) (s.frequency : Int)) (if start < s.ts then godiv (s.ts - start) (s.frequency : Int) else 0) (godiv d (s.frequency : Int)) s.data 0
              (List.replicate (godiv (godiv (stop - start) (s.frequency : Int)) (godiv d (s.frequency : Int)) + 1).toNat 0) (List.replicate (godiv (godiv (stop - start) (s.frequency : Int)) (godiv d (s.frequency : Int)) + 1).toNat 0) with
          | none => .panic
          | some (sum2, cnt2) =>
            .ok (QuerySet.mk start ((s.frequency : Int) * godiv d (s.frequency : Int)) sum2 cnt2)) := rfl

/-- The floor of a sum is at most the floor of one part plus the
ceiling of the other. -/
theorem ediv_add_ceil (u w f : Int) (hu : 0 ≤ u) (hw : 0 ≤ w) (hf : 1 ≤ f) :
    (u + w) / f ≤ u / f + (w + f - 1) / f := by
  have hru0 : 0 ≤ u % f := Int.emod_nonneg u (by omega)
  have hruf : u % f < f := Int.emod_lt_of_pos u (by omega)
  have hrw0 : 0 ≤ w % f := Int.emod_nonneg w (by omega)
  have hrwf : w % f < f := Int.emod_lt_of_pos w (by omega)
  have hdu : f * (u / f) + u % f = u := Int.ediv_add_emod u f
  have hdw : f * (w / f) + w % f = w := Int.ediv_add_emod w f
  have hcu : f * (u / f) = u / f * f := mul_comm _ _
  have hcw : f * (w / f) = w / f * f := mul_comm _ _
  have h1 : u + w = (u % f + w % f) + (u / f + w / f) * f := by
    have hmul : (u / f + w / f) * f = u / f * f + w / f * f := by ring
    omega
  rw [h1, Int.add_mul_ediv_right _ _ (show f ≠ 0 by omega)]
  by_cases hrw : w % f = 0
  · have h2 : w + f - 1 = (f - 1) + (w / f) * f := by omega
    rw [h2, Int.add_mul_ediv_right _ _ (show f ≠ 0 by omega)]
    have h3 : (f - 1) / f = 0 := Int.ediv_eq_zero_of_lt (by omega) (by omega)
    have h4 : (u % f + w % f) / f = 0 := Int.ediv_eq_zero_of_lt (by omega) (by omega)
    omega
  · have h2 : w + f - 1 = (w % f - 1) + (w / f + 1) * f := by
      have hmul : (w / f + 1) * f = w / f * f + f := by ring
      omega
    rw [h2, Int.add_mul_ediv_right _ _ (show f ≠ 0 by omega)]
    have h3 : (w % f - 1) / f = 0 := Int.ediv_eq_zero_of_lt (by omega) (by omega)
    have h4 : (u % f + w % f) / f ≤ 1 := by
      have h5 : u % f + w % f ≤ (f - 2) + 1 * f := by omega
      have h6 : (u % f + w % f) / f ≤ ((f - 2) + 1 * f) / f :=
        Int.ediv_le_ediv (by omega) h5
      rw [Int.add_mul_ediv_right _ _ (show f ≠ 0 by omega)] at h6
      have h7 : (f - 2) / f ≤ 0 := by
        by_cases hf2 : 2 ≤ f
        · rw [Int.ediv_eq_zero_of_lt (by omega) (by omega)]
        · have hfeq : f = 1 := by omega
          rw [hfeq]
          norm_num
      omega
    omega



/-- **C5.** The grouped query fails with the invalid-time-filter error
exactly when `start > stop`, with the invalid-grouping-interval error
exactly when `floor(d / frequency) < 1` (given a well-ordered filter);
in every other case it returns, without panicking, a result with
`timestamp = start`, `frequency = frequency * aggregation`, and `sum`
and `count` vectors of length
`floor((stop - start) / frequency / aggregation) + 1`; when the filter
does not intersect the covered interval both vectors are the untouched
zero fills. -/
theorem query_errors_and_shape (s : Sequence) (start stop d : Int)
    (hf : 1 ≤ s.frequency) (hlen : 1 ≤ s.length) :
    (s.query start stop d = .err "invalid time filter" ↔ stop < start) ∧
    (s.query start stop d = .err "invalid grouping interval" ↔
      (start ≤ stop ∧ d / (s.frequency : Int) < 1)) ∧
    (start ≤ stop → 1 ≤ d / (s.frequency : Int) →
      ∃ qs, s.query start stop d = .ok qs ∧
        qs.timestamp = start ∧
        qs.frequency = (s.frequency : Int) * (d / (s.frequency : Int)) ∧
        qs.sum.length = ((stop - start) / (s.frequency : Int) / (d / (s.frequency : Int)) + 1).toNat ∧
        qs.count.length = ((stop - start) / (s.frequency : Int) / (d / (s.frequency : Int)) + 1).toNat ∧
        (s.interval.intersect ⟨start, stop⟩ = none →
          qs.sum = List.replicate ((stop - start) / (s.frequency : Int) / (d / (s.frequency : Int)) + 1).toNat 0 ∧
          qs.count = List.replicate ((stop - start) / (s.frequency : Int) / (d / (s.frequency : Int)) + 1).toNat 0)) := by
  have hfI : (1 : Int) ≤ (s.frequency : Int) := by exact_mod_cast hf
  have hfpos : (0 : Int) < (s.frequency : Int) := by omega
  have hf0 : s.frequency ≠ 0 := by omega
  have hlenI : (1 : Int) ≤ (s.length : Int) := by exact_mod_cast hlen
  have hE0 : 0 ≤ ((s.length : Int) - 1) * (s.frequency : Int) := mul_nonneg (by omega) (by omega)
  have haggiff : godiv d (s.frequency : Int) < 1 ↔ d / (s.frequency : Int) < 1 := by
    by_cases hd0 : 0 ≤ d
    · rw [godiv_eq_ediv hd0 (by omega)]
    · push_neg at hd0
      have h1 : godiv d (s.frequency : Int) ≤ 0 := godiv_nonpos (by omega) hfI
      have h2 : d / (s.frequency : Int) ≤ 0 / (s.frequency : Int) := Int.ediv_le_ediv hfpos (by omega)
      rw [Int.zero_ediv] at h2
      constructor <;> intro <;> omega
  have hnoerr : ∀ msg : String, ¬ stop < start → ¬ godiv d (s.frequency : Int) < 1 →
      s.query start stop d ≠ Res.err msg := by
    intro msg hc ha h
    rw [query_eq, if_neg hc, if_neg hf0, if_neg ha] at h
    cases hi : s.interval.intersect ⟨start, stop⟩ with
    | none =>
      rw [hi] at h
      have hok : Res.ok (QuerySet.mk start ((s.frequency : Int) * godiv d (s.frequency : Int))
          (List.replicate (godiv (godiv (stop - start) (s.frequency : Int)) (godiv d (s.frequency : Int)) + 1).toNat 0) (List.replicate (godiv (godiv (stop - start) (s.frequency : Int)) (godiv d (s.frequency : Int)) + 1).toNat 0)) =
          Res.err msg := h
      cases hok
    | some r =>
      rw [hi] at h
      have h9 : (match queryLoop (godiv (ceilInt64 (r.start - s.ts) (s.frequency : Int)) (s.frequency : Int)) (godiv (r.stop - s.ts) (s.frequency : Int)) (if start < s.ts then godiv (s.ts - start) (s.frequency : Int) else 0) (godiv d (s.frequency : Int)) s.data 0 (List.replicate (godiv (godiv (stop - start) (s.frequency : Int)) (godiv d (s.frequency : Int)) + 1).toNat 0) (List.replicate (godiv (godiv (stop - start) (s.frequency : Int)) (godiv d (s.frequency : Int)) + 1).toNat 0) with
          | none => Res.panic
          | some (sum2, cnt2) =>
            Res.ok (QuerySet.mk start ((s.frequency : Int) * godiv d (s.frequency : Int)) sum2 cnt2)) =
          Res.err msg := h
      cases hql : queryLoop (godiv (ceilInt64 (r.start - s.ts) (s.frequency : Int)) (s.frequency : Int)) (godiv (r.stop - s.ts) (s.frequency : Int)) (if start < s.ts then godiv (s.ts - start) (s.frequency : Int) else 0) (godiv d (s.frequency : Int)) s.data 0 (List.replicate (godiv (godiv (stop - start) (s.frequency : Int)) (godiv d (s.frequency : Int)) + 1).toNat 0) (List.replicate (godiv (godiv (stop - start) (s.frequency : Int)) (godiv d (s.frequency : Int)) + 1).toNat 0) with
      | none =>
        rw [hql] at h9
        have hok : Res.panic = Res.err msg := h9
        cases hok
      | some p =>
        obtain ⟨sum2, cnt2⟩ := p
        rw [hql] at h9
        have hok : Res.ok (QuerySet.mk start ((s.frequency : Int) * godiv d (s.frequency : Int)) sum2 cnt2) =
            Res.err msg := h9
        cases hok
  refine ⟨?_, ?_, ?_⟩
  · constructor
    · intro h
      by_contra hcon
      push_neg at hcon
      by_cases hagg : godiv d (s.frequency : Int) < 1
      · rw [query_eq, if_neg (by omega), if_neg hf0, if_pos hagg] at h
        exact absurd (Res.err.inj h) (by decide)
      · exact hnoerr _ (by omega) hagg h
    · intro h
      rw [query_eq, if_pos h]
  · constructor
    · intro h
      have hc : ¬ stop < start := by
        intro hlt
        rw [query_eq, if_pos hlt] at h
        exact absurd (Res.err.inj h) (by decide)
      have ha : godiv d (s.frequency : Int) < 1 := by
        by_contra ha
        exact hnoerr _ hc ha h
      exact ⟨by omega, haggiff.mp ha⟩
    · rintro ⟨hc, ha⟩
      rw [query_eq, if_neg (by omega), if_neg hf0, if_pos (haggiff.mpr ha)]
  · intro h1 h2
    have hd0 : 0 ≤ d := by
      by_contra hdn
      push_neg at hdn
      have h3 : d / (s.frequency : Int) ≤ 0 / (s.frequency : Int) := Int.ediv_le_ediv hfpos (by omega)
      rw [Int.zero_ediv] at h3
      omega
    have haggeq : godiv d (s.frequency : Int) = d / (s.frequency : Int) := godiv_eq_ediv hd0 (by omega)
    have hio : godiv (stop - start) (s.frequency : Int) = (stop - start) / (s.frequency : Int) :=
      godiv_eq_ediv (by omega) (by omega)
    have hB0 : 0 ≤ (stop - start) / (s.frequency : Int) := Int.ediv_nonneg (by omega) (by omega)
    have hoo2 : godiv ((stop - start) / (s.frequency : Int)) (d / (s.frequency : Int)) =
        (stop - start) / (s.frequency : Int) / (d / (s.frequency : Int)) := godiv_eq_ediv hB0 (by omega)
    have hBagg : 0 ≤ (stop - start) / (s.frequency : Int) / (d / (s.frequency : Int)) :=
      Int.ediv_nonneg hB0 (by omega)
    rw [query_eq, if_neg (by omega), if_neg hf0,
      if_neg (show ¬ godiv d (s.frequency : Int) < 1 by rw [haggeq]; omega)]
    rw [haggeq, hio, hoo2]
    cases hi : s.interval.intersect ⟨start, stop⟩ with
    | none =>
      exact ⟨QuerySet.mk start ((s.frequency : Int) * (d / (s.frequency : Int)))
          (List.replicate ((stop - start) / (s.frequency : Int) / (d / (s.frequency : Int)) + 1).toNat 0) (List.replicate ((stop - start) / (s.frequency : Int) / (d / (s.frequency : Int)) + 1).toNat 0),
        rfl, rfl, rfl, by simp, by simp, fun _ => ⟨rfl, rfl⟩⟩
    | some r =>
      have hI1 : s.interval.start ≤ s.interval.stop := by
        show s.ts ≤ s.ts + ((s.length : Int) - 1) * (s.frequency : Int)
        omega
      obtain ⟨hr1, hr2, hr3, hr4⟩ := intersect_some hI1
        (show (⟨start, stop⟩ : Interval).start ≤ (⟨start, stop⟩ : Interval).stop
          from h1) hi
      have hrs : r.start = max s.ts start := hr1
      have hre : r.stop = min (s.ts + ((s.length : Int) - 1) * (s.frequency : Int)) stop := hr2
      have hr3x : s.ts ≤ stop := hr3
      have hr4x : start ≤ s.ts + ((s.length : Int) - 1) * (s.frequency : Int) := hr4
      have hrs0 : 0 ≤ r.start - s.ts := by omega
      have hrstop0 : 0 ≤ r.stop - s.ts := by omega
      have hkey : (if start < s.ts then godiv (s.ts - start) (s.frequency : Int) else 0) + (godiv (r.stop - s.ts) (s.frequency : Int)) - (godiv (ceilInt64 (r.start - s.ts) (s.frequency : Int)) (s.frequency : Int)) ≤ (stop - start) / (s.frequency : Int) := by
        have hye : godiv (r.stop - s.ts) (s.frequency : Int) = (r.stop - s.ts) / (s.frequency : Int) :=
          godiv_eq_ediv (by omega) (by omega)
        by_cases hsts : start < s.ts
        · have hrseq : r.start = s.ts := by omega
          rw [if_pos hsts, hrseq]
          have hxe : godiv (ceilInt64 (s.ts - s.ts) (s.frequency : Int)) (s.frequency : Int) =
              (s.ts - s.ts + (s.frequency : Int) - 1) / (s.frequency : Int) := godiv_ceilInt64 (by omega) hfI
          have hxv : (s.ts - s.ts + (s.frequency : Int) - 1) / (s.frequency : Int) = 0 := by
            rw [show s.ts - s.ts + (s.frequency : Int) - 1 = (s.frequency : Int) - 1 by ring]
            exact Int.ediv_eq_zero_of_lt (by omega) (by omega)
          have hsh : godiv (s.ts - start) (s.frequency : Int) = (s.ts - start) / (s.frequency : Int) :=
            godiv_eq_ediv (by omega) (by omega)
          have hsup := ediv_add_ediv_le (s.ts - start) (r.stop - s.ts) (s.frequency : Int) hfI
          rw [show s.ts - start + (r.stop - s.ts) = r.stop - start by ring] at hsup
          have hmono : (r.stop - start) / (s.frequency : Int) ≤ (stop - start) / (s.frequency : Int) :=
            Int.ediv_le_ediv (by omega) (by omega)
          rw [hsh, hye, hxe, hxv]
          omega
        · have hrseq : r.start = start := by omega
          rw [if_neg hsts, hrseq]
          have hxe : godiv (ceilInt64 (start - s.ts) (s.frequency : Int)) (s.frequency : Int) =
              (start - s.ts + (s.frequency : Int) - 1) / (s.frequency : Int) := godiv_ceilInt64 (by omega) hfI
          have hyst : (r.stop - s.ts) / (s.frequency : Int) ≤ (stop - s.ts) / (s.frequency : Int) :=
            Int.ediv_le_ediv (by omega) (by omega)
          have hceil := ediv_add_ceil (stop - start) (start - s.ts) (s.frequency : Int)
            (by omega) (by omega) hfI
          rw [show stop - start + (start - s.ts) = stop - s.ts by ring] at hceil
          rw [hye, hxe]
          omega
      have hshift0 : 0 ≤ (if start < s.ts then godiv (s.ts - start) (s.frequency : Int) else 0) := by
        by_cases hsts : start < s.ts
        · rw [if_pos hsts]
          show 0 ≤ Int.tdiv (s.ts - start) (s.frequency : Int)
          rw [Int.tdiv_eq_ediv (by omega) (by omega)]
          exact Int.ediv_nonneg (by omega) (by omega)
        · rw [if_neg hsts]
      have hbound : (godiv ((if start < s.ts then godiv (s.ts - start) (s.frequency : Int) else 0) + (godiv (r.stop - s.ts) (s.frequency : Int)) - (godiv (ceilInt64 (r.start - s.ts) (s.frequency : Int)) (s.frequency : Int))) (d / (s.frequency : Int))).toNat <
          ((stop - start) / (s.frequency : Int) / (d / (s.frequency : Int)) + 1).toNat := by
        by_cases hneg : (if start < s.ts then godiv (s.ts - start) (s.frequency : Int) else 0) + (godiv (r.stop - s.ts) (s.frequency : Int)) - (godiv (ceilInt64 (r.start - s.ts) (s.frequency : Int)) (s.frequency : Int)) < 0
        · have h5 : godiv ((if start < s.ts then godiv (s.ts - start) (s.frequency : Int) else 0) + (godiv (r.stop - s.ts) (s.frequency : Int)) - (godiv (ceilInt64 (r.start - s.ts) (s.frequency : Int)) (s.frequency : Int))) (d / (s.frequency : Int)) ≤ 0 :=
            godiv_nonpos (by omega) (by omega)
          omega
        · have h5 : godiv ((if start < s.ts then godiv (s.ts - start) (s.frequency : Int) else 0) + (godiv (r.stop - s.ts) (s.frequency : Int)) - (godiv (ceilInt64 (r.start - s.ts) (s.frequency : Int)) (s.frequency : Int))) (d / (s.frequency : Int)) =
              ((if start < s.ts then godiv (s.ts - start) (s.frequency : Int) else 0) + (godiv (r.stop - s.ts) (s.frequency : Int)) - (godiv (ceilInt64 (r.start - s.ts) (s.frequency : Int)) (s.frequency : Int))) / (d / (s.frequency : Int)) :=
            godiv_eq_ediv (by omega) (by omega)
          have h6 : ((if start < s.ts then godiv (s.ts - start) (s.frequency : Int) else 0) + (godiv (r.stop - s.ts) (s.frequency : Int)) - (godiv (ceilInt64 (r.start - s.ts) (s.frequency : Int)) (s.frequency : Int))) / (d / (s.frequency : Int)) ≤
              (stop - start) / (s.frequency : Int) / (d / (s.frequency : Int)) :=
            Int.ediv_le_ediv (by omega) hkey
          omega
      obtain ⟨sum2, cnt2, hq, hl1, hl2⟩ := queryLoop_ok s.data.length s.data
        le_rfl (godiv (ceilInt64 (r.start - s.ts) (s.frequency : Int)) (s.frequency : Int)) (godiv (r.stop - s.ts) (s.frequency : Int)) (if start < s.ts then godiv (s.ts - start) (s.frequency : Int) else 0) (d / (s.frequency : Int)) 0
        (List.replicate ((stop - start) / (s.frequency : Int) / (d / (s.frequency : Int)) + 1).toNat 0) (List.replicate ((stop - start) / (s.frequency : Int) / (d / (s.frequency : Int)) + 1).toNat 0)
        h2 hshift0
        (by rw [List.length_replicate]
            exact hbound)
        rfl
      refine ⟨QuerySet.mk start ((s.frequency : Int) * (d / (s.frequency : Int))) sum2 cnt2,
        ?_, rfl, rfl, ?_, ?_, ?_⟩
      · show (match queryLoop (godiv (ceilInt64 (r.start - s.ts) (s.frequency : Int)) (s.frequency : Int)) (godiv (r.stop - s.ts) (s.frequency : Int)) (if start < s.ts then godiv (s.ts - start) (s.frequency : Int) else 0) (d / (s.frequency : Int)) s.data 0 (List.replicate ((stop - start) / (s.frequency : Int) / (d / (s.frequency : Int)) + 1).toNat 0) (List.replicate ((stop - start) / (s.frequency : Int) / (d / (s.frequency : Int)) + 1).toNat 0) with
          | none => Res.panic
          | some (a, b) => Res.ok (QuerySet.mk start ((s.frequency : Int) * (d / (s.frequency : Int))) a b)) =
          Res.ok (QuerySet.mk start ((s.frequency : Int) * (d / (s.frequency : Int))) sum2 cnt2)
        rw [hq]
      · show sum2.length = ((stop - start) / (s.frequency : Int) / (d / (s.frequency : Int)) + 1).toNat
        rw [hl1, List.length_replicate]
      · show cnt2.length = ((stop - start) / (s.frequency : Int) / (d / (s.frequency : Int)) + 1).toNat
        rw [hl2, List.length_replicate]
      · intro hnone
        cases hnone



/-- Witness for C5: grouping ten minute slots by two-minute intervals
over `[0, 600]` gives six groups. -/
theorem query_errors_and_shape_witness :
    ∃ qs, (Sequence.mk 0 60 10 3 [13]).query 0 600 120 = .ok qs ∧
      qs.timestamp = 0 ∧ qs.frequency = 120 ∧
      qs.sum.length = 6 ∧ qs.count.length = 6 := by
  obtain ⟨qs, hok, ht, hfq, hs, hc, _⟩ :=
    (query_errors_and_shape (Sequence.mk 0 60 10 3 [13]) 0 600 120 (by norm_num)
      (by norm_num)).2.2 (by norm_num) (by decide)
  refine ⟨qs, hok, ht, ?_, ?_, ?_⟩
  · rw [hfq]
    decide
  · rw [hs]
    rfl
  · rw [hc]
    rfl


end RunLength
